import Mathlib

/-!
Verification of the WFBFA/SNOMOR Paths solver against its specification.

The Rust sources embedded here:
- src/Real_case/Paths/src/graph.rs : mixed generic graph, Dijkstra shortest paths
  (point-to-point and region-to-region), the PWRP heuristic solver.
- src/Paths/src/plow.rs : the annealing plow solver, its initial allocation,
  solution-to-allocation update, acceptance rules, and the three edge
  specialisations (fly / road / sidewalk).
- src/Paths/src/meta.rs : parameter records.
- src/Real_case/Paths/src/data.rs : the Distance impl (squared euclidean, already
  rational) and the vehicles configuration record.

Modelling conventions, applied uniformly:
- Rust u64 node ids are Nat.
- N64 and f64 quantities are ℤ (exact arithmetic). The initial
  N64::infinity sentinels of the annealing loop are Option ℤ with none = infinity.
- HashSet<&E> is Finset E; HashSet iteration order, which Rust leaves
  unspecified (hash order), is fixed in the model to a deterministic order
  (list order of the bucket, or the sorted order of a Finset).
- The binary heap keyed by negated distance is modelled by selecting, from the
  frontier, the node of minimal current tentative distance (ties by node id);
  the crate updates the stored priority together with the dp entry, so the
  priority of a queued node always equals its dp distance and the heap maximum
  of negated distances is exactly this minimum.
- Rust panics (index out of bounds, unwrap on None, gen_range on an empty
  range, the solve panic on unreachable edges) are modelled by Option.none at
  the top level, or by a dedicated constructor where a result type is needed.
- Loops without structural termination take fuel; the wrappers instantiate the
  fuel with a bound that is provably sufficient in the situations the claims
  speak about (nonnegative weights).  Fuel exhaustion is a separate
  constructor and corresponds to executions in which the Rust loop would not
  have terminated.
- Random draws (rand::thread_rng) are oracle streams passed as arguments; the
  floating point comparison of a uniform draw against exp(..) in the improve
  acceptance is a Bool oracle.
-/

namespace SNOMOR

/-- Edge trait (graph.rs 15-48): endpoints, directedness. Node ids are Nat. -/
class EdgeLike (E : Type) where
  p1 : E → Nat
  p2 : E → Nat
  directed : E → Bool

open EdgeLike

/-- graph.rs 27-33: assuming id is one end of the edge, the other end. -/
def other {E : Type} [EdgeLike E] (e : E) (id : Nat) : Nat :=
  if id = p1 e then p2 e else p1 e

/-- graph.rs 22-25: whether the edge goes from a vertex to itself. -/
def is_cyclic {E : Type} [EdgeLike E] (e : E) : Bool :=
  decide (p1 e = p2 e)

/-- graph.rs 38-40: whether one can traverse the edge and end up in node id. -/
def is_incoming {E : Type} [EdgeLike E] (dir : Bool) (e : E) (id : Nat) : Bool :=
  decide (id = p2 e) || (decide (id = p1 e) && (!dir || !directed e))

/-- graph.rs 45-47: whether one can traverse the edge starting from node id. -/
def is_outgoing {E : Type} [EdgeLike E] (dir : Bool) (e : E) (id : Nat) : Bool :=
  decide (id = p1 e) || (decide (id = p2 e) && (!dir || !directed e))

/-- graph.rs 56-66: the graph. nodes is the key set of the node HashMap (node
payloads are carried separately by the callers that need them); buckets is the
IndexMap of edge sets, total with an empty default, which mirrors get_edges
falling back to the always empty set. Buckets are lists: the model fixes the
unspecified HashSet iteration order. -/
structure Graph (E : Type) where
  nodes : Finset Nat
  buckets : Nat → List E

/-- graph.rs 96-98: all edges of a node; empty for unknown nodes. -/
def get_edges {E : Type} (g : Graph E) (n : Nat) : List E :=
  g.buckets n

/-- graph.rs 100-102: whether the given node has no edges. -/
def is_orphan {E : Type} (g : Graph E) (n : Nat) : Bool :=
  (get_edges g n).isEmpty

/-- graph.rs 104-106: all edges between two nodes. -/
def get_edges_between {E : Type} [EdgeLike E] (g : Graph E) (n1 n2 : Nat) : List E :=
  (get_edges g n1).filter (fun e => decide (other e n1 = n2))

/-- HashSet::insert keeps the set free of duplicates: insert only if absent. -/
def hinsert {E : Type} [DecidableEq E] (e : E) (l : List E) : List E :=
  if e ∈ l then l else l ++ [e]

/-- Pointwise bucket update. -/
def bupd {E : Type} (b : Nat → List E) (n : Nat) (l : List E) : Nat → List E :=
  fun m => if m = n then l else b m

/-- graph.rs 136-146: add an edge; succeeds iff both endpoints exist; a cyclic
edge goes into the p2 bucket only, a non-cyclic one into both buckets. -/
def add_edge {E : Type} [EdgeLike E] [DecidableEq E] (g : Graph E) (e : E) :
    Bool × Graph E :=
  if p1 e ∈ g.nodes ∧ p2 e ∈ g.nodes then
    let g1 : Graph E :=
      if is_cyclic e then g
      else { g with buckets := bupd g.buckets (p1 e) (hinsert e (g.buckets (p1 e))) }
    (true, { g1 with buckets := bupd g1.buckets (p2 e) (hinsert e (g1.buckets (p2 e))) })
  else (false, g)

/-- graph.rs 148-158: remove an edge; the result Bool only reflects the
existence of the endpoint nodes (the HashSet::remove return value is dropped). -/
def remove_edge {E : Type} [EdgeLike E] [DecidableEq E] (g : Graph E) (e : E) :
    Bool × Graph E :=
  if p1 e ∈ g.nodes ∧ p2 e ∈ g.nodes then
    let g1 : Graph E :=
      if is_cyclic e then g
      else { g with buckets := bupd g.buckets (p1 e) ((g.buckets (p1 e)).erase e) }
    (true, { g1 with buckets := bupd g1.buckets (p2 e) ((g1.buckets (p2 e)).erase e) })
  else (false, g)

/-- graph.rs 410-416, the node part: successively visited nodes of a path
starting at n. -/
def pathNodes {E : Type} [EdgeLike E] : Nat → List E → List Nat
  | n, [] => [n]
  | n, e :: p => n :: pathNodes (other e n) p

/-- The node reached after walking all edges of p from n (the last entry of
pathNodes). -/
def pathEnd {E : Type} [EdgeLike E] (n : Nat) (p : List E) : Nat :=
  p.foldl (fun m e => other e m) n

/-- graph.rs 410-416, steps with their entering edges (tail of path_to_nodes). -/
def pathSteps {E : Type} [EdgeLike E] : Nat → List E → List (Nat × E)
  | _, [] => []
  | n, e :: p => (other e n, e) :: pathSteps (other e n) p

/-- graph.rs 410-416: nodes visited by a path with the edges that entered them. -/
def path_to_nodes {E : Type} [EdgeLike E] (n : Nat) (p : List E) :
    List (Nat × Option E) :=
  (n, none) :: (pathSteps n p).map (fun s => (s.1, some s.2))

/-- A walk in the graph from u to v along the listed edges: each edge lies in
the bucket of the node it is traversed from, may be traversed from there under
the direction policy, and chains via other. -/
def walkB {E : Type} [EdgeLike E] [DecidableEq E] (g : Graph E) (dir : Bool) :
    Nat → List E → Nat → Bool
  | u, [], v => decide (u = v)
  | u, e :: p, v => decide (e ∈ get_edges g u) && is_outgoing dir e u &&
      walkB g dir (other e u) p v

/-- Sum of the weights of a path (total once all weights are defined). -/
def wsum {E : Type} (wt : E → Option ℤ) (p : List E) : ℤ :=
  (p.map (fun e => (wt e).getD 0)).sum

/-- All edges of the path are traversable under the filtering weight. -/
def allTraversable {E : Type} (wt : E → Option ℤ) (p : List E) : Bool :=
  p.all (fun e => (wt e).isSome)

/-- Well-formedness of a graph, guaranteed by construction through add_edge:
every edge stored in the bucket of u is incident to u, and its endpoints are
nodes of the graph. -/
structure WF {E : Type} [EdgeLike E] (g : Graph E) : Prop where
  incident : ∀ u e, e ∈ g.buckets u → p1 e = u ∨ p2 e = u
  endpoints : ∀ u e, e ∈ g.buckets u → p1 e ∈ g.nodes ∧ p2 e ∈ g.nodes

/-! ## Dijkstra (graph.rs 206-296)

The dp map stores, per node, the best known distance and the predecessor edge
(graph.rs 211).  The priority queue is represented by the frontier list of
queued nodes: the crate updates a stored priority together with the dp entry
(graph.rs 233-234), so a queued node always has priority equal to the negation
of its dp distance, and popping the maximum priority is selecting the queued
node of minimal dp distance.  Ties, decided by hash order in Rust, are fixed to
the smaller node id. -/

/-- The dp map of pathfind (graph.rs 211). -/
def DP (E : Type) : Type := Nat → Option (ℤ × Option E)

/-- Functional update of the dp map (HashMap::insert, graph.rs 233). -/
def dpUpdate {E : Type} (dp : DP E) (v : Nat) (x : ℤ × Option E) : DP E :=
  fun n => if n = v then some x else dp n

/-- PriorityQueue::push: insert if absent (a present node merely has its
priority updated, which the dp map already records). -/
def pushFr (v : Nat) (fr : List Nat) : List Nat :=
  if v ∈ fr then fr else v :: fr

/-- Relaxation of one edge out of u at base distance du (graph.rs 227-237). -/
def relaxOne {E : Type} [EdgeLike E] (dir : Bool) (wt : E → Option ℤ)
    (u : Nat) (du : ℤ) (st : DP E × List Nat) (e : E) : DP E × List Nat :=
  if !dir || !directed e || decide (p1 e = u) then
    match wt e with
    | some w =>
      let v := other e u
      let d := du + w
      match st.1 v with
      | some (vd, _) =>
          if vd > d then (dpUpdate st.1 v (d, some e), pushFr v st.2) else st
      | none => (dpUpdate st.1 v (d, some e), pushFr v st.2)
    | none => st
  else st

/-- Relaxation of all edges of u (the for loop of graph.rs 227). -/
def relaxAll {E : Type} [EdgeLike E] (dir : Bool) (wt : E → Option ℤ)
    (u : Nat) (du : ℤ) (es : List E) (st : DP E × List Nat) : DP E × List Nat :=
  es.foldl (relaxOne dir wt u du) st

/-- Whether frontier node a pops before frontier node b: smaller dp distance,
ties to the smaller id (the max-heap on negated priorities pops a minimal
distance; the tie order is a fixed stand-in for hash order). -/
def popsBefore {E : Type} (dp : DP E) (a b : Nat) : Bool :=
  match dp a, dp b with
  | some (da, _), some (db, _) => decide (da < db) || (decide (da = db) && decide (a < b))
  | some _, none => true
  | none, _ => false

/-- The node popped from the frontier, if any. -/
def popMin {E : Type} (dp : DP E) (fr : List Nat) : Option Nat :=
  fr.foldl
    (fun best v =>
      match best with
      | none => some v
      | some b => if popsBefore dp v b then some v else some b)
    none

/-- Path reconstruction by walking predecessor edges backwards and reversing
(graph.rs 216-224).  Returns the reached root together with the forward path;
the fuel guards against predecessor cycles, which in Rust would not terminate. -/
def recon {E : Type} [EdgeLike E] (dp : DP E) : Nat → Nat → Option (Nat × List E)
  | _, 0 => none
  | v, fuel + 1 =>
    match dp v with
    | some (_, none) => some (v, [])
    | some (_, some e) => (recon dp (other e v) fuel).map (fun rp => (rp.1, rp.2 ++ [e]))
    | none => none

/-- Result of the Dijkstra main loop.  found s t p: a path p from s to t was
reconstructed.  unreachable: the queue ran dry (Rust returns None).  fuelOut:
the model fuel ran out, corresponding to a Rust execution that would not have
terminated (possible only with weights of both signs). -/
inductive DijkRes (E : Type) : Type
  | found : Nat → Nat → List E → DijkRes E
  | unreachable : DijkRes E
  | fuelOut : DijkRes E
deriving DecidableEq

/-- The main loop of pathfind and pathfind_regions (graph.rs 215-239 and
270-294; the two Rust functions have textually identical loop bodies, the only
difference being the membership test against the target region and the
returned endpoints).  rfuel is the reconstruction fuel. -/
def dijkstra_loop {E : Type} [EdgeLike E] (g : Graph E) (dir : Bool)
    (wt : E → Option ℤ) (T : Finset Nat) (rfuel : Nat) :
    DP E → List Nat → Nat → DijkRes E
  | _, _, 0 => .fuelOut
  | dp, fr, fuel + 1 =>
    match popMin dp fr with
    | none => .unreachable
    | some u =>
      if u ∈ T then
        match recon dp u rfuel with
        | some rp => .found rp.1 u rp.2
        | none => .fuelOut
      else
        match dp u with
        | some du =>
          let st := relaxAll dir wt u du.1 (get_edges g u) (dp, fr.erase u)
          dijkstra_loop g dir wt T rfuel st.1 st.2 fuel
        | none => .fuelOut

/-- First occurrence deduplication of a node list, keeping the original order
(the key order of an IndexMap collected from the list). -/
def firstDedupGo : List Nat → List Nat → List Nat
  | _, [] => []
  | seen, x :: r =>
    if x ∈ seen then firstDedupGo seen r else x :: firstDedupGo (x :: seen) r

/-- First occurrence deduplication. -/
def firstDedup (l : List Nat) : List Nat :=
  firstDedupGo [] l

/-- Initial dp map: every source at distance zero with no predecessor
(graph.rs 212 and 266-268).  The source region is carried as the list in which
the caller enumerates it. -/
def dpInit {E : Type} (S : List Nat) : DP E :=
  fun v => if v ∈ S then some (0, none) else none

/-- Fuel bound for a run from sources S: with nonnegative weights every node is
popped at most once and dp keys stay inside nodes of g together with S. -/
def dijkFuel {E : Type} (g : Graph E) (S : List Nat) : Nat :=
  g.nodes.card + (firstDedup S).length + 1

/-- The link invariant of the dp map, maintained by relaxation regardless of
weight signs: an entry with no predecessor is an untouched source entry at
distance zero; an entry (d, some e) at v was produced by relaxing e from
u = other e v, so e can be traversed from u to v, u has an entry, and the
current distance of u plus the weight of e is at most d (distances only
decrease after the link is written). -/
structure LinkInv {E : Type} [EdgeLike E] (g : Graph E) (dir : Bool)
    (wt : E → Option ℤ) (S : List Nat) (dp : DP E) : Prop where
  root : ∀ v d, dp v = some (d, none) → v ∈ S ∧ d = 0
  link : ∀ v d e, dp v = some (d, some e) →
    e ∈ get_edges g (other e v) ∧ is_outgoing dir e (other e v) = true ∧
      other e (other e v) = v ∧
      ∃ w, wt e = some w ∧
        ∃ du pu, dp (other e v) = some (du, pu) ∧ du + w ≤ d

/-- The full invariant of the Dijkstra main loop under nonnegative weights,
with the ghost set P of settled (popped) nodes: the link invariant, distances
nonnegative, sources pinned at zero, dp keys inside the graph nodes and the
sources, queued nodes have entries, every entry is settled or queued, settled
nodes are not queued and not in the target region, settled nodes have all
their edges relaxed, settled distances are below every queued distance, every
entry has a terminating reconstruction whose chain stays in the settled set
(plus the node itself), and the queue has no duplicates. -/
structure DijkInv {E : Type} [EdgeLike E] (g : Graph E) (dir : Bool)
    (wt : E → Option ℤ) (S : List Nat) (T : Finset Nat) (dp : DP E)
    (fr : List Nat) (P : Finset Nat) : Prop where
  linkInv : LinkInv g dir wt S dp
  nonnegd : ∀ v d pe, dp v = some (d, pe) → 0 ≤ d
  src : ∀ s ∈ S, ∃ pe, dp s = some ((0 : ℤ), pe)
  dom : ∀ v x, dp v = some x → v ∈ g.nodes ∨ v ∈ S
  frdom : ∀ v ∈ fr, ∃ x, dp v = some x
  complete : ∀ v x, dp v = some x → v ∈ P ∨ v ∈ fr
  pdisj : ∀ v ∈ P, v ∉ fr
  settled : ∀ u0 ∈ P, ∃ d0 p0, dp u0 = some (d0, p0) ∧
    ∀ e ∈ get_edges g u0, (!dir || !directed e || decide (p1 e = u0)) = true →
      ∀ w, wt e = some w → ∃ dv pv, dp (other e u0) = some (dv, pv) ∧ dv ≤ d0 + w
  sfr : ∀ u0 ∈ P, ∀ v ∈ fr, ∀ d0 p0 dv pv, dp u0 = some (d0, p0) →
    dp v = some (dv, pv) → d0 ≤ dv
  pnotT : ∀ u0 ∈ P, u0 ∉ T
  reconok : ∀ v d pe, dp v = some (d, pe) →
    ∃ rp, recon dp v (P.card + 1) = some rp ∧
      ∀ y ∈ pathNodes rp.1 rp.2, y = v ∨ y ∈ P
  frnodup : fr.Nodup

/-- The invariant holding while the edges of the just popped node u (of
distance du) are being relaxed: u already counts as settled for bookkeeping
purposes (it has been removed from the queue) but only the previously settled
nodes are known to be fully relaxed. -/
structure DijkMid {E : Type} [EdgeLike E] (g : Graph E) (dir : Bool)
    (wt : E → Option ℤ) (S : List Nat) (P : Finset Nat) (u : Nat) (du : ℤ)
    (dp : DP E) (fr : List Nat) : Prop where
  linkInv : LinkInv g dir wt S dp
  nonnegd : ∀ v d pe, dp v = some (d, pe) → 0 ≤ d
  src : ∀ s ∈ S, ∃ pe, dp s = some ((0 : ℤ), pe)
  dom : ∀ v x, dp v = some x → v ∈ g.nodes ∨ v ∈ S
  frdom : ∀ v ∈ fr, ∃ x, dp v = some x
  complete : ∀ v x, dp v = some x → v ∈ insert u P ∨ v ∈ fr
  pdisj : ∀ v ∈ insert u P, v ∉ fr
  settledP : ∀ u0 ∈ P, ∃ d0 p0, dp u0 = some (d0, p0) ∧
    ∀ e ∈ get_edges g u0, (!dir || !directed e || decide (p1 e = u0)) = true →
      ∀ w, wt e = some w → ∃ dv pv, dp (other e u0) = some (dv, pv) ∧ dv ≤ d0 + w
  uentry : ∃ pu, dp u = some (du, pu)
  sfr : ∀ u0 ∈ insert u P, ∀ v ∈ fr, ∀ d0 p0 dv pv, dp u0 = some (d0, p0) →
    dp v = some (dv, pv) → d0 ≤ dv
  duP : ∀ u0 ∈ insert u P, ∀ d0 p0, dp u0 = some (d0, p0) → d0 ≤ du
  reconok : ∀ v d pe, dp v = some (d, pe) →
    ∃ rp, recon dp v ((insert u P).card + 1) = some rp ∧
      ∀ y ∈ pathNodes rp.1 rp.2, y = v ∨ y ∈ insert u P
  frnodup : fr.Nodup

/-- graph.rs 206-241: shortest path between two points, as the edge path. -/
def pathfind {E : Type} [EdgeLike E] (g : Graph E) (dir : Bool)
    (wt : E → Option ℤ) (n1 n2 : Nat) : Option (List E) :=
  match dijkstra_loop g dir wt {n2} (dijkFuel g [n1]) (dpInit [n1]) [n1]
      (dijkFuel g [n1]) with
  | .found _ _ p => some p
  | _ => none

/-- graph.rs 256-296: shortest path between two regions; on success the actual
source and target are returned along with the path.  Empty regions short
circuit to None (graph.rs 261-263).  The source region is passed as the list
in which the caller enumerates it (its initial frontier dedups it, as
collecting into the HashSet does). -/
def pathfind_regions {E : Type} [EdgeLike E] (g : Graph E) (dir : Bool)
    (wt : E → Option ℤ) (S : List Nat) (T : Finset Nat) : DijkRes E :=
  if S = [] ∨ T = ∅ then .unreachable
  else dijkstra_loop g dir wt T (dijkFuel g S) (dpInit S) (firstDedup S)
      (dijkFuel g S)

/-! ## The PWRP heuristic (graph.rs 515-574) -/

/-- Result of solve_pwrp.  ok: the closed walk.  unreachable: the remaining
allocated edges that could not be reached (the Err arm).  trap: the panic of
graph.rs 542 when the back path of a cycle injection does not exist.  fuelOut:
model fuel exhaustion (the loops of the model decrease strictly, so the
wrapper fuel never runs out; kept to make the recursion total and to absorb
the fuelOut results of the inner Dijkstra runs, which correspond to Rust
executions that do not terminate). -/
inductive PwrpRes (E : Type) : Type
  | ok : List E → PwrpRes E
  | unreachable : Finset E → PwrpRes E
  | trap : PwrpRes E
  | fuelOut : PwrpRes E
deriving DecidableEq

/-- The cycle injection search of graph.rs 535: walk the current solution from
the start and find the first visited node u (with its visit index) that has an
outgoing allocated edge in its bucket. -/
def findCycleInj {E : Type} [EdgeLike E] [DecidableEq E] (g : Graph E)
    (dir : Bool) (alloc : Finset E) (sp : Nat) (sol : List E) :
    Option (Nat × Nat × E) :=
  (pathNodes sp sol).enum.findSome? (fun iu =>
    match (get_edges g iu.2).find? (fun e =>
        is_outgoing dir e iu.2 && decide (e ∈ alloc)) with
    | some e => some (iu.2, iu.1, e)
    | none => none)

/-- The us IndexMap of graph.rs 547 maps each node visited by the current
solution to its visit index; inserting an existing key keeps the key but
replaces the value, so the recorded index is the last visit index. -/
def lastIdx (ns : List Nat) : Nat → Option Nat :=
  ns.enum.foldl (fun acc iu => fun n => if n = iu.2 then some iu.1 else acc n)
    (fun _ => none)

/-- The region of nodes that can enter an allocated edge (graph.rs 546): both
endpoints of an undirected edge, only p1 of a directed edge under respect. -/
def allocEntryRegion {E : Type} [EdgeLike E] [DecidableEq E] (dir : Bool)
    (alloc : Finset E) : Finset Nat :=
  alloc.biUnion (fun e =>
    if !dir || !directed e then {p1 e, p2 e} else {p1 e})

/-- Result of the distant isle retry loop (graph.rs 548-564). -/
inductive IsleRes (E : Type) : Type
  | inj : List E → Nat → IsleRes E
  | fail : IsleRes E
  | fuelOut : IsleRes E
deriving DecidableEq

/-- The distant isle retry loop (graph.rs 548-564): find a shortest path from
the visited region to the entry region, pick an allocated outgoing edge at the
reached node with an existing return path, and splice; when the return path
does not exist discard the reached node from the entry region and retry. -/
def isleLoop {E : Type} [EdgeLike E] [DecidableEq E] (g : Graph E) (dir : Bool)
    (wt : E → Option ℤ) (alloc : Finset E) (us : List Nat)
    (ui : Nat → Option Nat) : Finset Nat → Nat → IsleRes E
  | _, 0 => .fuelOut
  | vs, fuel + 1 =>
    match pathfind_regions g dir wt us vs with
    | .found u v p =>
      match (get_edges g v).findSome? (fun e =>
          if is_outgoing dir e v && decide (e ∈ alloc) then
            (pathfind g dir wt (other e v) u).map (fun pb => (e, pb))
          else none) with
      | some epb => .inj ((p ++ [epb.1]) ++ epb.2) ((ui u).getD 0)
      | none => isleLoop g dir wt alloc us ui (vs.erase v) fuel
    | .unreachable => .fail
    | .fuelOut => .fuelOut

/-- Vec::splice(y..y, inj): insert inj before position y (graph.rs 531). -/
def spliceAt {E : Type} (sol : List E) (y : Nat) (inj : List E) : List E :=
  sol.take y ++ inj ++ sol.drop y

/-- The sol_inject macro (graph.rs 524-533): remove the injected edges from the
allocation and splice them into the solution at position y. -/
def solInject {E : Type} [DecidableEq E] (alloc : Finset E) (sol : List E)
    (inj : List E) (y : Nat) : Finset E × List E :=
  (alloc.filter (fun e => e ∉ inj), spliceAt sol y inj)

/-- The main loop of solve_pwrp (graph.rs 534-571).  Each pass through the body
removes at least one edge from alloc (the injected allocated edge), so the
wrapper fuel card alloc + 1 suffices. -/
def pwrpLoop {E : Type} [EdgeLike E] [DecidableEq E] (g : Graph E) (dir : Bool)
    (wt : E → Option ℤ) (sp : Nat) : Finset E → List E → Nat → PwrpRes E
  | _, _, 0 => .fuelOut
  | alloc, sol, fuel + 1 =>
    if alloc = ∅ then .ok sol
    else
      match findCycleInj g dir alloc sp sol with
      | some uye =>
        match pathfind g dir wt (other uye.2.2 uye.1) uye.1 with
        | some p =>
          pwrpLoop g dir wt sp (solInject alloc sol (uye.2.2 :: p) uye.2.1).1
            (solInject alloc sol (uye.2.2 :: p) uye.2.1).2 fuel
        | none => .trap
      | none =>
        match isleLoop g dir wt alloc (pathNodes sp sol)
            (lastIdx (pathNodes sp sol)) (allocEntryRegion dir alloc)
            ((allocEntryRegion dir alloc).card + 1) with
        | .inj inj y =>
          pwrpLoop g dir wt sp (solInject alloc sol inj y).1
            (solInject alloc sol inj y).2 fuel
        | .fail => .unreachable alloc
        | .fuelOut => .fuelOut

/-- graph.rs 515-574: solve Positioned Windy Rural Postman.  On success, the
closed walk visiting all allocated edges; otherwise the allocated edges that
cannot be reached. -/
def solve_pwrp {E : Type} [EdgeLike E] [DecidableEq E] (g : Graph E)
    (dir : Bool) (wt : E → Option ℤ) (sp : Nat) (alloc : Finset E) : PwrpRes E :=
  pwrpLoop g dir wt sp alloc [] (alloc.card + 1)

/-! ## Meta parameters (meta.rs) -/

/-- meta.rs 7-12. -/
inductive Recycle : Type
  | no
  | expensiveToCheap
deriving DecidableEq

/-- meta.rs 14-20. -/
inductive Clearing : Type
  | onlyAllocated
  | all
deriving DecidableEq

/-- meta.rs 22-32. -/
inductive ReorderKind : Type
  | no
  | swap2Random
  | randomReorder
  | swap2MostLeast
deriving DecidableEq

/-- meta.rs 34-42 (accepted but not consulted by the solver). -/
inductive ReallocKind : Type
  | no
  | swap2Random
  | mostToLeast
deriving DecidableEq

/-- meta.rs 44-50. -/
structure Annealing : Type where
  main_iterations : Nat
  ft_iterations : Nat
  starting_temperature : ℤ
  cooling_factor : ℤ

/-- meta.rs 52-62. -/
structure Parameters : Type where
  recycle : Recycle
  clearing : Clearing
  reorder : ReorderKind
  realloc : ReallocKind
  annealing : Annealing
  slowdown : ℤ
  weight_total : ℤ
  weight_max : ℤ

/-! ## Plow solver (plow.rs) -/

/-- data.rs 14-19: the Distance impl for coordinate pairs is the squared
euclidean distance (no square root), which is exact over ℤ. -/
def dist2 (a b : ℤ × ℤ) : ℤ :=
  (a.1 - b.1) * (a.1 - b.1) + (a.2 - b.2) * (a.2 - b.2)

/-- One comparison step of closest (plow.rs 54): keep the running minimum,
preferring the earlier element on ties (Iterator::min_by_key keeps the first
of equally minimal elements). -/
def closestStep (c : ℤ × ℤ) (best : Option (Nat × (ℤ × ℤ))) (il : Nat × (ℤ × ℤ)) :
    Option (Nat × (ℤ × ℤ)) :=
  match best with
  | none => some il
  | some b => if dist2 c il.2 < dist2 c b.2 then some il else some b

/-- plow.rs 54: index of the vehicle whose position is nearest to c. -/
def closestIdx (locs : List (ℤ × ℤ)) (c : ℤ × ℤ) : Option Nat :=
  (locs.enum.foldl (closestStep c) none).map (fun il => il.1)

/-- One step of initial_allocation (plow.rs 56-61): allocate edge e given the
current allocations.  pos is the node position lookup (nid2node + pos, total
in the model).  none models the unwrap panic of closest on an empty fleet. -/
def allocStep {E : Type} [EdgeLike E] [DecidableEq E] (pos : Nat → ℤ × ℤ)
    (locs : List (ℤ × ℤ)) (allocs : List (Finset E)) (e : E) :
    Option (List (Finset E)) :=
  match closestIdx locs (pos (p1 e)), closestIdx locs (pos (p2 e)) with
  | some lv1, some lv2 =>
    let lv := if lv1 = lv2 ∨ (allocs.getD lv1 ∅).card < (allocs.getD lv2 ∅).card
      then lv1 else lv2
    some (allocs.set lv (insert e (allocs.getD lv ∅)))
  | _, _ => none

/-- plow.rs 53-63: allocate all snowy edges to some vehicle, by proximity of
the vehicle starting positions to the edge endpoints. -/
def initial_allocation {E : Type} [EdgeLike E] [DecidableEq E]
    (pos : Nat → ℤ × ℤ) (locs : List (ℤ × ℤ)) (snowy : List E) :
    Option (List (Finset E)) :=
  snowy.foldlM (allocStep pos locs) (List.replicate locs.length ∅)

/-- One edge of sol_to_alloc (plow.rs 69-76): a snowy edge of vehicle i's tour
that is not yet in i's allocation is inserted there and erased from every
other allocation; anything else is a no-op. -/
def solAllocStep {E : Type} [DecidableEq E] (snowy : E → Bool) (i : Nat)
    (allocs : List (Finset E)) (e : E) : List (Finset E) :=
  if snowy e then
    if e ∈ allocs.getD i ∅ then allocs
    else
      ((allocs.set i (insert e (allocs.getD i ∅))).enum.map
        (fun ai => if ai.1 = i then ai.2 else ai.2.erase e))
  else allocs

/-- plow.rs 65-79: update allocations from a solution.  For each vehicle in
order, each snowy edge of its tour is inserted into its allocation; on a fresh
insertion the edge is removed from every other allocation. -/
def sol_to_alloc {E : Type} [DecidableEq E] (order : List Nat)
    (sols : List (List E)) (snowy : E → Bool) (allocs : List (Finset E)) :
    List (Finset E) :=
  order.foldl
    (fun allocs i => (sols.getD i []).foldl (solAllocStep snowy i) allocs)
    allocs

/-- The first arm of cycle_cost_compute (plow.rs 106-108), used while building
tours: a snowy edge is slow if it is not yet done (policy all) or is in the
own allocation (policy only allocated). -/
def cycleCostDun {E : Type} [DecidableEq E] (wt : E → ℤ) (snowyL : List E)
    (clearing : Clearing) (slowdown : ℤ) (alloc : Finset E) (dun : Finset E)
    (sol : List E) : ℤ :=
  (sol.map (fun e =>
    wt e * (if e ∈ snowyL ∧ (if clearing = .all then e ∉ dun else e ∈ alloc)
      then slowdown else 1))).sum

/-- The second arm of cycle_cost_compute (plow.rs 109-111), used when
evaluating recycled solutions: a snowy edge is slow if it is in the own
allocation. -/
def cycleCostAlloc {E : Type} [DecidableEq E] (wt : E → ℤ) (snowyL : List E)
    (slowdown : ℤ) (alloc : Finset E) (sol : List E) : ℤ :=
  (sol.map (fun e =>
    wt e * (if e ∈ snowyL ∧ e ∈ alloc then slowdown else 1))).sum

/-- x < b where b is an N64 that may be the infinity sentinel (none). -/
def ltInf (x : ℤ) : Option ℤ → Bool
  | none => true
  | some y => decide (x < y)

/-- x ≤ b where b is an N64 that may be the infinity sentinel (none). -/
def leInf (x : ℤ) : Option ℤ → Bool
  | none => true
  | some y => decide (x ≤ y)

/-- The tour phase acceptance rule (plow.rs 162): objective strictly better
than the best, or equal objective with strictly lower max tour cost. -/
def tourAccept (v cm : ℤ) (vb cmb : Option ℤ) : Bool :=
  ltInf v vb || (leInf v vb && ltInf cm cmb)

/-- The improve phase acceptance decision (plow.rs 216-220), written as in the
source: value_next from line 160 and value_improv from line 217 are both
computed from cost_next_all and cost_next_max (the tour phase figures);
cost_improv_max is the recomputed maximum of the per tour costs of the
recycled solution.  coin is the oracle outcome of the comparison of the
uniform draw against exp((value_improv - value_next) / temperature); by Rust
short circuit evaluation the draw only happens when value_improv < value_next
holds, which the Bool conjunction below reproduces. -/
def improveAcceptCode (wTotal wMax cna cnm cim : ℤ) (vb cmb : Option ℤ)
    (coin : Bool) : Bool :=
  let value_next := wTotal * cna + wMax * cnm
  let value_improv := wTotal * cna + wMax * cnm
  ltInf value_improv vb || (leInf value_improv vb && ltInf cim cmb) ||
    (decide (value_improv < value_next) && coin)

/-- Vec::swap on the order list (indices are in bounds at every use site). -/
def listSwap (l : List Nat) (i j : Nat) : List Nat :=
  match l.get? i, l.get? j with
  | some a, some b => (l.set i b).set j a
  | _, _ => l

/-- First element of the list of minimal key (itertools minmax, minimum side). -/
def firstMinBy (key : Nat → Nat) (l : List Nat) : Option Nat :=
  l.foldl
    (fun best v =>
      match best with
      | none => some v
      | some b => if key v < key b then some v else some b)
    none

/-- Last element of the list of maximal key (itertools minmax, maximum side). -/
def lastMaxBy (key : Nat → Nat) (l : List Nat) : Option Nat :=
  l.foldl
    (fun best v =>
      match best with
      | none => some v
      | some b => if key b ≤ key v then some v else some b)
    none

/-- Fisher Yates shuffle as performed by SliceRandom::shuffle: walk positions
downward, swapping each with a draw below it.  The first component of the
state is the list, the second the rng stream position. -/
def shuffleGo (rng : Nat → Nat) : List Nat → Nat → Nat → List Nat × Nat
  | l, 0, k => (l, k)
  | l, i + 1, k => shuffleGo rng (listSwap l (i + 1) (rng k % (i + 2))) i (k + 1)

/-- rand SliceRandom::shuffle over the oracle stream. -/
def shuffleFY (l : List Nat) (rng : Nat → Nat) (k : Nat) : List Nat × Nat :=
  if l.length ≤ 1 then (l, k) else shuffleGo rng l (l.length - 1) k

/-- The reorder step (plow.rs 118-127).  none models the gen_range panic on an
empty range (vs = 0 with random swaps).  Swap2MostLeast swaps at the positions
given by the minmax ELEMENTS, as the source does (order.swap(i, j) receives
the element values returned by minmax_by_key). -/
def reorderStep {E : Type} (re : ReorderKind) (vs : Nat) (sols : List (List E))
    (order : List Nat) (rng : Nat → Nat) (k : Nat) : Option (List Nat × Nat) :=
  match re with
  | .no => some (order, k)
  | .swap2Random =>
    if vs = 0 then none
    else some (listSwap order (rng k % vs) (rng (k + 1) % vs), k + 2)
  | .swap2MostLeast =>
    if 2 ≤ order.length then
      match firstMinBy (fun i => (sols.getD i []).length) order,
          lastMaxBy (fun i => (sols.getD i []).length) order with
      | some i, some j => some (listSwap order i j, k)
      | _, _ => some (order, k)
    else some (order, k)
  | .randomReorder => some (shuffleFY order rng k)

/-- One vehicle of the tour building loop (plow.rs 136-156): run solve_pwrp on
the own allocation minus the done edges, cost the tour, extend done under
policy all.  State: (sol_next, cost_next_all, cost_next_max, costs_next, dun).
none models the panic on unreachable edges (plow.rs 154) and also absorbs the
fuelOut and trap results, and an out of bounds sps index. -/
def buildTourStep {E : Type} [EdgeLike E] [DecidableEq E] (g : Graph E)
    (dir : Bool) (wt : E → ℤ) (sps : List Nat) (snowyL : List E)
    (params : Parameters) (alloc : List (Finset E))
    (st : List (List E) × ℤ × ℤ × List ℤ × Finset E) (i : Nat) :
    Option (List (List E) × ℤ × ℤ × List ℤ × Finset E) :=
  match sps.get? i with
  | none => none
  | some sp =>
    match solve_pwrp g dir (fun e => some (wt e)) sp
        ((alloc.getD i ∅).filter (fun e => e ∉ st.2.2.2.2)) with
    | .ok sol =>
      some (st.1.set i sol,
        st.2.1 + cycleCostDun wt snowyL params.clearing params.slowdown
          (alloc.getD i ∅) st.2.2.2.2 sol,
        max st.2.2.1 (cycleCostDun wt snowyL params.clearing params.slowdown
          (alloc.getD i ∅) st.2.2.2.2 sol),
        st.2.2.2.1.set i (cycleCostDun wt snowyL params.clearing params.slowdown
          (alloc.getD i ∅) st.2.2.2.2 sol),
        if params.clearing = .all then st.2.2.2.2 ∪ sol.toFinset
        else st.2.2.2.2)
    | _ => none

/-- The tour building loop over this iteration's order (plow.rs 130-156). -/
def buildTours {E : Type} [EdgeLike E] [DecidableEq E] (g : Graph E)
    (dir : Bool) (wt : E → ℤ) (sps : List Nat) (snowyL : List E)
    (params : Parameters) (alloc : List (Finset E)) (vs : Nat)
    (order : List Nat) : Option (List (List E) × ℤ × ℤ × List ℤ × Finset E) :=
  order.foldlM (buildTourStep g dir wt sps snowyL params alloc)
    (List.replicate vs [], 0, 0, List.replicate vs 0, (∅ : Finset E))

/-- First index strictly above iu where the node sequence vi revisits x
(plow.rs 184-185). -/
def findIv (vi : List Nat) (x : Nat) (iu : Nat) : Option Nat :=
  ((vi.enum.drop (iu + 1)).find? (fun p => decide (p.2 = x))).map (fun p => p.1)

/-- First index where the node sequence vj visits x (plow.rs 182-183). -/
def findJu (vj : List Nat) (x : Nat) : Option Nat :=
  (vj.enum.find? (fun p => decide (p.2 = x))).map (fun p => p.1)

/-- The sub cycle search of the recycle phase (plow.rs 181-186): the first
position iu of the expensive tour whose node is also visited by the cheap
tour (first such ju) and is revisited later in the expensive tour (first such
iv).  Scanning follows the source loops: a candidate iu is kept only when both
a ju and an iv exist. -/
def findTransplant (vi vj : List Nat) : Option (Nat × Nat × Nat) :=
  vi.enum.findSome? (fun iup =>
    match findJu vj iup.2, findIv vi iup.2 iup.1 with
    | some ju, some iv => some (iup.1, ju, iv)
    | _, _ => none)

/-- Excision of positions iu..iv (exclusive) from a list. -/
def exciseOut {α : Type} (l : List α) (iu iv : Nat) : List α :=
  l.take iu ++ l.drop iv

/-- The excised segment, positions iu..iv (exclusive). -/
def excised {α : Type} (l : List α) (iu iv : Nat) : List α :=
  (l.drop iu).take (iv - iu)

/-- Insertion of a segment before position j (Vec::splice(j..j, seg)). -/
def insertSeg {α : Type} (l : List α) (j : Nat) (seg : List α) : List α :=
  l.take j ++ seg ++ l.drop j

/-- One ordered pair (a expensive, b cheap) of the recycle phase
(plow.rs 180-199): transplant the first discovered sub cycle of tour a into
tour b, updating both the edge solutions and the node sequences. -/
def recycPair {E : Type} (st : List (List E) × List (List Nat)) (a b : Nat) :
    List (List E) × List (List Nat) :=
  match findTransplant (st.2.getD a []) (st.2.getD b []) with
  | some t =>
    let iu := t.1
    let ju := t.2.1
    let iv := t.2.2
    let sa := st.1.getD a []
    let sb := st.1.getD b []
    let va := st.2.getD a []
    let vb := st.2.getD b []
    ((st.1.set a (exciseOut sa iu iv)).set b (insertSeg sb ju (excised sa iu iv)),
     (st.2.set a (exciseOut va iu iv)).set b (insertSeg vb ju (excised va iu iv)))
  | none => st

/-- The recycle double loop (plow.rs 178-201): all pairs i < j, each pair
oriented from the more expensive to the cheaper tour according to this
iteration's costs under the current order. -/
def recycAll {E : Type} (costs : List ℤ) (order : List Nat) (vs : Nat)
    (st : List (List E) × List (List Nat)) : List (List E) × List (List Nat) :=
  (List.range vs).foldl
    (fun st i =>
      (List.range' (i + 1) (vs - (i + 1))).foldl
        (fun st j =>
          let oi := order.getD i 0
          let oj := order.getD j 0
          if costs.getD oj 0 < costs.getD oi 0 then recycPair st oi oj
          else recycPair st oj oi)
        st)
    st

/-- The state of the annealing loop (plow.rs 96-112): allocations, the last
accepted solution, the best objective and max tour cost (none is the
N64::infinity initial), the temperature, the cooling counter ii, the
evaluation order, the rng stream position k, and the iteration counter it
(index into the coin oracle). -/
structure SolveState (E : Type) : Type where
  alloc : List (Finset E)
  solution : List (List E)
  value_best : Option ℤ
  cost_max_best : Option ℤ
  temperature : ℤ
  ii : Nat
  order : List Nat
  k : Nat
  it : Nat

/-- One main iteration of PlowSolver::solve (plow.rs 113-234). -/
def solveIter {E : Type} [EdgeLike E] [DecidableEq E] (g : Graph E)
    (dir : Bool) (wt : E → ℤ) (sps : List Nat) (locs : List (ℤ × ℤ))
    (snowyL : List E) (params : Parameters) (rng : Nat → Nat)
    (coin : Nat → Bool) (st : SolveState E) : Option (SolveState E) :=
  let vs := locs.length
  match reorderStep params.reorder vs st.solution st.order rng st.k with
  | none => none
  | some ok =>
    let order := ok.1
    match buildTours g dir wt sps snowyL params st.alloc vs order with
    | none => none
    | some r =>
      let sol_next := r.1
      let cost_next_all := r.2.1
      let cost_next_max := r.2.2.1
      let costs_next := r.2.2.2.1
      let value_next := params.weight_total * cost_next_all +
        params.weight_max * cost_next_max
      let acc := tourAccept value_next cost_next_max st.value_best st.cost_max_best
      let solution := if acc then sol_next else st.solution
      let value_best := if acc then some value_next else st.value_best
      let cost_max_best := if acc then some cost_next_max else st.cost_max_best
      let alloc :=
        if acc ∧ params.clearing = .all then
          sol_to_alloc order sol_next (fun e => decide (e ∈ snowyL)) st.alloc
        else st.alloc
      let st1 : SolveState E :=
        if params.recycle = .expensiveToCheap then
          let vycles := (sol_next.zip sps).map (fun pe => pathNodes pe.2 pe.1)
          let imp := recycAll costs_next order vs (sol_next, vycles)
          let sol_improv := imp.1
          let costs_improv := (List.range vs).map (fun i =>
            cycleCostAlloc wt snowyL params.slowdown (alloc.getD i ∅)
              (sol_improv.getD i []))
          let cost_improv_max := costs_improv.foldl max 0
          let value_improv := params.weight_total * cost_next_all +
            params.weight_max * cost_next_max
          if improveAcceptCode params.weight_total params.weight_max
              cost_next_all cost_next_max cost_improv_max value_best
              cost_max_best (coin st.it) then
            { st with
              alloc := sol_to_alloc order sol_improv
                (fun e => decide (e ∈ snowyL)) alloc
              solution := sol_improv
              value_best := some value_improv
              cost_max_best := some cost_improv_max
              order := order
              k := ok.2 }
          else
            { st with
              alloc := alloc
              solution := solution
              value_best := value_best
              cost_max_best := cost_max_best
              order := order
              k := ok.2 }
        else
          { st with
            alloc := alloc
            solution := solution
            value_best := value_best
            cost_max_best := cost_max_best
            order := order
            k := ok.2 }
      let ii := st1.ii + 1
      some (if params.annealing.ft_iterations ≤ ii then
        { st1 with
          ii := 0
          temperature := st1.temperature * params.annealing.cooling_factor
          it := st1.it + 1 }
      else { st1 with ii := ii, it := st1.it + 1 })

/-- Iterate the annealing body a number of times. -/
def solveLoop {E : Type} [EdgeLike E] [DecidableEq E] (g : Graph E)
    (dir : Bool) (wt : E → ℤ) (sps : List Nat) (locs : List (ℤ × ℤ))
    (snowyL : List E) (params : Parameters) (rng : Nat → Nat)
    (coin : Nat → Bool) : Nat → SolveState E → Option (SolveState E)
  | 0, st => some st
  | n + 1, st =>
    match solveIter g dir wt sps locs snowyL params rng coin st with
    | none => none
    | some st => solveLoop g dir wt sps locs snowyL params rng coin n st

/-- plow.rs 90-237: the iterative annealing solver.  snowyL is the snowy edge
set in its iteration order; pos gives node positions (nid2node).  none models
any panic inside the solve. -/
def plow_solve {E : Type} [EdgeLike E] [DecidableEq E] (g : Graph E)
    (dir : Bool) (wt : E → ℤ) (pos : Nat → ℤ × ℤ) (sps : List Nat)
    (locs : List (ℤ × ℤ)) (snowyL : List E) (params : Parameters)
    (rng : Nat → Nat) (coin : Nat → Bool) : Option (List (List E)) :=
  let vs := locs.length
  match initial_allocation pos locs snowyL with
  | none => none
  | some alloc0 =>
    (solveLoop g dir wt sps locs snowyL params rng coin
      params.annealing.main_iterations
      { alloc := alloc0
        solution := List.replicate vs []
        value_best := none
        cost_max_best := none
        temperature := params.annealing.starting_temperature
        ii := 0
        order := List.range vs
        k := 0
        it := 0 }).map (fun st => st.solution)

/-- The vehicle index selected by one allocStep (plow.rs 57-59), named for the
statement of the allocation rule: the vehicle nearest p1 unless the two
endpoint nearest vehicles differ and the p1 nearest one is currently the
busier. -/
def chooseVeh {E : Type} [EdgeLike E] [DecidableEq E] (pos : Nat → ℤ × ℤ)
    (locs : List (ℤ × ℤ)) (allocs : List (Finset E)) (e : E) : Option Nat :=
  match closestIdx locs (pos (p1 e)), closestIdx locs (pos (p2 e)) with
  | some lv1, some lv2 =>
    some (if lv1 = lv2 ∨ (allocs.getD lv1 ∅).card < (allocs.getD lv2 ∅).card
      then lv1 else lv2)
  | _, _ => none

/-- The allocation invariant of the annealing driver: the per-vehicle
allocation sets cover exactly the snowy edge set and are pairwise disjoint
(each snowy edge sits in exactly one vehicle's set). -/
def AllocPart {E : Type} [DecidableEq E] (S : List E) (A : List (Finset E)) : Prop :=
  (∀ x : E, (∃ j, x ∈ A.getD j ∅) ↔ x ∈ S) ∧
  (∀ j k, j ≠ k → ∀ x : E, x ∈ A.getD j ∅ → x ∉ A.getD k ∅)

/-! ## Specialisation edge types (plow.rs fly / road / sidewalk) -/

/-- plow.rs 348-354: the aerial edge. -/
structure FlyEdge : Type where
  p1 : Nat
  p2 : Nat
  discriminator : Option Nat
  length : ℤ
deriving DecidableEq

/-- plow.rs 355-359: PartialEq of the fly edge compares endpoints and
discriminator only. -/
def flyEq (a b : FlyEdge) : Bool :=
  decide (a.p1 = b.p1) && decide (a.p2 = b.p2) &&
    decide (a.discriminator = b.discriminator)

/-- plow.rs 360-364: Hash of the fly edge feeds exactly the tuple
(p1, p2, discriminator) to the hasher. -/
def flyHashKey (e : FlyEdge) : Nat × Nat × Option Nat :=
  (e.p1, e.p2, e.discriminator)

/-- plow.rs 377-379: fly edges are never directed. -/
def flyDirected (_ : FlyEdge) : Bool :=
  false

/-- plow.rs 413-420: the road edge. -/
structure RoadEdgeR : Type where
  p1 : Nat
  p2 : Nat
  discriminator : Option Nat
  directed : Bool
  length : ℤ
deriving DecidableEq

/-- plow.rs 421-425: PartialEq of the road edge compares endpoints and
discriminator only. -/
def roadEq (a b : RoadEdgeR) : Bool :=
  decide (a.p1 = b.p1) && decide (a.p2 = b.p2) &&
    decide (a.discriminator = b.discriminator)

/-- plow.rs 426-430: Hash of the road edge feeds exactly the tuple
(p1, p2, discriminator) to the hasher. -/
def roadHashKey (e : RoadEdgeR) : Nat × Nat × Option Nat :=
  (e.p1, e.p2, e.discriminator)

/-- plow.rs 493-499: the side tag of a sidewalk specialisation edge. -/
inductive SwSide : Type
  | wroom
  | wroomOneWay
  | left
  | right
deriving DecidableEq

/-- plow.rs 518-525: the sidewalk edge. -/
structure SwEdge : Type where
  p1 : Nat
  p2 : Nat
  discriminator : Option Nat
  side : SwSide
  length : ℤ
deriving DecidableEq

/-- plow.rs 526-530: PartialEq of the sidewalk edge compares endpoints,
discriminator and side. -/
def swEq (a b : SwEdge) : Bool :=
  decide (a.p1 = b.p1) && decide (a.p2 = b.p2) &&
    decide (a.discriminator = b.discriminator) && decide (a.side = b.side)

/-- plow.rs 531-535: Hash of the sidewalk edge feeds exactly the tuple
(p1, p2, discriminator, side) to the hasher. -/
def swHashKey (e : SwEdge) : Nat × Nat × Option Nat × SwSide :=
  (e.p1, e.p2, e.discriminator, e.side)

/-- plow.rs 548-550: a sidewalk edge is directed iff it is the one way road. -/
def swDirected (e : SwEdge) : Bool :=
  decide (e.side = SwSide.wroomOneWay)

/-! ## Graph adapter (graph.rs 419-498, plow.rs 36-42) -/

/-- common::RoadNode (plow.rs 244-258): external id and position. -/
structure RoadNode : Type where
  id : String
  coordinates : ℤ × ℤ
deriving DecidableEq

/-- HashMap::insert as an association list update, modelled up to observation
through get: the new entry shadows any previous entry for the key. -/
def assocUpd {α β : Type} [DecidableEq α] (m : List (α × β)) (k : α) (v : β) :
    List (α × β) :=
  (k, v) :: m.filter (fun kv => decide (kv.1 ≠ k))

/-- HashMap::get as an association list lookup. -/
def assocGet {α β : Type} [DecidableEq α] (m : List (α × β)) (k : α) :
    Option β :=
  (m.find? (fun kv => decide (kv.1 = k))).map (fun kv => kv.2)

/-- The GraphAdapter state (graph.rs 440-451), instantiated at the plow solver
with NId = u64 and IdAcc = u64: the external to internal map, the node payload
map of the underlying graph, and the generator accumulator. -/
structure PlowAdapter : Type where
  fwd : List (String × Nat)
  gnodes : List (Nat × RoadNode)
  last_id : Nat

/-- graph.rs 486-492, generic in the generator: allocate via gen, record the
mapping, insert the payload into the graph. -/
def adapter_add_node_gen (gen : String → Nat → Nat × Nat) (a : PlowAdapter)
    (n : RoadNode) : PlowAdapter :=
  let na := gen n.id a.last_id
  { fwd := assocUpd a.fwd n.id na.1
    gnodes := assocUpd a.gnodes na.1 n
    last_id := na.2 }

/-- plow.rs 36-42: the plow_solver generator ignores the heavy id and hands
out consecutive internal ids from the accumulator. -/
def plowGen : String → Nat → Nat × Nat :=
  fun _ id => (id, id + 1)

/-- GraphAdapter::add_node as constructed by plow_solver. -/
def adapter_add_node (a : PlowAdapter) (n : RoadNode) : PlowAdapter :=
  adapter_add_node_gen plowGen a n

/-- graph.rs 473-476: map heavy id to light id. -/
def id2nid (a : PlowAdapter) (k : String) : Option Nat :=
  assocGet a.fwd k

/-- graph.rs 477-480: map light id to node. -/
def nid2node (a : PlowAdapter) (nid : Nat) : Option RoadNode :=
  assocGet a.gnodes nid

/-- The empty adapter (GraphAdapter::new with accumulator 0, plow.rs 39). -/
def adapterNew : PlowAdapter :=
  { fwd := [], gnodes := [], last_id := 0 }

/-! ## Vehicle location (data.rs, plow.rs locate macro) -/

/-- data.rs 79-84. -/
inductive Location : Type
  | node : String → Location
  | coordinates : ℤ → ℤ → Location
deriving DecidableEq

/-- data.rs 88-92. -/
structure VehiclesConfiguration : Type where
  road : List Location
  sidewalk : List Location

/-- One location of the locate macro (plow.rs 270-289): an explicit node must
exist and not be an orphan; coordinates locate to the nearest non orphan node
by squared euclidean distance.  Failures (the Err arms) are none.  The node
iteration order of the coordinate case, a HashMap order in Rust, is fixed to
ascending ids. -/
def locateOne {E : Type} (fwd : List (String × Nat)) (g : Graph E)
    (pos : Nat → ℤ × ℤ) (l : Location) : Option Nat :=
  match l with
  | .node n =>
    match assocGet fwd n with
    | some nid => if is_orphan g nid then none else some nid
    | none => none
  | .coordinates lon lat =>
    ((g.nodes.sort (· ≤ ·)).filter (fun n => !is_orphan g n)).foldl
      (fun best n =>
        match best with
        | none => some n
        | some b => if dist2 (lon, lat) (pos n) < dist2 (lon, lat) (pos b)
            then some n else some b)
      none

/-- The locate macro over a list of locations (try_map_all semantics). -/
def locate {E : Type} (fwd : List (String × Nat)) (g : Graph E)
    (pos : Nat → ℤ × ℤ) (ls : List Location) : Option (List Nat) :=
  ls.mapM (locateOne fwd g pos)

/-- plow.rs 465: the road solver locates its vehicles from the sidewalk list
of the vehicles configuration. -/
def road_solve_starts {E : Type} (fwd : List (String × Nat)) (g : Graph E)
    (pos : Nat → ℤ × ℤ) (vehicles : VehiclesConfiguration) : Option (List Nat) :=
  locate fwd g pos vehicles.sidewalk

/-- plow.rs 581: the sidewalk solver locates its vehicles from the sidewalk
list of the vehicles configuration. -/
def sidewalk_solve_starts {E : Type} (fwd : List (String × Nat)) (g : Graph E)
    (pos : Nat → ℤ × ℤ) (vehicles : VehiclesConfiguration) : Option (List Nat) :=
  locate fwd g pos vehicles.sidewalk

/-! ## A concrete edge type for concrete evaluations -/

/-- A minimal concrete edge (matching the tuple impls of the graph.rs tests,
extended with a directedness flag and a discriminating tag). -/
structure TEdge : Type where
  p1 : Nat
  p2 : Nat
  directed : Bool
  tag : Nat
deriving DecidableEq

instance : EdgeLike TEdge :=
  ⟨TEdge.p1, TEdge.p2, TEdge.directed⟩

/-- The empty two node graph of the remove_edge counterexample. -/
def gTwo : Graph TEdge :=
  ⟨{0, 1}, fun _ => []⟩

/-- The edge between the two nodes, never added to gTwo. -/
def eTwo : TEdge :=
  ⟨0, 1, false, 0⟩

/-- The adapter after adding the same external id twice. -/
def adapterTwiceA : PlowAdapter :=
  adapter_add_node (adapter_add_node adapterNew ⟨"A", (0, 0)⟩) ⟨"A", (1, 1)⟩

/-- The graph of the C8 evaluation: two connected nodes (so neither is an
orphan). -/
def gC8 : Graph TEdge :=
  (add_edge ⟨{0, 1}, fun _ => []⟩ ⟨0, 1, false, 0⟩).2

/-- The vehicles configuration of the C8 evaluation: the road list holds node
A, the sidewalk list holds node B. -/
def cfgC8 : VehiclesConfiguration :=
  { road := [.node "A"], sidewalk := [.node "B"] }

/-- A triangle graph on nodes 0, 1, 2 with three undirected edges, used for
concrete instantiations. -/
def eT01 : TEdge :=
  ⟨0, 1, false, 0⟩

/-- The triangle edge between 1 and 2. -/
def eT12 : TEdge :=
  ⟨1, 2, false, 0⟩

/-- The triangle edge between 2 and 0. -/
def eT20 : TEdge :=
  ⟨2, 0, false, 0⟩

/-- The triangle graph, built through add_edge. -/
def gTri : Graph TEdge :=
  (add_edge (add_edge (add_edge ⟨{0, 1, 2}, fun _ => []⟩ eT01).2 eT12).2 eT20).2

/-- The edge of the initial allocation counterexample, between nodes 10 and 16. -/
def eC6 : TEdge :=
  ⟨10, 16, false, 0⟩

/-- Node positions of the counterexample: node 10 at (1,0), node 16 at (6,0). -/
def posC6 : Nat → ℤ × ℤ :=
  fun n => if n = 10 then (1, 0) else (6, 0)

/-- Vehicle starting positions of the counterexample. -/
def locsC6 : List (ℤ × ℤ) :=
  [(0, 0), (10, 0)]

/-- A parameter set whose annealing loop runs zero main iterations. -/
def paramsC2 : Parameters :=
  { recycle := .no
    clearing := .onlyAllocated
    reorder := .no
    realloc := .no
    annealing := { main_iterations := 0, ft_iterations := 1,
                   starting_temperature := 1, cooling_factor := 1 }
    slowdown := 2
    weight_total := 1
    weight_max := 1 }

/-- The same parameter set with one main iteration. -/
def paramsC2one : Parameters :=
  { paramsC2 with
    annealing := { paramsC2.annealing with main_iterations := 1 } }

/-! # Theorems -/

/-! ## Association list lemmas (adapter) -/

theorem assocGet_upd_self {α β : Type} [DecidableEq α] (m : List (α × β))
    (k : α) (v : β) : assocGet (assocUpd m k v) k = some v := by
  simp [assocUpd, assocGet, List.find?]

theorem assocGet_upd_other {α β : Type} [DecidableEq α] (m : List (α × β))
    (k k' : α) (v : β) (hne : k' ≠ k) :
    assocGet (assocUpd m k v) k' = assocGet m k' := by
  unfold assocUpd assocGet
  have h0 : (decide ((k, v).1 = k')) = false := by
    simpa using fun hh : k = k' => hne hh.symm
  simp only [List.find?, h0]
  congr 1
  induction m with
  | nil => simp
  | cons kv m ih =>
    by_cases hk : kv.1 = k
    · have hQ : (decide (kv.1 ≠ k)) = false := by simp [hk]
      have hP : (decide (kv.1 = k')) = false := by
        simpa using fun hh : kv.1 = k' => hne (by rw [← hh, hk])
      simp only [List.filter, hQ, List.find?, hP]
      exact ih
    · have hQ : (decide (kv.1 ≠ k)) = true := by simpa using hk
      simp only [List.filter, hQ, List.find?]
      cases hd2 : (decide (kv.1 = k')) with
      | true => rfl
      | false => exact ih

/-! ## C9 and its counterexample -/


/-- Counterexample to C9: remove_edge applied to an edge that is not stored
anywhere in the graph (in particular not at either of its endpoints, the only
buckets add_edge ever writes) returns true, not false, because the result only
reflects the existence of the endpoint nodes. -/
theorem claim_C9_cex :
    (remove_edge gTwo eTwo).1 = true ∧
      eTwo ∉ get_edges gTwo (p1 eTwo) ∧ eTwo ∉ get_edges gTwo (p2 eTwo) := by
  decide

/-- C9 (amended): add_edge succeeds and inserts the edge exactly when both
endpoint nodes exist (into the p2 bucket, and also the p1 bucket when not
cyclic), and is a no-op returning false otherwise; remove_edge returns true
whenever both endpoint nodes exist, even when the edge itself is absent (the
removal is then a no-op on the buckets), and is a no-op returning false when an
endpoint node is unknown.  Nodes are never changed and no bucket other than
the two endpoint buckets is touched. -/
theorem claim_C9 {E : Type} [EdgeLike E] [DecidableEq E] (g : Graph E) (e : E) :
    ((add_edge g e).1 = decide (p1 e ∈ g.nodes ∧ p2 e ∈ g.nodes) ∧
      ((add_edge g e).1 = false → (add_edge g e).2 = g) ∧
      ((add_edge g e).1 = true → e ∈ (add_edge g e).2.buckets (p2 e) ∧
        (is_cyclic e = false → e ∈ (add_edge g e).2.buckets (p1 e))) ∧
      (add_edge g e).2.nodes = g.nodes ∧
      (∀ n, n ≠ p1 e → n ≠ p2 e → (add_edge g e).2.buckets n = g.buckets n)) ∧
    ((remove_edge g e).1 = decide (p1 e ∈ g.nodes ∧ p2 e ∈ g.nodes) ∧
      ((remove_edge g e).1 = false → (remove_edge g e).2 = g) ∧
      (remove_edge g e).2.nodes = g.nodes ∧
      (∀ n, n ≠ p1 e → n ≠ p2 e → (remove_edge g e).2.buckets n = g.buckets n)) := by
  have hmem : ∀ (l : List E), e ∈ hinsert e l := by
    intro l
    unfold hinsert
    split
    · assumption
    · simp
  by_cases h : p1 e ∈ g.nodes ∧ p2 e ∈ g.nodes
  · refine ⟨⟨?_, ?_, ?_, ?_, ?_⟩, ?_, ?_, ?_, ?_⟩
    · simp [add_edge, h]
    · intro hf
      simp [add_edge, h] at hf
    · intro _
      unfold add_edge
      rw [if_pos h]
      constructor
      · simp only [bupd, if_pos rfl]
        exact hmem _
      · intro hcf
        have hne : p1 e ≠ p2 e := by simpa [is_cyclic] using hcf
        simp only [if_neg (by simp [hcf] : ¬ is_cyclic e = true), bupd,
          if_neg hne, if_pos rfl]
        exact hmem _
    · unfold add_edge
      rw [if_pos h]
      split <;> rfl
    · intro n h1 h2
      unfold add_edge
      rw [if_pos h]
      by_cases hc : is_cyclic e <;> simp [hc, bupd, h1, h2]
    · simp [remove_edge, h]
    · intro hf
      simp [remove_edge, h] at hf
    · unfold remove_edge
      rw [if_pos h]
      split <;> rfl
    · intro n h1 h2
      unfold remove_edge
      rw [if_pos h]
      by_cases hc : is_cyclic e <;> simp [hc, bupd, h1, h2]
  · refine ⟨⟨?_, ?_, ?_, ?_, ?_⟩, ?_, ?_, ?_, ?_⟩ <;>
      simp [add_edge, remove_edge, h]

/-! ## C4: edge identity of the three specialisations -/

/-- C4: for each specialisation edge type, equality holds exactly when the
endpoints and discriminator (and side, for sidewalk edges) match, which is
exactly the tuple fed to the hasher; the length and (where present) the
directed flag influence neither. -/
theorem claim_C4 :
    (∀ a b : FlyEdge, (flyEq a b = true ↔ flyHashKey a = flyHashKey b) ∧
      (flyEq a b = true ↔ a.p1 = b.p1 ∧ a.p2 = b.p2 ∧
        a.discriminator = b.discriminator) ∧
      (∀ la lb : ℤ, flyEq { a with length := la } { b with length := lb } =
        flyEq a b)) ∧
    (∀ a b : RoadEdgeR, (roadEq a b = true ↔ roadHashKey a = roadHashKey b) ∧
      (roadEq a b = true ↔ a.p1 = b.p1 ∧ a.p2 = b.p2 ∧
        a.discriminator = b.discriminator) ∧
      (∀ (la lb : ℤ) (da db : Bool),
        roadEq { a with length := la, directed := da }
          { b with length := lb, directed := db } = roadEq a b) ∧
      (∀ (la : ℤ) (da : Bool), roadHashKey { a with length := la, directed := da } =
        roadHashKey a)) ∧
    (∀ a b : SwEdge, (swEq a b = true ↔ swHashKey a = swHashKey b) ∧
      (swEq a b = true ↔ a.p1 = b.p1 ∧ a.p2 = b.p2 ∧
        a.discriminator = b.discriminator ∧ a.side = b.side) ∧
      (∀ la lb : ℤ, swEq { a with length := la } { b with length := lb } =
        swEq a b)) := by
  refine ⟨fun a b => ⟨?_, ?_, fun la lb => ?_⟩,
    fun a b => ⟨?_, ?_, fun la lb da db => ?_, fun la da => ?_⟩,
    fun a b => ⟨?_, ?_, fun la lb => ?_⟩⟩ <;>
    simp [flyEq, flyHashKey, roadEq, roadHashKey, swEq, swHashKey,
      Prod.ext_iff, and_assoc]

/-! ## C7 and its counterexample -/


/-- Counterexample to C7: with the generator installed by plow_solver, adding
a node with the same external id twice does not preserve the internal id: the
first call maps A to 0, the second remaps A to the fresh id 1, and the first
payload is still stored under 0 rather than replaced. -/
theorem claim_C7_cex :
    id2nid (adapter_add_node adapterNew ⟨"A", (0, 0)⟩) "A" = some 0 ∧
      id2nid adapterTwiceA "A" = some 1 ∧
      nid2node adapterTwiceA 0 = some ⟨"A", (0, 0)⟩ ∧
      nid2node adapterTwiceA 1 = some ⟨"A", (1, 1)⟩ := by
  decide

/-- C7 (amended): add_node with the plow_solver generator always allocates the
fresh accumulator value as the internal id (allocation is keyed on the
accumulator, not on the external id): the external id is remapped to the fresh
id, the payload is stored under the fresh id, every other external id mapping
and every payload under a different internal id are unchanged, and the
accumulator advances by one.  In particular a second add_node with an already
known external id does not preserve its internal id. -/
theorem claim_C7 (a : PlowAdapter) (n : RoadNode) :
    id2nid (adapter_add_node a n) n.id = some a.last_id ∧
      (adapter_add_node a n).last_id = a.last_id + 1 ∧
      nid2node (adapter_add_node a n) a.last_id = some n ∧
      (∀ s, s ≠ n.id → id2nid (adapter_add_node a n) s = id2nid a s) ∧
      (∀ k, k ≠ a.last_id → nid2node (adapter_add_node a n) k = nid2node a k) := by
  refine ⟨?_, rfl, ?_, fun s hs => ?_, fun k hk => ?_⟩
  · exact assocGet_upd_self _ _ _
  · exact assocGet_upd_self _ _ _
  · exact assocGet_upd_other _ _ _ _ hs
  · exact assocGet_upd_other _ _ _ _ hk

/-! ## C8: which vehicle list the road solver reads -/


/-- C8 evaluated at the failing input: with road vehicles at A and sidewalk
vehicles at B, the road solver locates its starts from the sidewalk list and
obtains node 1 (B), although locating the road list would give node 0 (A); the
sidewalk solver reads the sidewalk list as specified. -/
theorem claim_C8_code_eval :
    road_solve_starts [("A", 0), ("B", 1)] gC8 (fun _ => (0, 0)) cfgC8 =
        some [1] ∧
      locate [("A", 0), ("B", 1)] gC8 (fun _ => (0, 0)) cfgC8.road = some [0] ∧
      sidewalk_solve_starts [("A", 0), ("B", 1)] gC8 (fun _ => (0, 0)) cfgC8 =
        some [1] := by
  decide

/-! ## C5: the improve phase acceptance -/

/-- C5: the improve phase acceptance decision equals the claimed rule: the same
deterministic rule as the tour phase, applied to the improvement objective
value_improv and the recomputed max tour cost, OR the probabilistic acceptance
guarded by value_improv strictly beating value_next.  Both value_improv
(plow.rs 217) and value_next (plow.rs 160) are the same figure computed from
the tour phase costs, so the guard of the probabilistic branch never holds and
the decision moreover coincides with the deterministic rule alone. -/
theorem claim_C5 (wTotal wMax cna cnm cim : ℤ) (vb cmb : Option ℤ) (coin : Bool) :
    (improveAcceptCode wTotal wMax cna cnm cim vb cmb coin =
      (tourAccept (wTotal * cna + wMax * cnm) cim vb cmb ||
        (decide (wTotal * cna + wMax * cnm < wTotal * cna + wMax * cnm) && coin))) ∧
    improveAcceptCode wTotal wMax cna cnm cim vb cmb coin =
      tourAccept (wTotal * cna + wMax * cnm) cim vb cmb := by
  constructor
  · rfl
  · show (tourAccept (wTotal * cna + wMax * cnm) cim vb cmb ||
      (decide (wTotal * cna + wMax * cnm < wTotal * cna + wMax * cnm) && coin)) = _
    simp

/-! ## Walk lemmas -/

section Walks

set_option linter.unusedSectionVars false

variable {E : Type} [EdgeLike E] [DecidableEq E]

theorem pathEnd_nil (u : Nat) : pathEnd u ([] : List E) = u :=
  rfl

theorem pathEnd_cons (u : Nat) (e : E) (p : List E) :
    pathEnd u (e :: p) = pathEnd (other e u) p :=
  rfl

theorem pathEnd_append (u : Nat) (p q : List E) :
    pathEnd u (p ++ q) = pathEnd (pathEnd u p) q := by
  simp [pathEnd, List.foldl_append]

theorem walkB_eq_end {g : Graph E} {dir : Bool} {u v : Nat} {p : List E}
    (h : walkB g dir u p v = true) : pathEnd u p = v := by
  induction p generalizing u with
  | nil => simpa [walkB, pathEnd] using h
  | cons e p ih =>
    simp only [walkB, Bool.and_eq_true] at h
    simpa [pathEnd_cons] using ih h.2

theorem walkB_append_iff {g : Graph E} {dir : Bool} {u v : Nat} {p q : List E} :
    walkB g dir u (p ++ q) v = true ↔
      walkB g dir u p (pathEnd u p) = true ∧
        walkB g dir (pathEnd u p) q v = true := by
  induction p generalizing u with
  | nil => simp [walkB, pathEnd]
  | cons e p ih =>
    simp only [List.cons_append, walkB, Bool.and_eq_true, pathEnd_cons,
      List.append_eq]
    rw [ih]
    tauto

theorem walkB_append {g : Graph E} {dir : Bool} {u m v : Nat} {p q : List E}
    (hp : walkB g dir u p m = true) (hq : walkB g dir m q v = true) :
    walkB g dir u (p ++ q) v = true := by
  have he := walkB_eq_end hp
  rw [walkB_append_iff, he]
  exact ⟨hp, hq⟩

theorem mem_spliceAt {x : E} {sol inj : List E} {y : Nat} :
    x ∈ spliceAt sol y inj ↔ x ∈ sol ∨ x ∈ inj := by
  have hsol : x ∈ sol ↔ x ∈ sol.take y ∨ x ∈ sol.drop y := by
    rw [← List.mem_append, List.take_append_drop]
  simp only [spliceAt, List.mem_append, hsol]
  tauto

theorem splice_walk {g : Graph E} {dir : Bool} {u v m : Nat} {sol inj : List E}
    {y : Nat} (h : walkB g dir u sol v = true)
    (hm : pathEnd u (sol.take y) = m) (hinj : walkB g dir m inj m = true) :
    walkB g dir u (spliceAt sol y inj) v = true := by
  have h2 : walkB g dir u (sol.take y ++ sol.drop y) v = true := by
    rwa [List.take_append_drop]
  rw [walkB_append_iff, hm] at h2
  have := walkB_append h2.1 (walkB_append hinj h2.2)
  simpa [spliceAt, List.append_assoc] using this

theorem pathNodes_length (u : Nat) (p : List E) :
    (pathNodes u p).length = p.length + 1 := by
  induction p generalizing u with
  | nil => rfl
  | cons e p ih => simp [pathNodes, ih]

theorem pathNodes_getD (u : Nat) (p : List E) (i : Nat) (hi : i ≤ p.length) :
    (pathNodes u p).getD i 0 = pathEnd u (p.take i) := by
  induction p generalizing u i with
  | nil =>
    have hz : i = 0 := Nat.le_zero.mp (by simpa using hi)
    subst hz
    rfl
  | cons e p ih =>
    cases i with
    | zero => rfl
    | succ i =>
      simp only [pathNodes, List.getD_cons_succ, List.take_succ_cons, pathEnd_cons]
      exact ih (other e u) i (by simpa using hi)

theorem pathEnd_mem_pathNodes (u : Nat) (p : List E) :
    pathEnd u p ∈ pathNodes u p := by
  induction p generalizing u with
  | nil => simp [pathNodes, pathEnd]
  | cons e p ih => simpa [pathNodes, pathEnd_cons] using Or.inr (ih (other e u))

theorem self_mem_pathNodes (u : Nat) (p : List E) : u ∈ pathNodes u p := by
  cases p <;> simp [pathNodes]

end Walks

/-! ## The last visit index map -/

theorem foldlUpd_lookup (l : List (Nat × Nat)) (acc : Nat → Option Nat)
    (u : Nat) :
    (l.foldl (fun a iu => fun n => if n = iu.2 then some iu.1 else a n) acc) u =
      (match l.reverse.find? (fun iu => decide (iu.2 = u)) with
        | some iu => some iu.1
        | none => acc u) := by
  induction l generalizing acc with
  | nil => rfl
  | cons a l ih =>
    simp only [List.foldl_cons, List.reverse_cons]
    rw [ih, List.find?_append]
    cases hf : l.reverse.find? (fun iu => decide (iu.2 = u)) with
    | some iu => rfl
    | none =>
      by_cases hu : a.2 = u
      · simp [List.find?, hu]
      · have h1 : (decide (a.2 = u)) = false := by simpa using hu
        have h2 : u ≠ a.2 := fun hh => hu hh.symm
        simp [List.find?, h1, h2]

theorem lastIdx_mem (ns : List Nat) (u : Nat) (hu : u ∈ ns) :
    ∃ y, lastIdx ns u = some y ∧ y < ns.length ∧ ns.getD y 0 = u := by
  unfold lastIdx
  rw [foldlUpd_lookup]
  have hex : ∃ iu, iu ∈ ns.enum.reverse ∧ (fun iu : Nat × Nat => decide (iu.2 = u)) iu = true := by
    obtain ⟨i, hi, hgi⟩ := List.mem_iff_getElem.mp hu
    refine ⟨(i, u), ?_, by simp⟩
    rw [List.mem_reverse]
    rw [List.mem_enum_iff_getElem?]
    simp [List.getElem?_eq_getElem hi, hgi]
  obtain ⟨iu, hmem, hp⟩ := hex
  have hsome : (ns.enum.reverse.find? (fun iu => decide (iu.2 = u))).isSome :=
    List.find?_isSome.mpr ⟨iu, hmem, hp⟩
  obtain ⟨ju, hfind⟩ := Option.isSome_iff_exists.mp hsome
  rw [hfind]
  have hmemj := List.find?_some hfind
  have hju : ju ∈ ns.enum := List.mem_reverse.mp (List.mem_of_find?_eq_some hfind)
  rw [List.mem_enum_iff_getElem?] at hju
  simp only [decide_eq_true_eq] at hmemj
  refine ⟨ju.1, rfl, ?_, ?_⟩
  · exact (List.getElem?_eq_some.mp hju).1
  · obtain ⟨hlt, hval⟩ := List.getElem?_eq_some.mp hju
    rw [List.getD_eq_getElem ns 0 hlt, hval, hmemj]

/-! ## Dijkstra soundness (independent of weight signs) -/

section Dijk

set_option linter.unusedSectionVars false

variable {E : Type} [EdgeLike E] [DecidableEq E]
variable {g : Graph E} {dir : Bool} {wt : E → Option ℤ} {S : List Nat}
variable {T : Finset Nat}

theorem other_other {u : Nat} {e : E} (hwf : WF g) (he : e ∈ g.buckets u) :
    other e (other e u) = u := by
  rcases hwf.incident u e he with h1 | h2
  · by_cases h2 : p2 e = p1 e <;> simp [other, h1, h2]
  · by_cases h1 : p1 e = p2 e
    · simp [other, h2, h1]
    · have : ¬ p2 e = p1 e := fun hh => h1 hh.symm
      simp [other, h2, this]

theorem outgoing_of_cond {u : Nat} {e : E} (hwf : WF g) (he : e ∈ g.buckets u)
    (hc : (!dir || !directed e || decide (p1 e = u)) = true) :
    is_outgoing dir e u = true := by
  have hc' : (dir = false ∨ directed e = false) ∨ p1 e = u := by
    simpa using hc
  rcases hwf.incident u e he with h1 | h2
  · simp [is_outgoing, h1]
  · simp only [is_outgoing, h2, Bool.or_eq_true, Bool.and_eq_true,
      decide_eq_true_eq]
    rcases hc' with (h | h) | h
    · exact Or.inr ⟨by simp [h2], Or.inl (by simp [h])⟩
    · exact Or.inr ⟨by simp [h2], Or.inr (by simp [h])⟩
    · exact Or.inl h.symm


theorem linkInv_dpInit : LinkInv g dir wt S (dpInit S) := by
  constructor
  · intro v d h
    unfold dpInit at h
    split at h
    · rename_i hv
      simp only [Option.some.injEq, Prod.mk.injEq] at h
      exact ⟨hv, h.1.symm⟩
    · cases h
  · intro v d e h
    unfold dpInit at h
    split at h
    · simp at h
    · cases h

theorem relaxOne_le (u : Nat) (du : ℤ) (st : DP E × List Nat) (e : E)
    (v : Nat) (d : ℤ) (pr : Option E) (h : st.1 v = some (d, pr)) :
    ∃ d' pr', (relaxOne dir wt u du st e).1 v = some (d', pr') ∧ d' ≤ d := by
  unfold relaxOne
  split
  · cases hw : wt e with
    | none => exact ⟨d, pr, h, le_refl d⟩
    | some w =>
      simp only
      split
      · rename_i vd snd hv
        split
        · rename_i himp
          by_cases hveq : v = other e u
          · subst hveq
            rw [h] at hv
            simp only [Option.some.injEq, Prod.mk.injEq] at hv
            refine ⟨du + w, some e, by simp [dpUpdate], ?_⟩
            rw [hv.1]
            exact le_of_lt himp
          · exact ⟨d, pr, by simpa [dpUpdate, hveq] using h, le_refl d⟩
        · exact ⟨d, pr, h, le_refl d⟩
      · rename_i hv
        by_cases hveq : v = other e u
        · rw [hveq] at h
          rw [h] at hv
          cases hv
        · exact ⟨d, pr, by simpa [dpUpdate, hveq] using h, le_refl d⟩
  · exact ⟨d, pr, h, le_refl d⟩

theorem relaxOne_inv {u : Nat} {du : ℤ} {st : DP E × List Nat} {e : E}
    (hwf : WF g) (hinv : LinkInv g dir wt S st.1) (he : e ∈ get_edges g u)
    (hu : ∃ du0 pu0, st.1 u = some (du0, pu0) ∧ du0 ≤ du) :
    LinkInv g dir wt S (relaxOne dir wt u du st e).1 := by
  obtain ⟨du0, pu0, hu0, hle0⟩ := hu
  unfold relaxOne
  split
  · rename_i hcond
    cases hw : wt e with
    | none => exact hinv
    | some w =>
      simp only
      have hoo : other e (other e u) = u := other_other hwf he
      have hout : is_outgoing dir e u = true := outgoing_of_cond hwf he hcond
      split
      · rename_i vd snd hv
        split
        · rename_i himp
          constructor
          · intro x dd hx
            replace hx : (dpUpdate st.1 (other e u) (du + w, some e)) x =
              some (dd, none) := hx
            by_cases hxv : x = other e u
            · subst hxv
              simp [dpUpdate] at hx
            · rw [show (dpUpdate st.1 (other e u) (du + w, some e)) x = st.1 x by
                simp [dpUpdate, hxv]] at hx
              exact hinv.root x dd hx
          · intro x dd e' hx
            replace hx : (dpUpdate st.1 (other e u) (du + w, some e)) x =
              some (dd, some e') := hx
            by_cases hxv : x = other e u
            · subst hxv
              simp [dpUpdate] at hx
              obtain ⟨hdd, hee⟩ := hx
              subst hdd
              cases hee
              refine ⟨by rwa [hoo], by rwa [hoo], by rw [hoo], w, hw, ?_⟩
              by_cases hcy : u = other e u
              · have h1 : du0 = vd := by
                  rw [← hcy, hu0] at hv
                  simp only [Option.some.injEq, Prod.mk.injEq] at hv
                  exact hv.1
                have hneg : w < 0 := by linarith
                refine ⟨du + w, some e, ?_, by linarith⟩
                rw [hoo]
                simp [dpUpdate, ← hcy]
              · refine ⟨du0, pu0, ?_, by linarith⟩
                rw [hoo]
                simpa [dpUpdate, hcy] using hu0
            · rw [show (dpUpdate st.1 (other e u) (du + w, some e)) x = st.1 x by
                simp [dpUpdate, hxv]] at hx
              obtain ⟨hb, ho, hov, w', hw', du1, pu1, hdp1, hle1⟩ :=
                hinv.link x dd e' hx
              refine ⟨hb, ho, hov, w', hw', ?_⟩
              by_cases hy : other e' x = other e u
              · rw [hy, hv] at hdp1
                simp only [Option.some.injEq, Prod.mk.injEq] at hdp1
                have h1 : vd = du1 := hdp1.1
                refine ⟨du + w, some e, by simp [dpUpdate, hy], by linarith⟩
              · exact ⟨du1, pu1, by simpa [dpUpdate, hy] using hdp1, hle1⟩
        · exact hinv
      · rename_i hv
        constructor
        · intro x dd hx
          replace hx : (dpUpdate st.1 (other e u) (du + w, some e)) x =
            some (dd, none) := hx
          by_cases hxv : x = other e u
          · subst hxv
            simp [dpUpdate] at hx
          · rw [show (dpUpdate st.1 (other e u) (du + w, some e)) x = st.1 x by
              simp [dpUpdate, hxv]] at hx
            exact hinv.root x dd hx
        · intro x dd e' hx
          replace hx : (dpUpdate st.1 (other e u) (du + w, some e)) x =
            some (dd, some e') := hx
          by_cases hxv : x = other e u
          · subst hxv
            simp [dpUpdate] at hx
            obtain ⟨hdd, hee⟩ := hx
            subst hdd
            cases hee
            refine ⟨by rwa [hoo], by rwa [hoo], by rw [hoo], w, hw, ?_⟩
            have hne : u ≠ other e u := by
              intro hh
              rw [← hh, hu0] at hv
              cases hv
            refine ⟨du0, pu0, ?_, by linarith⟩
            rw [hoo]
            simpa [dpUpdate, hne] using hu0
          · rw [show (dpUpdate st.1 (other e u) (du + w, some e)) x = st.1 x by
              simp [dpUpdate, hxv]] at hx
            obtain ⟨hb, ho, hov, w', hw', du1, pu1, hdp1, hle1⟩ :=
              hinv.link x dd e' hx
            refine ⟨hb, ho, hov, w', hw', ?_⟩
            by_cases hy : other e' x = other e u
            · rw [hy, hv] at hdp1
              cases hdp1
            · exact ⟨du1, pu1, by simpa [dpUpdate, hy] using hdp1, hle1⟩
  · exact hinv

theorem relaxAll_inv {u : Nat} {du : ℤ} (hwf : WF g) :
    ∀ (es : List E) (st : DP E × List Nat), LinkInv g dir wt S st.1 →
      (∀ e ∈ es, e ∈ get_edges g u) →
      (∃ du0 pu0, st.1 u = some (du0, pu0) ∧ du0 ≤ du) →
      LinkInv g dir wt S (relaxAll dir wt u du es st).1 := by
  intro es
  induction es with
  | nil => exact fun st hinv _ _ => hinv
  | cons e es ih =>
    intro st hinv hes hu
    obtain ⟨du0, pu0, hu0, hle0⟩ := hu
    have hinv' := relaxOne_inv hwf hinv (hes e (by simp)) ⟨du0, pu0, hu0, hle0⟩
    obtain ⟨du1, pu1, hu1, hle1⟩ := relaxOne_le u du st e u du0 pu0 hu0
    exact ih _ hinv' (fun e' he' => hes e' (by simp [he']))
      ⟨du1, pu1, hu1, le_trans hle1 hle0⟩

theorem recon_sound {dp : DP E} (hinv : LinkInv g dir wt S dp) :
    ∀ (f : Nat) (v r : Nat) (p : List E), recon dp v f = some (r, p) →
      r ∈ S ∧ walkB g dir r p v = true ∧ allTraversable wt p = true ∧
        ∃ d pr, dp v = some (d, pr) ∧ wsum wt p ≤ d := by
  intro f
  induction f with
  | zero => intro v r p h; cases h
  | succ f ih =>
    intro v r p h
    unfold recon at h
    split at h
    · rename_i d hv
      simp only [Option.some.injEq, Prod.mk.injEq] at h
      obtain ⟨hr, hp⟩ := h
      subst hr
      subst hp
      obtain ⟨hS, hd0⟩ := hinv.root v d hv
      refine ⟨hS, by simp [walkB], by simp [allTraversable], d, none, hv, ?_⟩
      simp [wsum, hd0]
    · rename_i d e hv
      cases hrec : recon dp (other e v) f with
      | none => rw [hrec] at h; cases h
      | some rp =>
        rw [hrec] at h
        simp only [Option.map_some', Option.some.injEq, Prod.mk.injEq] at h
        obtain ⟨hb, ho, hov, w, hw, du, pu, hdu, hle⟩ := hinv.link v d e hv
        obtain ⟨hS, hwalk, htrav, d1, pr1, hd1, hws⟩ :=
          ih (other e v) rp.1 rp.2 hrec
        have hd1' : du = d1 := by
          rw [hdu] at hd1
          simpa using congrArg (fun x => (Option.map Prod.fst x).getD 0) hd1
        have hstep : walkB g dir (other e v) [e] v = true := by
          simp only [walkB, Bool.and_eq_true]
          exact ⟨⟨by simpa using hb, ho⟩, by simp [hov]⟩
        obtain ⟨h1, h2⟩ := h
        subst h1
        subst h2
        refine ⟨hS, ?_, ?_, d, some e, hv, ?_⟩
        · exact walkB_append hwalk hstep
        · simp only [allTraversable, List.all_append, Bool.and_eq_true] at htrav ⊢
          exact ⟨htrav, by simp [allTraversable, hw]⟩
        · have heq : wsum wt (rp.2 ++ [e]) = wsum wt rp.2 + w := by
            simp [wsum, hw]
          rw [heq]
          rw [← hd1'] at hws
          linarith
    · cases h

theorem popMin_mem {dp : DP E} :
    ∀ (fr : List Nat) (acc : Option Nat) (u : Nat),
      fr.foldl (fun best v =>
        match best with
        | none => some v
        | some b => if popsBefore dp v b then some v else some b) acc = some u →
      u ∈ fr ∨ acc = some u := by
  intro fr
  induction fr with
  | nil => exact fun acc u h => Or.inr h
  | cons v fr ih =>
    intro acc u h
    rcases ih _ u h with hm | hacc
    · exact Or.inl (by simp [hm])
    · cases acc with
      | none =>
        simp only at hacc
        exact Or.inl (by simp [Option.some.inj hacc])
      | some b =>
        simp only at hacc
        split at hacc
        · exact Or.inl (by simp [Option.some.inj hacc])
        · exact Or.inr hacc

theorem popMin_mem' {dp : DP E} {fr : List Nat} {u : Nat}
    (h : popMin dp fr = some u) : u ∈ fr := by
  rcases popMin_mem fr none u h with hm | hacc
  · exact hm
  · cases hacc

theorem dijkstra_loop_sound {rfuel : Nat} (hwf : WF g) :
    ∀ (fuel : Nat) (dp : DP E) (fr : List Nat), LinkInv g dir wt S dp →
      ∀ r u p, dijkstra_loop g dir wt T rfuel dp fr fuel = .found r u p →
        r ∈ S ∧ u ∈ T ∧ walkB g dir r p u = true ∧
          allTraversable wt p = true := by
  intro fuel
  induction fuel with
  | zero => intro dp fr _ r u p h; cases h
  | succ fuel ih =>
    intro dp fr hinv r u p h
    unfold dijkstra_loop at h
    split at h
    · cases h
    · rename_i u' hpop
      split at h
      · rename_i hT
        split at h
        · rename_i rp hrec
          simp only [DijkRes.found.injEq] at h
          obtain ⟨h1, h2, h3⟩ := h
          subst h1
          subst h2
          subst h3
          obtain ⟨hS, hwalk, htrav, _⟩ := recon_sound hinv rfuel u' rp.1 rp.2 hrec
          exact ⟨hS, hT, hwalk, htrav⟩
        · cases h
      · rename_i hT
        split at h
        · rename_i du hdu
          refine ih _ _ ?_ r u p h
          exact relaxAll_inv hwf (get_edges g u') (dp, fr.erase u') hinv
            (fun e he => he) ⟨du.1, du.2, by simpa using hdu, le_refl du.1⟩
        · cases h

theorem pathfind_sound {n1 n2 : Nat} {p : List E} (hwf : WF g)
    (h : pathfind g dir wt n1 n2 = some p) :
    walkB g dir n1 p n2 = true ∧ allTraversable wt p = true := by
  unfold pathfind at h
  cases hres : dijkstra_loop g dir wt {n2} (dijkFuel g [n1]) (dpInit [n1]) [n1]
      (dijkFuel g [n1]) with
  | found r u p' =>
    rw [hres] at h
    simp only [Option.some.injEq] at h
    subst h
    obtain ⟨hS, hT, hwalk, htrav⟩ :=
      dijkstra_loop_sound hwf _ _ _ linkInv_dpInit r u p' hres
    have hr : r = n1 := by simpa using hS
    have hu : u = n2 := by simpa using hT
    rw [hr, hu] at hwalk
    exact ⟨hwalk, htrav⟩
  | unreachable => rw [hres] at h; cases h
  | fuelOut => rw [hres] at h; cases h

theorem pathfind_regions_sound {Sl : List Nat} {u v : Nat} {p : List E}
    (hwf : WF g) (h : pathfind_regions g dir wt Sl T = .found u v p) :
    u ∈ Sl ∧ v ∈ T ∧ walkB g dir u p v = true ∧
      allTraversable wt p = true := by
  unfold pathfind_regions at h
  split at h
  · cases h
  · obtain ⟨hS, hT, hwalk, htrav⟩ :=
      dijkstra_loop_sound hwf _ _ _ linkInv_dpInit u v p h
    exact ⟨hS, hT, hwalk, htrav⟩

theorem mem_hinsert {x e : E} {l : List E} : x ∈ hinsert e l ↔ x = e ∨ x ∈ l := by
  unfold hinsert
  split
  · rename_i he
    constructor
    · exact fun h => Or.inr h
    · rintro (rfl | h) <;> assumption
  · simp [or_comm]

theorem wf_add_edge {e : E} (hwf : WF g) : WF (add_edge g e).2 := by
  unfold add_edge
  split
  · rename_i hmem
    set g1 : Graph E :=
      if is_cyclic e then g
      else { g with buckets := bupd g.buckets (p1 e) (hinsert e (g.buckets (p1 e))) }
      with hg1
    have hwf1 : WF g1 ∧ g1.nodes = g.nodes := by
      rw [hg1]
      split
      · exact ⟨hwf, rfl⟩
      · refine ⟨⟨?_, ?_⟩, rfl⟩
        · intro u e' he'
          simp only [bupd] at he'
          by_cases hu : u = p1 e
          · rw [if_pos hu] at he'
            rcases mem_hinsert.mp he' with rfl | hin
            · exact Or.inl hu.symm
            · exact hu ▸ hwf.incident (p1 e) e' hin
          · rw [if_neg hu] at he'
            exact hwf.incident u e' he'
        · intro u e' he'
          simp only [bupd] at he'
          by_cases hu : u = p1 e
          · rw [if_pos hu] at he'
            rcases mem_hinsert.mp he' with rfl | hin
            · exact hmem
            · exact hwf.endpoints (p1 e) e' hin
          · rw [if_neg hu] at he'
            exact hwf.endpoints u e' he'
    refine ⟨?_, ?_⟩
    · intro u e' he'
      simp only [bupd] at he'
      by_cases hu : u = p2 e
      · rw [if_pos hu] at he'
        rcases mem_hinsert.mp he' with rfl | hin
        · exact Or.inr hu.symm
        · exact hu ▸ hwf1.1.incident (p2 e) e' hin
      · rw [if_neg hu] at he'
        exact hwf1.1.incident u e' he'
    · intro u e' he'
      simp only [bupd] at he'
      by_cases hu : u = p2 e
      · rw [if_pos hu] at he'
        rcases mem_hinsert.mp he' with rfl | hin
        · exact hwf1.2 ▸ hmem
        · exact hwf1.2 ▸ hwf1.1.endpoints (p2 e) e' hin
      · rw [if_neg hu] at he'
        exact hwf1.2 ▸ hwf1.1.endpoints u e' he'
  · exact hwf

theorem wf_emptyBuckets (s : Finset Nat) : WF (⟨s, fun _ => []⟩ : Graph E) := by
  constructor <;> intro u e' he' <;> cases he'

end Dijk

/-! ## The PWRP heuristic: C1 -/

section Pwrp

set_option linter.unusedSectionVars false

variable {E : Type} [EdgeLike E] [DecidableEq E]
variable {g : Graph E} {dir : Bool} {wt : E → Option ℤ}

theorem findCycleInj_some {alloc : Finset E} {sp : Nat} {sol : List E}
    {u y : Nat} {e : E}
    (h : findCycleInj g dir alloc sp sol = some (u, y, e)) :
    y ≤ sol.length ∧ pathEnd sp (sol.take y) = u ∧ e ∈ get_edges g u ∧
      is_outgoing dir e u = true ∧ e ∈ alloc := by
  unfold findCycleInj at h
  obtain ⟨iu, hiu, hf⟩ := List.exists_of_findSome?_eq_some h
  split at hf
  · rename_i e' he'
    simp only [Option.some.injEq, Prod.mk.injEq] at hf
    obtain ⟨h1, h2, h3⟩ := hf
    subst h1
    subst h2
    subst h3
    have hmem := List.mem_of_find?_eq_some he'
    have hp := List.find?_some he'
    simp only [Bool.and_eq_true, decide_eq_true_eq] at hp
    rw [List.mem_enum_iff_getElem?] at hiu
    obtain ⟨hlt, hval⟩ := List.getElem?_eq_some.mp hiu
    have hlen : iu.1 ≤ sol.length := by
      have := pathNodes_length sp sol
      omega
    refine ⟨hlen, ?_, hmem, hp.1, hp.2⟩
    rw [← pathNodes_getD sp sol iu.1 hlen]
    rw [List.getD_eq_getElem _ 0 hlt, hval]
  · cases hf

theorem isleLoop_inj {alloc : Finset E} {us : List Nat} {ui : Nat → Option Nat}
    (hwf : WF g) :
    ∀ (vs : Finset Nat) (fuel : Nat) (inj : List E) (y : Nat),
      isleLoop g dir wt alloc us ui vs fuel = .inj inj y →
      ∃ u, u ∈ us ∧ y = (ui u).getD 0 ∧ walkB g dir u inj u = true := by
  intro vs fuel
  induction fuel generalizing vs with
  | zero => intro inj y h; cases h
  | succ fuel ih =>
    intro inj y h
    unfold isleLoop at h
    split at h
    · rename_i u v p hreg
      split at h
      · rename_i epb hfind
        simp only [IsleRes.inj.injEq] at h
        obtain ⟨h1, h2⟩ := h
        subst h1
        subst h2
        obtain ⟨hus, hvs, hwalk, htrav⟩ := pathfind_regions_sound hwf hreg
        obtain ⟨e', he', hf⟩ := List.exists_of_findSome?_eq_some hfind
        split at hf
        · rename_i hcond
          simp only [Bool.and_eq_true, decide_eq_true_eq] at hcond
          cases hpb : pathfind g dir wt (other e' v) u with
          | none => rw [hpb] at hf; cases hf
          | some pb' =>
            rw [hpb] at hf
            simp only [Option.map_some', Option.some.injEq] at hf
            have he2 : epb.1 = e' := by rw [← hf]
            have hpb2 : epb.2 = pb' := by rw [← hf]
            obtain ⟨hwb, _⟩ := pathfind_sound hwf hpb
            refine ⟨u, hus, rfl, ?_⟩
            rw [he2, hpb2]
            have hstep : walkB g dir v [e'] (other e' v) = true := by
              simp [walkB, he', hcond.1]
            exact walkB_append (walkB_append hwalk hstep) hwb
        · cases hf
      · exact ih _ _ _ h
    · cases h
    · cases h

theorem pwrpLoop_spec {sp : Nat} (hwf : WF g) (alloc₀ : Finset E) :
    ∀ (fuel : Nat) (alloc : Finset E) (sol : List E),
      walkB g dir sp sol sp = true →
      (∀ x ∈ alloc, x ∈ alloc₀) →
      (∀ x ∈ alloc₀, x ∉ alloc → x ∈ sol) →
      (∀ out, pwrpLoop g dir wt sp alloc sol fuel = .ok out →
        walkB g dir sp out sp = true ∧ ∀ x ∈ alloc₀, x ∈ out) ∧
      (∀ rest, pwrpLoop g dir wt sp alloc sol fuel = .unreachable rest →
        ∀ x ∈ rest, x ∈ alloc₀) := by
  intro fuel
  induction fuel with
  | zero =>
    intro alloc sol _ _ _
    constructor
    · intro out h
      cases h
    · intro rest h
      cases h
  | succ fuel ih =>
    intro alloc sol hwalk hsub hcov
    constructor
    · intro out h
      unfold pwrpLoop at h
      split at h
      · rename_i hempty
        simp only [PwrpRes.ok.injEq] at h
        subst h
        refine ⟨hwalk, fun x hx => hcov x hx ?_⟩
        simp [hempty]
      · split at h
        · rename_i uye hfind
          split at h
          · rename_i p hp
            obtain ⟨hy, hend, hbkt, hout, halc⟩ := findCycleInj_some hfind
            obtain ⟨hwb, _⟩ := pathfind_sound hwf hp
            have hinwalk : walkB g dir uye.1 (uye.2.2 :: p) uye.1 = true := by
              simp only [walkB, Bool.and_eq_true]
              exact ⟨⟨by simpa using hbkt, hout⟩, hwb⟩
            have hwalk' : walkB g dir sp
                (spliceAt sol uye.2.1 (uye.2.2 :: p)) sp = true :=
              splice_walk hwalk hend hinwalk
            refine (ih _ _ hwalk' ?_ ?_).1 out h
            · intro x hx
              exact hsub x (Finset.mem_of_mem_filter x hx)
            · intro x hx hnx
              by_cases hxa : x ∈ alloc
              · have hxin : x ∈ uye.2.2 :: p := by
                  by_contra hxn
                  exact hnx (Finset.mem_filter.mpr ⟨hxa, hxn⟩)
                exact mem_spliceAt.mpr (Or.inr hxin)
              · exact mem_spliceAt.mpr (Or.inl (hcov x hx hxa))
          · cases h
        · split at h
          · rename_i inj y hisle
            obtain ⟨u, hus, hyeq, hinwalk⟩ := isleLoop_inj hwf _ _ _ _ hisle
            obtain ⟨y', hy', hylt, hyval⟩ := lastIdx_mem _ u hus
            have hyy : y = y' := by rw [hyeq, hy']; rfl
            subst hyy
            have hylen : y ≤ sol.length := by
              have := pathNodes_length sp sol
              omega
            have hend : pathEnd sp (sol.take y) = u := by
              rw [← pathNodes_getD sp sol y hylen, hyval]
            have hwalk' : walkB g dir sp (spliceAt sol y inj) sp = true :=
              splice_walk hwalk hend hinwalk
            refine (ih _ _ hwalk' ?_ ?_).1 out h
            · intro x hx
              exact hsub x (Finset.mem_of_mem_filter x hx)
            · intro x hx hnx
              by_cases hxa : x ∈ alloc
              · have hxin : x ∈ inj := by
                  by_contra hxn
                  exact hnx (Finset.mem_filter.mpr ⟨hxa, hxn⟩)
                exact mem_spliceAt.mpr (Or.inr hxin)
              · exact mem_spliceAt.mpr (Or.inl (hcov x hx hxa))
          · cases h
          · cases h
    · intro rest h
      unfold pwrpLoop at h
      split at h
      · cases h
      · split at h
        · rename_i uye hfind
          split at h
          · rename_i p hp
            obtain ⟨hy, hend, hbkt, hout, halc⟩ := findCycleInj_some hfind
            obtain ⟨hwb, _⟩ := pathfind_sound hwf hp
            have hinwalk : walkB g dir uye.1 (uye.2.2 :: p) uye.1 = true := by
              simp only [walkB, Bool.and_eq_true]
              exact ⟨⟨by simpa using hbkt, hout⟩, hwb⟩
            have hwalk' : walkB g dir sp
                (spliceAt sol uye.2.1 (uye.2.2 :: p)) sp = true :=
              splice_walk hwalk hend hinwalk
            refine (ih _ _ hwalk' ?_ ?_).2 rest h
            · intro x hx
              exact hsub x (Finset.mem_of_mem_filter x hx)
            · intro x hx hnx
              by_cases hxa : x ∈ alloc
              · have hxin : x ∈ uye.2.2 :: p := by
                  by_contra hxn
                  exact hnx (Finset.mem_filter.mpr ⟨hxa, hxn⟩)
                exact mem_spliceAt.mpr (Or.inr hxin)
              · exact mem_spliceAt.mpr (Or.inl (hcov x hx hxa))
          · cases h
        · split at h
          · rename_i inj y hisle
            obtain ⟨u, hus, hyeq, hinwalk⟩ := isleLoop_inj hwf _ _ _ _ hisle
            obtain ⟨y', hy', hylt, hyval⟩ := lastIdx_mem _ u hus
            have hyy : y = y' := by rw [hyeq, hy']; rfl
            subst hyy
            have hylen : y ≤ sol.length := by
              have := pathNodes_length sp sol
              omega
            have hend : pathEnd sp (sol.take y) = u := by
              rw [← pathNodes_getD sp sol y hylen, hyval]
            have hwalk' : walkB g dir sp (spliceAt sol y inj) sp = true :=
              splice_walk hwalk hend hinwalk
            refine (ih _ _ hwalk' ?_ ?_).2 rest h
            · intro x hx
              exact hsub x (Finset.mem_of_mem_filter x hx)
            · intro x hx hnx
              by_cases hxa : x ∈ alloc
              · have hxin : x ∈ inj := by
                  by_contra hxn
                  exact hnx (Finset.mem_filter.mpr ⟨hxa, hxn⟩)
                exact mem_spliceAt.mpr (Or.inr hxin)
              · exact mem_spliceAt.mpr (Or.inl (hcov x hx hxa))
          · rename_i hisle
            simp only [PwrpRes.unreachable.injEq] at h
            subst h
            exact fun x hx => hsub x hx
          · cases h

/-- C1: for every graph, start node, allocation and filtering weight function,
when solve_pwrp returns Ok the solution is a closed walk starting and ending at
the start node (each edge is traversed from the node reached so far, directed
edges only from p1 under respect) that contains every allocated edge at least
once; when it returns Err the remainder is a subset of the allocation. -/
theorem claim_C1 {E : Type} [EdgeLike E] [DecidableEq E] (g : Graph E)
    (dir : Bool) (wt : E → Option ℤ) (sp : Nat) (alloc : Finset E)
    (hwf : WF g) :
    (∀ sol, solve_pwrp g dir wt sp alloc = .ok sol →
      walkB g dir sp sol sp = true ∧ ∀ e ∈ alloc, e ∈ sol) ∧
    (∀ rest, solve_pwrp g dir wt sp alloc = .unreachable rest →
      rest ⊆ alloc) := by
  have h := @pwrpLoop_spec E _ _ g dir wt sp hwf alloc (alloc.card + 1) alloc []
    (by simp [walkB]) (fun x hx => hx) (fun x hx hnx => absurd hx hnx)
  refine ⟨fun sol hs => h.1 sol hs, fun rest hr => ?_⟩
  intro x hx
  exact h.2 rest hr x hx

/-- Witness for C1: the hypotheses discharged at the concrete triangle graph
with one allocated edge. -/
theorem claim_C1_witness :
    WF gTri ∧
      ((∀ sol, solve_pwrp gTri false (fun _ => some (1 : ℤ)) 0 {eT12} = .ok sol →
        walkB gTri false 0 sol 0 = true ∧
          ∀ e ∈ ({eT12} : Finset TEdge), e ∈ sol) ∧
      (∀ rest, solve_pwrp gTri false (fun _ => some (1 : ℤ)) 0 {eT12} =
          .unreachable rest → rest ⊆ {eT12})) :=
  ⟨wf_add_edge (wf_add_edge (wf_add_edge (wf_emptyBuckets _))),
    claim_C1 gTri false (fun _ => some (1 : ℤ)) 0 {eT12}
      (wf_add_edge (wf_add_edge (wf_add_edge (wf_emptyBuckets _))))⟩

end Pwrp

section Alloc

/-- Folding closestStep from a some accumulator always yields a some. -/
lemma closestFold_isSome (c : ℤ × ℤ) :
    ∀ (l : List (Nat × (ℤ × ℤ))) (a : Nat × (ℤ × ℤ)),
      ∃ r, l.foldl (closestStep c) (some a) = some r := by
  intro l
  induction l with
  | nil => exact fun a => ⟨a, rfl⟩
  | cons x t ih =>
    intro a
    rw [List.foldl_cons]
    show ∃ r, t.foldl (closestStep c)
      (if dist2 c x.2 < dist2 c a.2 then some x else some a) = some r
    by_cases h : dist2 c x.2 < dist2 c a.2
    · rw [if_pos h]; exact ih x
    · rw [if_neg h]; exact ih a

/-- The result of folding closestStep is a member of the list or the initial
accumulator. -/
lemma closestFold_mem (c : ℤ × ℤ) :
    ∀ (l : List (Nat × (ℤ × ℤ))) (acc : Option (Nat × (ℤ × ℤ))) (r : Nat × (ℤ × ℤ)),
      l.foldl (closestStep c) acc = some r → r ∈ l ∨ acc = some r := by
  intro l
  induction l with
  | nil => exact fun acc r h => Or.inr h
  | cons x t ih =>
    intro acc r h
    rw [List.foldl_cons] at h
    rcases ih (closestStep c acc x) r h with hm | he
    · exact Or.inl (List.mem_cons_of_mem _ hm)
    · cases acc with
      | none =>
        have hx : x = r := Option.some.inj he
        exact Or.inl (hx ▸ List.mem_cons_self x t)
      | some b =>
        by_cases hd : dist2 c x.2 < dist2 c b.2
        · have h0 : closestStep c (some b) x = some x := by
            simp [closestStep, hd]
          rw [h0] at he
          exact Or.inl ((Option.some.inj he) ▸ List.mem_cons_self x t)
        · have h0 : closestStep c (some b) x = some b := by
            simp [closestStep, hd]
          rw [h0] at he
          exact Or.inr he

/-- On a nonempty fleet, closestIdx returns an index inside the fleet. -/
lemma closestIdx_some (locs : List (ℤ × ℤ)) (c : ℤ × ℤ) (h : locs ≠ []) :
    ∃ lv, closestIdx locs c = some lv ∧ lv < locs.length := by
  cases locs with
  | nil => exact absurd rfl h
  | cons a t =>
    obtain ⟨r, hr⟩ := closestFold_isSome c (t.enumFrom 1) (0, a)
    have hfold : (a :: t).enum.foldl (closestStep c) none = some r := by
      rw [List.enum_cons, List.foldl_cons]
      exact hr
    refine ⟨r.1, ?_, ?_⟩
    · unfold closestIdx
      rw [hfold]; rfl
    · rcases closestFold_mem c _ none r hfold with hm | he
      · exact List.fst_lt_of_mem_enum hm
      · cases he

/-- getD after set at the written index. -/
lemma getD_set_self {α : Type} (l : List α) (i : Nat) (x d : α) (h : i < l.length) :
    (l.set i x).getD i d = x := by
  rw [List.getD_eq_getElem?_getD, List.getElem?_set_self h]
  rfl

/-- getD after set at another index. -/
lemma getD_set_ne {α : Type} (l : List α) (i j : Nat) (x d : α) (h : i ≠ j) :
    (l.set i x).getD j d = l.getD j d := by
  rw [List.getD_eq_getElem?_getD, List.getD_eq_getElem?_getD, List.getElem?_set_ne h]

/-- On a nonempty fleet, one allocation step succeeds and inserts the edge into
the allocation of the vehicle chosen by the count-tie rule of plow.rs 57-59. -/
lemma allocStep_eq {E : Type} [EdgeLike E] [DecidableEq E] (pos : Nat → ℤ × ℤ)
    (locs : List (ℤ × ℤ)) (allocs : List (Finset E)) (e : E) (hlocs : locs ≠ []) :
    ∃ lv1 lv2,
      closestIdx locs (pos (p1 e)) = some lv1 ∧
      closestIdx locs (pos (p2 e)) = some lv2 ∧
      lv1 < locs.length ∧ lv2 < locs.length ∧
      chooseVeh pos locs allocs e =
        some (if lv1 = lv2 ∨ (allocs.getD lv1 ∅).card < (allocs.getD lv2 ∅).card
          then lv1 else lv2) ∧
      allocStep pos locs allocs e =
        some (allocs.set
          (if lv1 = lv2 ∨ (allocs.getD lv1 ∅).card < (allocs.getD lv2 ∅).card
            then lv1 else lv2)
          (insert e (allocs.getD
            (if lv1 = lv2 ∨ (allocs.getD lv1 ∅).card < (allocs.getD lv2 ∅).card
              then lv1 else lv2) ∅))) := by
  obtain ⟨lv1, h1, hl1⟩ := closestIdx_some locs (pos (p1 e)) hlocs
  obtain ⟨lv2, h2, hl2⟩ := closestIdx_some locs (pos (p2 e)) hlocs
  refine ⟨lv1, lv2, h1, h2, hl1, hl2, ?_, ?_⟩
  · unfold chooseVeh
    rw [h1, h2]
  · unfold allocStep
    rw [h1, h2]

/-- Folding allocStep over any edge list from a fleet-sized state succeeds,
keeps the state fleet-sized, and only grows each allocation. -/
lemma allocFold_some {E : Type} [EdgeLike E] [DecidableEq E] (pos : Nat → ℤ × ℤ)
    (locs : List (ℤ × ℤ)) (hlocs : locs ≠ []) :
    ∀ (l : List E) (A : List (Finset E)), A.length = locs.length →
      ∃ A', List.foldlM (allocStep pos locs) A l = some A' ∧
        A'.length = locs.length ∧
        (∀ i x, x ∈ A.getD i ∅ → x ∈ A'.getD i ∅) ∧
        ∀ x ∈ l, ∃ j, x ∈ A'.getD j ∅ := by
  intro l
  induction l with
  | nil =>
    exact fun A hA => ⟨A, rfl, hA, fun i x hx => hx,
      fun x hx => absurd hx (List.not_mem_nil x)⟩
  | cons e t ih =>
    intro A hA
    obtain ⟨lv1, lv2, h1, h2, hl1, hl2, hch, hstep⟩ := allocStep_eq pos locs A e hlocs
    set lv := if lv1 = lv2 ∨ (A.getD lv1 ∅).card < (A.getD lv2 ∅).card
      then lv1 else lv2 with hlv
    have hlvlt : lv < locs.length := by
      rw [hlv]
      by_cases hc : lv1 = lv2 ∨ (A.getD lv1 ∅).card < (A.getD lv2 ∅).card
      · rw [if_pos hc]; exact hl1
      · rw [if_neg hc]; exact hl2
    obtain ⟨A', hfold, hlen, hpres, hcov⟩ :=
      ih (A.set lv (insert e (A.getD lv ∅))) (by rw [List.length_set]; exact hA)
    have hestep : e ∈ (A.set lv (insert e (A.getD lv ∅))).getD lv ∅ := by
      rw [getD_set_self _ _ _ _ (by rw [hA]; exact hlvlt)]
      exact Finset.mem_insert_self e _
    refine ⟨A', ?_, hlen, ?_, ?_⟩
    · rw [List.foldlM_cons, hstep]
      exact hfold
    · intro i x hx
      apply hpres
      by_cases hi : i = lv
      · subst hi
        rw [getD_set_self _ _ _ _ (by rw [hA]; exact hlvlt)]
        exact Finset.mem_insert_of_mem hx
      · rw [getD_set_ne _ _ _ _ _ (fun hh => hi hh.symm)]
        exact hx
    · intro x hx
      rcases List.mem_cons.1 hx with hxe | hxt
      · refine ⟨lv, ?_⟩
        rw [hxe]
        exact hpres lv e hestep
      · exact hcov x hxt

/-- Counterexample to C6: vehicle 0 starts at (0,0) and is strictly the
Euclidean-nearest vehicle to edge eC6 over both endpoints (distance² 1 via p1,
against 81 and 16 for vehicle 1 at (10,0)), and the allocation counts at that
point are equal (both empty), yet initial_allocation hands eC6 to vehicle 1:
the code never compares the distance at p1 with the distance at p2, it keeps
the p2-nearest vehicle whenever the two endpoint winners differ and the
p1-nearest vehicle does not hold strictly fewer edges. -/
theorem claim_C6_cex :
    initial_allocation posC6 locsC6 [eC6] = some [∅, {eC6}] ∧
    locsC6 = [((0 : ℤ), 0), ((10 : ℤ), 0)] ∧
    dist2 (locsC6.getD 0 (0, 0)) (posC6 (p1 eC6))
      < dist2 (locsC6.getD 1 (0, 0)) (posC6 (p1 eC6)) ∧
    dist2 (locsC6.getD 0 (0, 0)) (posC6 (p1 eC6))
      < dist2 (locsC6.getD 1 (0, 0)) (posC6 (p2 eC6)) ∧
    dist2 (locsC6.getD 0 (0, 0)) (posC6 (p1 eC6))
      < dist2 (locsC6.getD 0 (0, 0)) (posC6 (p2 eC6)) := by
  decide

/-- C6 (amended): on a nonempty fleet, initial_allocation processes the snowy
edges in order and assigns each edge e to the vehicle chooseVeh picks from the
allocations built so far: the vehicle nearest to e.p1 when both endpoints
elect the same vehicle or when that vehicle currently holds strictly fewer
edges than the vehicle nearest to e.p2, otherwise the vehicle nearest to e.p2
(the two endpoint distances themselves are never compared); the edge then
stays in that vehicle's allocation through the remaining steps. -/
theorem claim_C6 {E : Type} [EdgeLike E] [DecidableEq E]
    (pos : Nat → ℤ × ℤ) (locs : List (ℤ × ℤ)) (pre post : List E) (e : E)
    (hlocs : locs ≠ []) :
    ∃ allocsPre lv1 lv2,
      initial_allocation pos locs pre = some allocsPre ∧
      closestIdx locs (pos (p1 e)) = some lv1 ∧
      closestIdx locs (pos (p2 e)) = some lv2 ∧
      chooseVeh pos locs allocsPre e =
        some (if lv1 = lv2 ∨ (allocsPre.getD lv1 ∅).card < (allocsPre.getD lv2 ∅).card
          then lv1 else lv2) ∧
      ∃ allocs, initial_allocation pos locs (pre ++ e :: post) = some allocs ∧
        e ∈ allocs.getD
          (if lv1 = lv2 ∨ (allocsPre.getD lv1 ∅).card < (allocsPre.getD lv2 ∅).card
            then lv1 else lv2) ∅ := by
  obtain ⟨allocsPre, hpre, hlenPre, _, _⟩ :=
    allocFold_some pos locs hlocs pre (List.replicate locs.length ∅) (by simp)
  obtain ⟨lv1, lv2, h1, h2, hl1, hl2, hch, hstep⟩ := allocStep_eq pos locs allocsPre e hlocs
  refine ⟨allocsPre, lv1, lv2, hpre, h1, h2, hch, ?_⟩
  set lv := if lv1 = lv2 ∨ (allocsPre.getD lv1 ∅).card < (allocsPre.getD lv2 ∅).card
    then lv1 else lv2 with hlv
  have hlvlt : lv < locs.length := by
    rw [hlv]
    by_cases hc : lv1 = lv2 ∨ (allocsPre.getD lv1 ∅).card < (allocsPre.getD lv2 ∅).card
    · rw [if_pos hc]; exact hl1
    · rw [if_neg hc]; exact hl2
  obtain ⟨allocs, hfold, hlen, hpres, _⟩ :=
    allocFold_some pos locs hlocs post (allocsPre.set lv (insert e (allocsPre.getD lv ∅)))
      (by rw [List.length_set]; exact hlenPre)
  refine ⟨allocs, ?_, ?_⟩
  · unfold initial_allocation
    rw [List.foldlM_append, hpre]
    show (e :: post).foldlM (allocStep pos locs) allocsPre = some allocs
    rw [List.foldlM_cons, hstep]
    exact hfold
  · apply hpres
    rw [getD_set_self _ _ _ _ (by rw [hlenPre]; exact hlvlt)]
    exact Finset.mem_insert_self e _

theorem claim_C6_witness :
    locsC6 ≠ [] ∧
    ∃ allocsPre lv1 lv2,
      initial_allocation posC6 locsC6 [] = some allocsPre ∧
      closestIdx locsC6 (posC6 (p1 eC6)) = some lv1 ∧
      closestIdx locsC6 (posC6 (p2 eC6)) = some lv2 ∧
      chooseVeh posC6 locsC6 allocsPre eC6 =
        some (if lv1 = lv2 ∨ (allocsPre.getD lv1 ∅).card < (allocsPre.getD lv2 ∅).card
          then lv1 else lv2) ∧
      ∃ allocs, initial_allocation posC6 locsC6 ([] ++ eC6 :: []) = some allocs ∧
        eC6 ∈ allocs.getD
          (if lv1 = lv2 ∨ (allocsPre.getD lv1 ∅).card < (allocsPre.getD lv2 ∅).card
            then lv1 else lv2) ∅ :=
  ⟨by decide, claim_C6 posC6 locsC6 [] [] eC6 (by decide)⟩

/-- getD out of bounds is the default. -/
lemma getD_oob {α : Type} (l : List α) (j : Nat) (d : α) (h : l.length ≤ j) :
    l.getD j d = d := by
  rw [List.getD_eq_getElem?_getD, List.getElem?_eq_none h]
  rfl

/-- getD of a constant list is that constant. -/
lemma getD_replicate {α : Type} (n j : Nat) (d : α) :
    (List.replicate n d).getD j d = d := by
  rw [List.getD_eq_getElem?_getD, List.getElem?_replicate]
  by_cases h : j < n
  · rw [if_pos h]
    rfl
  · rw [if_neg h]
    rfl

/-- getD through the enum-map reindexing used by sol_to_alloc. -/
lemma getD_enum_map {α : Type} (g : Nat × α → α) (l : List α) (j : Nat) (d : α)
    (hj : j < l.length) :
    (l.enum.map g).getD j d = g (j, l.getD j d) := by
  rw [List.getD_eq_getElem?_getD, List.getElem?_map, List.getElem?_enum,
    List.getElem?_eq_getElem hj]
  rw [List.getD_eq_getElem?_getD, List.getElem?_eq_getElem hj]
  rfl

/-- The enum-map of sol_to_alloc keeps position i and erases e elsewhere. -/
lemma getD_enum_map_ite {E : Type} [DecidableEq E] (i : Nat) (e : E)
    (l : List (Finset E)) (j : Nat) (hj : j < l.length) :
    (l.enum.map (fun ai => if ai.1 = i then ai.2 else ai.2.erase e)).getD j ∅ =
      if j = i then l.getD j ∅ else (l.getD j ∅).erase e := by
  rw [getD_enum_map _ _ _ _ hj]

/-- solAllocStep preserves the number of vehicles. -/
lemma solAllocStep_length {E : Type} [DecidableEq E] (snowy : E → Bool) (i : Nat)
    (allocs : List (Finset E)) (e : E) :
    (solAllocStep snowy i allocs e).length = allocs.length := by
  unfold solAllocStep
  split
  · split
    · rfl
    · rw [List.length_map, List.enum_length, List.length_set]
  · rfl

/-- solAllocStep is a no-op on a non-snowy edge or an already-allocated one. -/
lemma solAllocStep_of_not {E : Type} [DecidableEq E] (snowy : E → Bool) (i : Nat)
    (allocs : List (Finset E)) (e : E)
    (h : snowy e = false ∨ e ∈ allocs.getD i ∅) :
    solAllocStep snowy i allocs e = allocs := by
  unfold solAllocStep
  rcases h with h | h
  · rw [h]
    rfl
  · by_cases hs : snowy e
    · rw [if_pos hs, if_pos h]
    · rw [if_neg hs]

/-- The active case of solAllocStep: the edge joins allocation i and is erased
from every other allocation. -/
lemma solAllocStep_getD {E : Type} [DecidableEq E] (snowy : E → Bool) (i : Nat)
    (allocs : List (Finset E)) (e : E) (j : Nat)
    (hi : i < allocs.length) (hj : j < allocs.length)
    (hs : snowy e = true) (hm : e ∉ allocs.getD i ∅) :
    (solAllocStep snowy i allocs e).getD j ∅ =
      if j = i then insert e (allocs.getD i ∅) else (allocs.getD j ∅).erase e := by
  unfold solAllocStep
  rw [if_pos hs, if_neg hm]
  rw [getD_enum_map_ite _ _ _ _ (by rw [List.length_set]; exact hj)]
  by_cases hji : j = i
  · rw [hji, if_pos rfl, if_pos rfl, getD_set_self _ _ _ _ hi]
  · rw [if_neg hji, if_neg hji, getD_set_ne _ _ _ _ _ (fun hh => hji hh.symm)]

/-- A foldl invariant carried by every step over members of the list. -/
lemma foldl_inv_mem {α β : Type} (f : α → β → α) (I : α → Prop) :
    ∀ (l : List β), (∀ a b, b ∈ l → I a → I (f a b)) → ∀ a, I a → I (l.foldl f a) := by
  intro l
  induction l with
  | nil => exact fun _ a h => h
  | cons b t ih =>
    intro hstep a h
    rw [List.foldl_cons]
    exact ih (fun a1 b1 hb1 h1 => hstep a1 b1 (List.mem_cons_of_mem _ hb1) h1)
      (f a b) (hstep a b (List.mem_cons_self b t) h)

/-- One solAllocStep preserves the allocation partition. -/
lemma solStep_inv {E : Type} [DecidableEq E] (S : List E) (i : Nat)
    (A : List (Finset E)) (e : E) (hi : i < A.length) (hP : AllocPart S A) :
    AllocPart S (solAllocStep (fun t => decide (t ∈ S)) i A e) := by
  obtain ⟨hU, hD⟩ := hP
  by_cases hs : decide (e ∈ S) = true
  · by_cases hm : e ∈ A.getD i ∅
    · rw [solAllocStep_of_not _ _ _ _ (Or.inr hm)]
      exact ⟨hU, hD⟩
    · have hchar : ∀ j, j < A.length →
          (solAllocStep (fun t => decide (t ∈ S)) i A e).getD j ∅ =
            if j = i then insert e (A.getD i ∅) else (A.getD j ∅).erase e :=
        fun j hj => solAllocStep_getD _ _ _ _ _ hi hj hs hm
      have hlen : (solAllocStep (fun t => decide (t ∈ S)) i A e).length = A.length :=
        solAllocStep_length _ _ _ _
      have hoob : ∀ j, A.length ≤ j →
          (solAllocStep (fun t => decide (t ∈ S)) i A e).getD j ∅ = ∅ :=
        fun j hj => getD_oob _ _ _ (by rw [hlen]; exact hj)
      have heS : e ∈ S := of_decide_eq_true hs
      constructor
      · intro x
        constructor
        · rintro ⟨j, hx⟩
          rcases lt_or_ge j A.length with hj | hj
          · rw [hchar j hj] at hx
            by_cases hji : j = i
            · rw [if_pos hji] at hx
              rcases Finset.mem_insert.1 hx with hxe | hxA
              · rw [hxe]; exact heS
              · exact (hU x).1 ⟨i, hxA⟩
            · rw [if_neg hji] at hx
              exact (hU x).1 ⟨j, Finset.mem_of_mem_erase hx⟩
          · rw [hoob j hj] at hx
            exact absurd hx (Finset.not_mem_empty x)
        · intro hxS
          by_cases hxe : x = e
          · refine ⟨i, ?_⟩
            rw [hchar i hi, if_pos rfl, hxe]
            exact Finset.mem_insert_self e _
          · obtain ⟨j, hx⟩ := (hU x).2 hxS
            have hj : j < A.length := by
              by_contra hge
              rw [getD_oob _ _ _ (le_of_not_lt hge)] at hx
              exact Finset.not_mem_empty x hx
            by_cases hji : j = i
            · refine ⟨i, ?_⟩
              rw [hchar i hi, if_pos rfl]
              rw [hji] at hx
              exact Finset.mem_insert_of_mem hx
            · refine ⟨j, ?_⟩
              rw [hchar j hj, if_neg hji]
              exact Finset.mem_erase.2 ⟨hxe, hx⟩
      · intro j k hjk x hxj hxk
        have hj : j < A.length := by
          by_contra hge
          rw [hoob j (le_of_not_lt hge)] at hxj
          exact Finset.not_mem_empty x hxj
        have hk : k < A.length := by
          by_contra hge
          rw [hoob k (le_of_not_lt hge)] at hxk
          exact Finset.not_mem_empty x hxk
        rw [hchar j hj] at hxj
        rw [hchar k hk] at hxk
        by_cases hji : j = i
        · rw [if_pos hji] at hxj
          have hki : ¬k = i := fun hki => hjk (hji.trans hki.symm)
          rw [if_neg hki] at hxk
          have hxne : x ≠ e := (Finset.mem_erase.1 hxk).1
          have hxAi : x ∈ A.getD i ∅ := (Finset.mem_insert.1 hxj).resolve_left hxne
          exact hD i k (fun hik => hjk (hji.trans hik)) x hxAi (Finset.mem_of_mem_erase hxk)
        · rw [if_neg hji] at hxj
          by_cases hki : k = i
          · rw [if_pos hki] at hxk
            have hxne : x ≠ e := (Finset.mem_erase.1 hxj).1
            have hxAi : x ∈ A.getD i ∅ := (Finset.mem_insert.1 hxk).resolve_left hxne
            exact hD j i hji x (Finset.mem_of_mem_erase hxj) hxAi
          · rw [if_neg hki] at hxk
            exact hD j k hjk x (Finset.mem_of_mem_erase hxj) (Finset.mem_of_mem_erase hxk)
  · rw [solAllocStep_of_not _ _ _ _ (Or.inl (by simpa using hs))]
    exact ⟨hU, hD⟩

/-- sol_to_alloc preserves the allocation partition when every updated vehicle
index is in range. -/
lemma sol_to_alloc_inv {E : Type} [DecidableEq E] (S : List E) (order : List Nat)
    (sols : List (List E)) (A : List (Finset E))
    (hord : ∀ i ∈ order, i < A.length) (hP : AllocPart S A) :
    AllocPart S (sol_to_alloc order sols (fun t => decide (t ∈ S)) A) := by
  have hmain := foldl_inv_mem
    (fun allocs i => (sols.getD i []).foldl (solAllocStep (fun t => decide (t ∈ S)) i) allocs)
    (fun B => B.length = A.length ∧ AllocPart S B)
    order
    (fun B i hi hB => by
      obtain ⟨hlenB, hPB⟩ := hB
      exact foldl_inv_mem (solAllocStep (fun t => decide (t ∈ S)) i)
        (fun C => C.length = A.length ∧ AllocPart S C)
        (sols.getD i [])
        (fun C e _ hC => by
          obtain ⟨hlenC, hPC⟩ := hC
          refine ⟨(solAllocStep_length _ _ _ _).trans hlenC, ?_⟩
          exact solStep_inv S i C e (by rw [hlenC]; exact hord i hi) hPC)
        B ⟨hlenB, hPB⟩)
    A ⟨rfl, hP⟩
  exact hmain.2

/-- Folding allocStep over duplicate-free fresh edges extends the union by
exactly those edges and keeps the allocations pairwise disjoint. -/
lemma initial_allocation_partition {E : Type} [EdgeLike E] [DecidableEq E]
    (pos : Nat → ℤ × ℤ) (locs : List (ℤ × ℤ)) (hlocs : locs ≠ []) :
    ∀ (l : List E) (A : List (Finset E)), l.Nodup → A.length = locs.length →
      (∀ x ∈ l, ∀ j, x ∉ A.getD j ∅) →
      (∀ j k, j ≠ k → ∀ x : E, x ∈ A.getD j ∅ → x ∉ A.getD k ∅) →
      ∃ A', List.foldlM (allocStep pos locs) A l = some A' ∧
        A'.length = locs.length ∧
        (∀ x : E, (∃ j, x ∈ A'.getD j ∅) ↔ ((∃ j, x ∈ A.getD j ∅) ∨ x ∈ l)) ∧
        (∀ j k, j ≠ k → ∀ x : E, x ∈ A'.getD j ∅ → x ∉ A'.getD k ∅) := by
  intro l
  induction l with
  | nil =>
    intro A _ hA _ hD
    refine ⟨A, rfl, hA, fun x => ?_, hD⟩
    simp
  | cons e t ih =>
    intro A hnd hA hfresh hD
    obtain ⟨lv1, lv2, h1, h2, hl1, hl2, _, hstep⟩ := allocStep_eq pos locs A e hlocs
    set lv := if lv1 = lv2 ∨ (A.getD lv1 ∅).card < (A.getD lv2 ∅).card
      then lv1 else lv2 with hlv
    have hlvlt : lv < A.length := by
      rw [hA, hlv]
      by_cases hc : lv1 = lv2 ∨ (A.getD lv1 ∅).card < (A.getD lv2 ∅).card
      · rw [if_pos hc]; exact hl1
      · rw [if_neg hc]; exact hl2
    have hself : (A.set lv (insert e (A.getD lv ∅))).getD lv ∅ = insert e (A.getD lv ∅) :=
      getD_set_self _ _ _ _ hlvlt
    have hother : ∀ j, j ≠ lv →
        (A.set lv (insert e (A.getD lv ∅))).getD j ∅ = A.getD j ∅ :=
      fun j hj => getD_set_ne _ _ _ _ _ (fun hh => hj hh.symm)
    have hefresh : ∀ j, e ∉ A.getD j ∅ := fun j => hfresh e (List.mem_cons_self e t) j
    have hnd1 : t.Nodup := (List.nodup_cons.1 hnd).2
    have het : e ∉ t := (List.nodup_cons.1 hnd).1
    have hfresh1 : ∀ x ∈ t, ∀ j, x ∉ (A.set lv (insert e (A.getD lv ∅))).getD j ∅ := by
      intro x hx j hxj
      by_cases hj : j = lv
      · rw [hj, hself] at hxj
        rcases Finset.mem_insert.1 hxj with hxe | hxA
        · rw [hxe] at hx
          exact het hx
        · exact hfresh x (List.mem_cons_of_mem e hx) lv hxA
      · rw [hother j hj] at hxj
        exact hfresh x (List.mem_cons_of_mem e hx) j hxj
    have hD1 : ∀ j k, j ≠ k → ∀ x : E,
        x ∈ (A.set lv (insert e (A.getD lv ∅))).getD j ∅ →
        x ∉ (A.set lv (insert e (A.getD lv ∅))).getD k ∅ := by
      intro j k hjk x hxj hxk
      by_cases hj : j = lv
      · have hk : k ≠ lv := fun hk => hjk (hj.trans hk.symm)
        rw [hj, hself] at hxj
        rw [hother k hk] at hxk
        rcases Finset.mem_insert.1 hxj with hxe | hxA
        · rw [hxe] at hxk
          exact hefresh k hxk
        · exact hD lv k (fun h => hk h.symm) x hxA hxk
      · rw [hother j hj] at hxj
        by_cases hk : k = lv
        · rw [hk, hself] at hxk
          rcases Finset.mem_insert.1 hxk with hxe | hxA
          · rw [hxe] at hxj
            exact hefresh j hxj
          · exact hD j lv hj x hxj hxA
        · rw [hother k hk] at hxk
          exact hD j k hjk x hxj hxk
    obtain ⟨A1, hfold, hlen, hiff, hD2⟩ :=
      ih (A.set lv (insert e (A.getD lv ∅))) hnd1 (by rw [List.length_set]; exact hA)
        hfresh1 hD1
    refine ⟨A1, ?_, hlen, ?_, hD2⟩
    · rw [List.foldlM_cons, hstep]
      exact hfold
    · intro x
      rw [hiff x]
      constructor
      · rintro (⟨j, hxj⟩ | hxt)
        · by_cases hj : j = lv
          · rw [hj, hself] at hxj
            rcases Finset.mem_insert.1 hxj with hxe | hxA
            · rw [hxe]
              exact Or.inr (List.mem_cons_self e t)
            · exact Or.inl ⟨lv, hxA⟩
          · rw [hother j hj] at hxj
            exact Or.inl ⟨j, hxj⟩
        · exact Or.inr (List.mem_cons_of_mem e hxt)
      · rintro (⟨j, hxj⟩ | hxet)
        · by_cases hj : j = lv
          · rw [hj] at hxj
            exact Or.inl ⟨lv, by rw [hself]; exact Finset.mem_insert_of_mem hxj⟩
          · exact Or.inl ⟨j, by rw [hother j hj]; exact hxj⟩
        · rcases List.mem_cons.1 hxet with hxe | hxt
          · refine Or.inl ⟨lv, ?_⟩
            rw [hself, hxe]
            exact Finset.mem_insert_self e _
          · exact Or.inr hxt

/-- C10: on a nonempty fleet with a duplicate-free snowy list, the allocation
sets built by initial_allocation cover exactly the snowy edges and are
pairwise disjoint (each snowy edge is placed in exactly one vehicle's set),
and sol_to_alloc preserves this partition whenever the vehicle indices it
touches are within the fleet: it inserts an edge into one allocation only if
the edge is snowy, and on a fresh insertion removes it from every other
allocation. -/
theorem claim_C10 {E : Type} [EdgeLike E] [DecidableEq E]
    (pos : Nat → ℤ × ℤ) (locs : List (ℤ × ℤ)) (snowyL : List E)
    (allocs0 : List (Finset E)) (hlocs : locs ≠ []) (hnd : snowyL.Nodup)
    (hinit : initial_allocation pos locs snowyL = some allocs0) :
    AllocPart snowyL allocs0 ∧
    ∀ (order : List Nat) (sols : List (List E)) (A : List (Finset E)),
      (∀ i ∈ order, i < A.length) → AllocPart snowyL A →
      AllocPart snowyL (sol_to_alloc order sols (fun t => decide (t ∈ snowyL)) A) := by
  constructor
  · obtain ⟨A1, hfold, _, hiff, hD⟩ :=
      initial_allocation_partition pos locs hlocs snowyL
        (List.replicate locs.length ∅) hnd (by simp)
        (fun x _ j => by rw [getD_replicate]; exact Finset.not_mem_empty x)
        (fun j k _ x hx => by
          rw [getD_replicate] at hx
          exact absurd hx (Finset.not_mem_empty x))
    have hA0 : A1 = allocs0 := Option.some.inj (hfold.symm.trans hinit)
    rw [← hA0]
    refine ⟨fun x => ?_, hD⟩
    rw [hiff x]
    constructor
    · rintro (⟨j, hxj⟩ | hxS)
      · rw [getD_replicate] at hxj
        exact absurd hxj (Finset.not_mem_empty x)
      · exact hxS
    · exact fun hxS => Or.inr hxS
  · intro order sols A hord hP
    exact sol_to_alloc_inv snowyL order sols A hord hP

theorem claim_C10_witness :
    locsC6 ≠ [] ∧ ([eC6] : List TEdge).Nodup ∧
    initial_allocation posC6 locsC6 [eC6] = some [∅, {eC6}] ∧
    (AllocPart [eC6] [∅, {eC6}] ∧
      ∀ (order : List Nat) (sols : List (List TEdge)) (A : List (Finset TEdge)),
        (∀ i ∈ order, i < A.length) → AllocPart [eC6] A →
        AllocPart [eC6] (sol_to_alloc order sols (fun t => decide (t ∈ [eC6])) A)) :=
  ⟨by decide, by decide, by decide,
    claim_C10 posC6 locsC6 [eC6] [∅, {eC6}] (by decide) (by decide) (by decide)⟩

end Alloc

/-! ## The annealing driver: C2 -/

section Solve

variable {E : Type} [EdgeLike E] [DecidableEq E]

/-- Coverage part of the PWRP result: an ok solution contains every allocated
edge. -/
lemma solve_pwrp_covers {g : Graph E} {dir : Bool} {wtO : E → Option ℤ}
    {sp : Nat} {alloc : Finset E} {sol : List E} (hwf : WF g)
    (h : solve_pwrp g dir wtO sp alloc = .ok sol) :
    ∀ x ∈ alloc, x ∈ sol :=
  ((pwrpLoop_spec hwf alloc (alloc.card + 1) alloc [] (by simp [walkB])
    (fun x hx => hx) (fun x hx hnx => absurd hx hnx)).1 sol h).2

/-- Pulling an element of a list to the front of an update of that list is a
permutation. -/
lemma cons_set_perm {α : Type} :
    ∀ (t : List α) (k : Nat) (x : α) (hk : k < t.length),
      (t[k] :: t.set k x).Perm (x :: t) := by
  intro t
  induction t with
  | nil => intro k x hk; cases hk
  | cons y s ih =>
    intro k x hk
    cases k with
    | zero =>
      exact List.Perm.swap x y s
    | succ m =>
      have hm : m < s.length := by simpa using hk
      have h1 : (s[m] :: y :: s.set m x).Perm (y :: s[m] :: s.set m x) :=
        List.Perm.swap y (s[m]) (s.set m x)
      have h2 : (y :: s[m] :: s.set m x).Perm (y :: x :: s) :=
        List.Perm.cons y (ih m x hm)
      have h3 : (y :: x :: s).Perm (x :: y :: s) := List.Perm.swap x y s
      exact (h1.trans h2).trans h3

/-- Exchanging two positions of a list is a permutation. -/
lemma set_set_perm {α : Type} :
    ∀ (l : List α) (i j : Nat) (hi : i < l.length) (hj : j < l.length),
      ((l.set i l[j]).set j l[i]).Perm l := by
  intro l
  induction l with
  | nil => intro i j hi; cases hi
  | cons x t ih =>
    intro i j hi hj
    cases i with
    | zero =>
      cases j with
      | zero => exact List.Perm.refl _
      | succ b =>
        have hb : b < t.length := by simpa using hj
        exact cons_set_perm t b x hb
    | succ a =>
      have ha : a < t.length := by simpa using hi
      cases j with
      | zero =>
        show (t[a] :: t.set a x).Perm (x :: t)
        exact cons_set_perm t a x ha
      | succ b =>
        have hb : b < t.length := by simpa using hj
        exact List.Perm.cons x (ih a b ha hb)

/-- Vec::swap is a permutation. -/
lemma listSwap_perm (l : List Nat) (i j : Nat) : (listSwap l i j).Perm l := by
  unfold listSwap
  cases hi : l.get? i with
  | none => exact List.Perm.refl l
  | some a =>
    cases hj : l.get? j with
    | none => exact List.Perm.refl l
    | some b =>
      obtain ⟨hi2, ha⟩ := List.get?_eq_some.1 hi
      obtain ⟨hj2, hb⟩ := List.get?_eq_some.1 hj
      rw [List.get_eq_getElem] at ha hb
      rw [← ha, ← hb]
      exact set_set_perm l i j hi2 hj2

/-- The downward Fisher Yates walk is a permutation. -/
lemma shuffleGo_perm (rng : Nat → Nat) :
    ∀ (n : Nat) (l : List Nat) (k : Nat), (shuffleGo rng l n k).1.Perm l := by
  intro n
  induction n with
  | zero => intro l k; exact List.Perm.refl l
  | succ m ih =>
    intro l k
    exact (ih (listSwap l (m + 1) (rng k % (m + 2))) (k + 1)).trans
      (listSwap_perm l (m + 1) (rng k % (m + 2)))

/-- SliceRandom::shuffle is a permutation. -/
lemma shuffleFY_perm (l : List Nat) (rng : Nat → Nat) (k : Nat) :
    (shuffleFY l rng k).1.Perm l := by
  unfold shuffleFY
  by_cases h : l.length ≤ 1
  · rw [if_pos h]
  · rw [if_neg h]
    exact shuffleGo_perm rng (l.length - 1) l k

/-- Every reorder policy permutes the evaluation order. -/
lemma reorderStep_perm {re : ReorderKind} {vs : Nat} {sols : List (List E)}
    {order : List Nat} {rng : Nat → Nat} {k : Nat} {ok : List Nat × Nat}
    (h : reorderStep re vs sols order rng k = some ok) : ok.1.Perm order := by
  unfold reorderStep at h
  cases re with
  | no =>
    rw [← Option.some.inj h]
  | swap2Random =>
    by_cases hv : vs = 0
    · rw [if_pos hv] at h
      cases h
    · rw [if_neg hv] at h
      rw [← Option.some.inj h]
      exact listSwap_perm order _ _
  | swap2MostLeast =>
    by_cases h2 : 2 ≤ order.length
    · rw [if_pos h2] at h
      cases hmn : firstMinBy (fun i => (sols.getD i []).length) order with
      | none =>
        rw [hmn] at h
        cases hmx : lastMaxBy (fun i => (sols.getD i []).length) order with
        | none =>
          rw [hmx] at h
          rw [← Option.some.inj h]
        | some j =>
          rw [hmx] at h
          rw [← Option.some.inj h]
      | some i =>
        rw [hmn] at h
        cases hmx : lastMaxBy (fun i => (sols.getD i []).length) order with
        | none =>
          rw [hmx] at h
          rw [← Option.some.inj h]
        | some j =>
          rw [hmx] at h
          rw [← Option.some.inj h]
          exact listSwap_perm order i j
    · rw [if_neg h2] at h
      rw [← Option.some.inj h]
  | randomReorder =>
    rw [← Option.some.inj h]
    exact shuffleFY_perm order rng k

/-- sol_to_alloc keeps the number of vehicles. -/
lemma sol_to_alloc_length (order : List Nat) (sols : List (List E))
    (snowy : E → Bool) (A : List (Finset E)) :
    (sol_to_alloc order sols snowy A).length = A.length := by
  unfold sol_to_alloc
  exact foldl_inv_mem _ (fun B => B.length = A.length) order
    (fun B i _ hB =>
      foldl_inv_mem _ (fun C => C.length = A.length) (sols.getD i [])
        (fun C e _ hC => (solAllocStep_length _ _ _ _).trans hC) B hB)
    A rfl

/-- One solAllocStep keeps every snowy edge somewhere in the allocations. -/
lemma solStep_cov (S : List E) (i : Nat) (A : List (Finset E)) (e : E)
    (hi : i < A.length) (hC : ∀ x ∈ S, ∃ j, x ∈ A.getD j ∅) :
    ∀ x ∈ S, ∃ j, x ∈ (solAllocStep (fun t => decide (t ∈ S)) i A e).getD j ∅ := by
  by_cases hs : decide (e ∈ S) = true
  · by_cases hm : e ∈ A.getD i ∅
    · rw [solAllocStep_of_not _ _ _ _ (Or.inr hm)]
      exact hC
    · have hchar : ∀ j, j < A.length →
          (solAllocStep (fun t => decide (t ∈ S)) i A e).getD j ∅ =
            if j = i then insert e (A.getD i ∅) else (A.getD j ∅).erase e :=
        fun j hj => solAllocStep_getD _ _ _ _ _ hi hj hs hm
      intro x hxS
      by_cases hxe : x = e
      · refine ⟨i, ?_⟩
        rw [hchar i hi, if_pos rfl, hxe]
        exact Finset.mem_insert_self e _
      · obtain ⟨j, hx⟩ := hC x hxS
        have hj : j < A.length := by
          by_contra hge
          rw [getD_oob _ _ _ (le_of_not_lt hge)] at hx
          exact Finset.not_mem_empty x hx
        by_cases hji : j = i
        · refine ⟨i, ?_⟩
          rw [hchar i hi, if_pos rfl]
          rw [hji] at hx
          exact Finset.mem_insert_of_mem hx
        · refine ⟨j, ?_⟩
          rw [hchar j hj, if_neg hji]
          exact Finset.mem_erase.2 ⟨hxe, hx⟩
  · rw [solAllocStep_of_not _ _ _ _ (Or.inl (by simpa using hs))]
    exact hC

/-- sol_to_alloc keeps every snowy edge somewhere in the allocations. -/
lemma sol_to_alloc_cov (S : List E) (order : List Nat) (sols : List (List E))
    (A : List (Finset E)) (hord : ∀ i ∈ order, i < A.length)
    (hC : ∀ x ∈ S, ∃ j, x ∈ A.getD j ∅) :
    ∀ x ∈ S, ∃ j, x ∈ (sol_to_alloc order sols (fun t => decide (t ∈ S)) A).getD j ∅ := by
  have hmain := foldl_inv_mem
    (fun allocs i => (sols.getD i []).foldl (solAllocStep (fun t => decide (t ∈ S)) i) allocs)
    (fun B => B.length = A.length ∧ ∀ x ∈ S, ∃ j, x ∈ B.getD j ∅)
    order
    (fun B i hi hB =>
      foldl_inv_mem (solAllocStep (fun t => decide (t ∈ S)) i)
        (fun C => C.length = A.length ∧ ∀ x ∈ S, ∃ j, x ∈ C.getD j ∅)
        (sols.getD i [])
        (fun C e _ hC2 =>
          ⟨(solAllocStep_length _ _ _ _).trans hC2.1,
            solStep_cov S i C e (by rw [hC2.1]; exact hord i hi) hC2.2⟩)
        B hB)
    A ⟨rfl, hC⟩
  exact hmain.2

/-- The tour building loop: it succeeds only if every processed vehicle obtains
a PWRP tour of its pending allocation, the produced solutions cover every edge
allocated to a processed vehicle, earlier tours are kept, and the vehicle count
is unchanged. -/
lemma buildTours_cover {g : Graph E} {dir : Bool} {wt : E → ℤ} {sps : List Nat}
    {snowyL : List E} {params : Parameters} {alloc : List (Finset E)}
    (hwf : WF g) :
    ∀ (ord : List Nat) (st r : List (List E) × ℤ × ℤ × List ℤ × Finset E),
      ord.Nodup →
      (∀ i ∈ ord, i < st.1.length) →
      (∀ i ∈ ord, st.1.getD i [] = []) →
      (∀ e, e ∈ st.2.2.2.2 → ∃ j, e ∈ st.1.getD j []) →
      ord.foldlM (buildTourStep g dir wt sps snowyL params alloc) st = some r →
      r.1.length = st.1.length ∧
      (∀ e, (∃ j, e ∈ st.1.getD j []) → ∃ j, e ∈ r.1.getD j []) ∧
      (∀ i ∈ ord, ∀ e ∈ alloc.getD i ∅, ∃ j, e ∈ r.1.getD j []) := by
  intro ord
  induction ord with
  | nil =>
    intro st r _ _ _ _ h
    have hsr : st = r := Option.some.inj h
    rw [← hsr]
    exact ⟨rfl, fun e he => he, fun i hi => absurd hi (List.not_mem_nil i)⟩
  | cons i rest ih =>
    intro st r hnd hlt hempty hdun h
    rw [List.foldlM_cons] at h
    cases hbs : buildTourStep g dir wt sps snowyL params alloc st i with
    | none =>
      rw [hbs] at h
      simp at h
    | some st1 =>
      rw [hbs] at h
      have h1 : rest.foldlM (buildTourStep g dir wt sps snowyL params alloc) st1
          = some r := h
      unfold buildTourStep at hbs
      cases hsp : sps.get? i with
      | none =>
        rw [hsp] at hbs
        exact Option.noConfusion hbs
      | some sp =>
        rw [hsp] at hbs
        have hbs2 : (match solve_pwrp g dir (fun e => some (wt e)) sp
            ((alloc.getD i ∅).filter (fun e => e ∉ st.2.2.2.2)) with
          | .ok sol =>
            some (st.1.set i sol,
              st.2.1 + cycleCostDun wt snowyL params.clearing params.slowdown
                (alloc.getD i ∅) st.2.2.2.2 sol,
              max st.2.2.1 (cycleCostDun wt snowyL params.clearing params.slowdown
                (alloc.getD i ∅) st.2.2.2.2 sol),
              st.2.2.2.1.set i (cycleCostDun wt snowyL params.clearing
                params.slowdown (alloc.getD i ∅) st.2.2.2.2 sol),
              if params.clearing = .all then st.2.2.2.2 ∪ sol.toFinset
              else st.2.2.2.2)
          | _ => none) = some st1 := hbs
        cases hpw : solve_pwrp g dir (fun e => some (wt e)) sp
            ((alloc.getD i ∅).filter (fun e => e ∉ st.2.2.2.2)) with
        | ok sol =>
          rw [hpw] at hbs2
          have htup : st1 = (st.1.set i sol,
              st.2.1 + cycleCostDun wt snowyL params.clearing params.slowdown
                (alloc.getD i ∅) st.2.2.2.2 sol,
              max st.2.2.1 (cycleCostDun wt snowyL params.clearing params.slowdown
                (alloc.getD i ∅) st.2.2.2.2 sol),
              st.2.2.2.1.set i (cycleCostDun wt snowyL params.clearing
                params.slowdown (alloc.getD i ∅) st.2.2.2.2 sol),
              if params.clearing = .all then st.2.2.2.2 ∪ sol.toFinset
              else st.2.2.2.2) := (Option.some.inj hbs2).symm
          have hii : i < st.1.length := hlt i (List.mem_cons_self i rest)
          have hcovsol : ∀ x ∈ (alloc.getD i ∅).filter (fun e => e ∉ st.2.2.2.2),
              x ∈ sol := solve_pwrp_covers hwf hpw
          have hemptyi : st.1.getD i [] = [] := hempty i (List.mem_cons_self i rest)
          have hselfset : (st.1.set i sol).getD i [] = sol :=
            getD_set_self _ _ _ _ hii
          have hirest : i ∉ rest := (List.nodup_cons.1 hnd).1
          -- preservation of earlier tours into the set state
          have hpres1 : ∀ e, (∃ j, e ∈ st.1.getD j []) →
              ∃ j, e ∈ (st.1.set i sol).getD j [] := by
            rintro e ⟨j, hj⟩
            by_cases hji : j = i
            · rw [hji, hemptyi] at hj
              exact absurd hj (List.not_mem_nil e)
            · exact ⟨j, by
                rw [getD_set_ne _ _ _ _ _ (fun hh => hji hh.symm)]
                exact hj⟩
          -- invariants of the new state, for the induction hypothesis
          have hrest := ih st1 r (List.nodup_cons.1 hnd).2
            (by
              rw [htup]
              intro j hj
              rw [List.length_set]
              exact hlt j (List.mem_cons_of_mem i hj))
            (by
              rw [htup]
              intro j hj
              have hji : j ≠ i := fun hh => hirest (hh ▸ hj)
              rw [getD_set_ne _ _ _ _ _ (fun hh => hji hh.symm)]
              exact hempty j (List.mem_cons_of_mem i hj))
            (by
              rw [htup]
              intro e he
              by_cases hcl : params.clearing = Clearing.all
              · rw [if_pos hcl] at he
                rcases Finset.mem_union.1 he with hold | hnew
                · exact hpres1 e (hdun e hold)
                · exact ⟨i, by rw [hselfset]; exact List.mem_toFinset.1 hnew⟩
              · rw [if_neg hcl] at he
                exact hpres1 e (hdun e he))
            h1
          rw [htup] at hrest
          obtain ⟨hlenr, hpresr, hcovr⟩ := hrest
          have hpres2 : ∀ e, (∃ j, e ∈ st.1.getD j []) →
              ∃ j, e ∈ r.1.getD j [] :=
            fun e he => hpresr e (hpres1 e he)
          refine ⟨by rw [hlenr, List.length_set], hpres2, ?_⟩
          intro i2 hi2 e he
          rcases List.mem_cons.1 hi2 with hi2e | hi2r
          · by_cases hed : e ∈ st.2.2.2.2
            · exact hpres2 e (hdun e hed)
            · have hef : e ∈ (alloc.getD i ∅).filter (fun e => e ∉ st.2.2.2.2) :=
                Finset.mem_filter.2 ⟨by rw [← hi2e]; exact he, hed⟩
              exact hpresr e ⟨i, by rw [hselfset]; exact hcovsol e hef⟩
          · exact hcovr i2 hi2r e he
        | unreachable rest2 =>
          rw [hpw] at hbs2
          exact Option.noConfusion hbs2
        | trap =>
          rw [hpw] at hbs2
          exact Option.noConfusion hbs2
        | fuelOut =>
          rw [hpw] at hbs2
          exact Option.noConfusion hbs2

/-- Splitting a list at an excision: every element lands in the remainder or in
the excised segment. -/
lemma excise_cover {α : Type} (l : List α) (iu iv : Nat) :
    ∀ x ∈ l, x ∈ exciseOut l iu iv ∨ x ∈ excised l iu iv := by
  intro x hx
  rw [← List.take_append_drop iu l] at hx
  rcases List.mem_append.1 hx with hxt | hxd
  · exact Or.inl (List.mem_append_left _ hxt)
  · rw [← List.take_append_drop (iv - iu) (l.drop iu)] at hxd
    rcases List.mem_append.1 hxd with hxe | hxr
    · exact Or.inr hxe
    · rw [List.drop_drop] at hxr
      rcases le_or_lt iu iv with hle | hlt
      · rw [Nat.add_sub_cancel' hle] at hxr
        exact Or.inl (List.mem_append_right _ hxr)
      · have hz : iv - iu = 0 := Nat.sub_eq_zero_of_le (le_of_lt hlt)
        rw [hz, Nat.add_zero] at hxr
        refine Or.inl (List.mem_append_right _ ?_)
        have hsub : l.drop iu ⊆ l.drop iv := by
          rw [show iu = iv + (iu - iv) from (Nat.add_sub_cancel' (le_of_lt hlt)).symm,
            ← List.drop_drop]
          exact List.drop_subset _ _
        exact hsub hxr

/-- Both the base list and the inserted segment live inside the splice. -/
lemma insertSeg_mem_left {α : Type} (l : List α) (j : Nat) (seg : List α) :
    ∀ x ∈ l, x ∈ insertSeg l j seg := by
  intro x hx
  rw [← List.take_append_drop j l] at hx
  unfold insertSeg
  rcases List.mem_append.1 hx with hxt | hxd
  · exact List.mem_append_left _ (List.mem_append_left _ hxt)
  · exact List.mem_append_right _ hxd

lemma insertSeg_mem_seg {α : Type} (l : List α) (j : Nat) (seg : List α) :
    ∀ x ∈ seg, x ∈ insertSeg l j seg := by
  intro x hx
  unfold insertSeg
  exact List.mem_append_left _ (List.mem_append_right _ hx)

/-- One recycle transplant keeps the vehicle count and every edge of the
combined solutions. -/
lemma recycPair_cover {st : List (List E) × List (List Nat)} {a b : Nat}
    (ha : a < st.1.length) (hb : b < st.1.length) :
    (recycPair st a b).1.length = st.1.length ∧
    ∀ e, (∃ i, e ∈ st.1.getD i []) → ∃ i, e ∈ (recycPair st a b).1.getD i [] := by
  unfold recycPair
  cases ht : findTransplant (st.2.getD a []) (st.2.getD b []) with
  | none => exact ⟨rfl, fun e he => he⟩
  | some t =>
    have hlen : ((st.1.set a (exciseOut (st.1.getD a []) t.1 t.2.2)).set b
        (insertSeg (st.1.getD b []) t.2.1
          (excised (st.1.getD a []) t.1 t.2.2))).length = st.1.length := by
      rw [List.length_set, List.length_set]
    refine ⟨hlen, ?_⟩
    rintro e ⟨i, he⟩
    have hbset : ((st.1.set a (exciseOut (st.1.getD a []) t.1 t.2.2)).set b
        (insertSeg (st.1.getD b []) t.2.1
          (excised (st.1.getD a []) t.1 t.2.2))).getD b [] =
        insertSeg (st.1.getD b []) t.2.1 (excised (st.1.getD a []) t.1 t.2.2) :=
      getD_set_self _ _ _ _ (by rw [List.length_set]; exact hb)
    by_cases hib : i = b
    · refine ⟨b, ?_⟩
      rw [hbset]
      refine insertSeg_mem_left _ _ _ e ?_
      rw [← hib]
      exact he
    · by_cases hia : i = a
      · rw [hia] at he
        rcases excise_cover (st.1.getD a []) t.1 t.2.2 e he with hrem | hseg
        · refine ⟨a, ?_⟩
          have hab : a ≠ b := fun hh => hib (hia.trans hh)
          rw [getD_set_ne _ _ _ _ _ (fun hh => hab hh.symm),
            getD_set_self _ _ _ _ ha]
          exact hrem
        · refine ⟨b, ?_⟩
          rw [hbset]
          exact insertSeg_mem_seg _ _ _ e hseg
      · refine ⟨i, ?_⟩
        rw [getD_set_ne _ _ _ _ _ (fun hh => hib hh.symm),
          getD_set_ne _ _ _ _ _ (fun hh => hia hh.symm)]
        exact he

/-- The recycle double loop keeps the vehicle count and every edge of the
combined solutions. -/
lemma recycAll_cover (costs : List ℤ) (order : List Nat) (vs : Nat)
    (st : List (List E) × List (List Nat))
    (hord : ∀ m, m < vs → order.getD m 0 < vs) (hlen : st.1.length = vs) :
    (recycAll costs order vs st).1.length = vs ∧
    ∀ e, (∃ i, e ∈ st.1.getD i []) → ∃ i, e ∈ (recycAll costs order vs st).1.getD i [] := by
  unfold recycAll
  have hmain := foldl_inv_mem
    (fun s i =>
      (List.range' (i + 1) (vs - (i + 1))).foldl
        (fun s j =>
          if costs.getD (order.getD j 0) 0 < costs.getD (order.getD i 0) 0 then
            recycPair s (order.getD i 0) (order.getD j 0)
          else recycPair s (order.getD j 0) (order.getD i 0))
        s)
    (fun S => S.1.length = vs ∧
      ∀ e, (∃ i, e ∈ st.1.getD i []) → ∃ i, e ∈ S.1.getD i [])
    (List.range vs)
    (fun S i hi hS => by
      have hivs : i < vs := List.mem_range.1 hi
      exact foldl_inv_mem
        (fun s j =>
          if costs.getD (order.getD j 0) 0 < costs.getD (order.getD i 0) 0 then
            recycPair s (order.getD i 0) (order.getD j 0)
          else recycPair s (order.getD j 0) (order.getD i 0))
        (fun S2 => S2.1.length = vs ∧
          ∀ e, (∃ i, e ∈ st.1.getD i []) → ∃ i, e ∈ S2.1.getD i [])
        (List.range' (i + 1) (vs - (i + 1)))
        (fun S2 j hj hS2 => by
          have hjvs : j < vs := by
            have hj2 := (List.mem_range'_1.1 hj).2
            have hiv : i + 1 ≤ vs := hivs
            rw [Nat.add_sub_cancel' hiv] at hj2
            exact hj2
          have hoi : order.getD i 0 < vs := hord i hivs
          have hoj : order.getD j 0 < vs := hord j hjvs
          by_cases hc : costs.getD (order.getD j 0) 0 < costs.getD (order.getD i 0) 0
          · simp only [if_pos hc]
            obtain ⟨hl, hp⟩ := @recycPair_cover E _ _ S2
              (order.getD i 0) (order.getD j 0)
              (by rw [hS2.1]; exact hoi) (by rw [hS2.1]; exact hoj)
            exact ⟨hl.trans hS2.1, fun e he => hp e (hS2.2 e he)⟩
          · simp only [if_neg hc]
            obtain ⟨hl, hp⟩ := @recycPair_cover E _ _ S2
              (order.getD j 0) (order.getD i 0)
              (by rw [hS2.1]; exact hoj) (by rw [hS2.1]; exact hoi)
            exact ⟨hl.trans hS2.1, fun e he => hp e (hS2.2 e he)⟩)
        S hS)
    st ⟨hlen, fun e he => he⟩
  exact hmain

/-- With the infinity sentinel as best value, the tour acceptance always
fires. -/
lemma tourAccept_none (v cm : ℤ) (cmb : Option ℤ) :
    tourAccept v cm none cmb = true := rfl

set_option maxHeartbeats 2000000 in
/-- One annealing iteration preserves the driver invariant: the allocations
keep the fleet size and keep covering the snowy set, the order stays a
permutation of the vehicle range, and on exit the best value is finite and the
kept solution covers the snowy set. -/
lemma solveIter_inv {g : Graph E} {dir : Bool} {wt : E → ℤ} {sps : List Nat}
    {locs : List (ℤ × ℤ)} {snowyL : List E} {params : Parameters}
    {rng : Nat → Nat} {coin : Nat → Bool} {st st1 : SolveState E}
    (hwf : WF g)
    (hlen : st.alloc.length = locs.length)
    (hcov : ∀ e ∈ snowyL, ∃ j, e ∈ st.alloc.getD j ∅)
    (hperm : st.order.Perm (List.range locs.length))
    (hsol : st.value_best ≠ none → ∀ e ∈ snowyL, ∃ j, e ∈ st.solution.getD j [])
    (hit : solveIter g dir wt sps locs snowyL params rng coin st = some st1) :
    st1.alloc.length = locs.length ∧
    (∀ e ∈ snowyL, ∃ j, e ∈ st1.alloc.getD j ∅) ∧
    st1.order.Perm (List.range locs.length) ∧
    st1.value_best ≠ none ∧
    (∀ e ∈ snowyL, ∃ j, e ∈ st1.solution.getD j []) := by
  simp only [solveIter] at hit
  split at hit
  · exact Option.noConfusion hit
  rename_i ok hro
  split at hit
  · exact Option.noConfusion hit
  rename_i r hbt
  have hst1 := (Option.some.inj hit).symm
  have horder : ok.1.Perm (List.range locs.length) :=
    (reorderStep_perm hro).trans hperm
  have hnodupord : ok.1.Nodup := (List.Perm.nodup_iff horder).2 (List.nodup_range _)
  have hmemord : ∀ i ∈ ok.1, i < locs.length :=
    fun i hi => List.mem_range.1 (horder.mem_iff.1 hi)
  obtain ⟨hlenr, hpresr, hcovr⟩ := buildTours_cover hwf ok.1
    (List.replicate locs.length [], 0, 0, List.replicate locs.length 0,
      (∅ : Finset E)) r hnodupord
    (by intro i hi; simpa using hmemord i hi)
    (fun i _ => getD_replicate _ _ _)
    (fun e he => absurd he (Finset.not_mem_empty e)) hbt
  have hsolnext : ∀ e ∈ snowyL, ∃ j, e ∈ r.1.getD j [] := by
    intro e he
    obtain ⟨i, hei⟩ := hcov e he
    have hilt : i < locs.length := by
      by_contra hge
      have hoz : st.alloc.length ≤ i := by
        rw [hlen]
        exact le_of_not_lt hge
      rw [getD_oob _ _ _ hoz] at hei
      exact absurd hei (Finset.not_mem_empty e)
    exact hcovr i (horder.mem_iff.2 (List.mem_range.2 hilt)) e hei
  have hr1len : r.1.length = locs.length := by
    rw [hlenr]
    simp
  have hordgetD : ∀ m, m < locs.length → ok.1.getD m 0 < locs.length := by
    intro m hm
    have hmlen : m < ok.1.length := by
      rw [horder.length_eq]
      simpa using hm
    have hmem : ok.1.getD m 0 ∈ ok.1 := by
      rw [List.getD_eq_getElem?_getD, List.getElem?_eq_getElem hmlen]
      exact List.getElem_mem hmlen
    exact List.mem_range.1 (horder.mem_iff.1 hmem)
  obtain ⟨himp_len, himp_cov0⟩ := recycAll_cover r.2.2.2.1 ok.1 locs.length
    (r.1, (r.1.zip sps).map (fun pe => pathNodes pe.2 pe.1)) hordgetD hr1len
  have himp_cov : ∀ e ∈ snowyL, ∃ j, e ∈ (recycAll r.2.2.2.1 ok.1 locs.length
      (r.1, (r.1.zip sps).map (fun pe => pathNodes pe.2 pe.1))).1.getD j [] :=
    fun e he => himp_cov0 e (hsolnext e he)
  have hsta : ∀ (S : List (List E)) (A : List (Finset E)), A.length = locs.length →
      (∀ e ∈ snowyL, ∃ j, e ∈ A.getD j ∅) →
      (sol_to_alloc ok.1 S (fun e => decide (e ∈ snowyL)) A).length = locs.length ∧
      ∀ e ∈ snowyL, ∃ j, e ∈
        (sol_to_alloc ok.1 S (fun e => decide (e ∈ snowyL)) A).getD j ∅ :=
    fun S A hA hC =>
      ⟨(sol_to_alloc_length _ _ _ _).trans hA,
        sol_to_alloc_cov snowyL ok.1 S A
          (fun i hi => by rw [hA]; exact hmemord i hi) hC⟩
  have hvbne : ∀ (v cm : ℤ),
      ¬(tourAccept v cm st.value_best st.cost_max_best = true) →
      st.value_best ≠ none := by
    intro v cm hacc hn
    apply hacc
    rw [hn]
    exact tourAccept_none v cm st.cost_max_best
  rw [hst1]
  refine ⟨?_, ?_, ?_, ?_, ?_⟩
  · split <;> split <;> (try split) <;> (try split) <;> (try split) <;>
      first
      | exact (hsta _ _ (hsta _ _ hlen hcov).1 (hsta _ _ hlen hcov).2).1
      | exact (hsta _ _ hlen hcov).1
      | exact hlen
  · split <;> split <;> (try split) <;> (try split) <;> (try split) <;>
      first
      | exact (hsta _ _ (hsta _ _ hlen hcov).1 (hsta _ _ hlen hcov).2).2
      | exact (hsta _ _ hlen hcov).2
      | exact hcov
  · split <;> split <;> (try split) <;> (try split) <;> (try split) <;>
      exact horder
  · split <;> split <;> (try split) <;> (try split) <;> (try split) <;>
      first
      | exact fun hh => Option.noConfusion hh
      | exact hvbne _ _ (by assumption)
  · split <;> split <;> (try split) <;> (try split) <;> (try split) <;>
      first
      | exact himp_cov
      | exact hsolnext
      | exact hsol (hvbne _ _ (by assumption))

/-- The annealing loop: from an invariant state, after at least one iteration
(or if the best value was already finite) the kept solution covers the snowy
set. -/
lemma solveLoop_inv {g : Graph E} {dir : Bool} {wt : E → ℤ} {sps : List Nat}
    {locs : List (ℤ × ℤ)} {snowyL : List E} {params : Parameters}
    {rng : Nat → Nat} {coin : Nat → Bool} (hwf : WF g) :
    ∀ (n : Nat) (st st1 : SolveState E),
      st.alloc.length = locs.length →
      (∀ e ∈ snowyL, ∃ j, e ∈ st.alloc.getD j ∅) →
      st.order.Perm (List.range locs.length) →
      (st.value_best ≠ none → ∀ e ∈ snowyL, ∃ j, e ∈ st.solution.getD j []) →
      solveLoop g dir wt sps locs snowyL params rng coin n st = some st1 →
      (st.value_best ≠ none ∨ 1 ≤ n) →
      ∀ e ∈ snowyL, ∃ j, e ∈ st1.solution.getD j [] := by
  intro n
  induction n with
  | zero =>
    intro st st1 _ _ _ hsol h hd
    have hs : st = st1 := Option.some.inj h
    rcases hd with hvb | h1
    · rw [← hs]
      exact hsol hvb
    · exact absurd h1 (Nat.not_succ_le_zero 0)
  | succ m ih =>
    intro st st1 hlen hcov hperm hsol h _
    simp only [solveLoop] at h
    cases hits : solveIter g dir wt sps locs snowyL params rng coin st with
    | none =>
      rw [hits] at h
      exact Option.noConfusion h
    | some st2 =>
      rw [hits] at h
      have h2 : solveLoop g dir wt sps locs snowyL params rng coin m st2
          = some st1 := h
      obtain ⟨hlen2, hcov2, hperm2, hvb2, hsol2⟩ :=
        solveIter_inv hwf hlen hcov hperm hsol hits
      exact ih st2 st1 hlen2 hcov2 hperm2 (fun _ => hsol2) h2 (Or.inl hvb2)

/-- C2 (amended): whenever the annealing driver returns normally after at least
one main iteration, every snowy edge appears in some returned tour.  (With
main_iterations = 0 the loop body never runs and the initial all-empty
solution is returned unchanged, so the claim fails there; see the
counterexample.) -/
theorem claim_C2 {E : Type} [EdgeLike E] [DecidableEq E] (g : Graph E)
    (dir : Bool) (wt : E → ℤ) (pos : Nat → ℤ × ℤ) (sps : List Nat)
    (locs : List (ℤ × ℤ)) (snowyL : List E) (params : Parameters)
    (rng : Nat → Nat) (coin : Nat → Bool) (sols : List (List E))
    (hwf : WF g) (hmi : 1 ≤ params.annealing.main_iterations)
    (hrun : plow_solve g dir wt pos sps locs snowyL params rng coin = some sols) :
    ∀ e ∈ snowyL, ∃ tour ∈ sols, e ∈ tour := by
  intro e he
  simp only [plow_solve] at hrun
  split at hrun
  · exact Option.noConfusion hrun
  rename_i alloc0 hinit
  obtain ⟨stf, hloop, hsolsf⟩ := Option.map_eq_some'.1 hrun
  have hsols : stf.solution = sols := hsolsf
  have hlocs : locs ≠ [] := by
    intro hl
    subst hl
    cases hsl : snowyL with
    | nil =>
      rw [hsl] at he
      exact absurd he (List.not_mem_nil e)
    | cons a t =>
      rw [hsl] at hinit
      have hnone : initial_allocation pos [] (a :: t) = none := rfl
      rw [hnone] at hinit
      exact Option.noConfusion hinit
  obtain ⟨A1, hA1, hlen1, _, hcov1⟩ :=
    allocFold_some pos locs hlocs snowyL (List.replicate locs.length ∅) (by simp)
  have hA1e : A1 = alloc0 := Option.some.inj (hA1.symm.trans hinit)
  have hfin : ∀ e2 ∈ snowyL, ∃ j, e2 ∈ stf.solution.getD j [] := by
    refine solveLoop_inv hwf params.annealing.main_iterations _ stf
      (by rw [← hA1e]; exact hlen1)
      (fun e2 he2 => by rw [← hA1e]; exact hcov1 e2 he2)
      (List.Perm.refl _)
      (fun hn => absurd rfl hn)
      hloop (Or.inr hmi)
  obtain ⟨j, hj⟩ := hfin e he
  rw [hsols] at hj
  have hjlt : j < sols.length := by
    by_contra hge
    rw [getD_oob _ _ _ (le_of_not_lt hge)] at hj
    exact absurd hj (List.not_mem_nil e)
  refine ⟨sols.getD j [], ?_, hj⟩
  rw [List.getD_eq_getElem?_getD, List.getElem?_eq_getElem hjlt]
  exact List.getElem_mem hjlt

/-- Counterexample to C2: with main_iterations = 0 the annealing loop body
never runs, plow_solve returns normally with the initial all-empty per-vehicle
solution, and the snowy edge eT01 appears in no returned tour. -/
theorem claim_C2_cex :
    plow_solve gTri false (fun _ => (1 : ℤ)) (fun _ => ((0 : ℤ), 0)) [0]
      [((0 : ℤ), 0)] [eT01] paramsC2 (fun _ => 0) (fun _ => false) = some [[]] ∧
    eT01 ∈ [eT01] ∧
    ∀ tour ∈ [([] : List TEdge)], eT01 ∉ tour := by decide

theorem claim_C2_witness :
    WF gTri ∧ 1 ≤ paramsC2one.annealing.main_iterations ∧
    plow_solve gTri false (fun _ => (1 : ℤ)) (fun _ => ((0 : ℤ), 0)) [0]
      [((0 : ℤ), 0)] [eT01, eT12, eT20] paramsC2one (fun _ => 0) (fun _ => false) =
      some [[eT20, eT12, eT12, eT20, eT01, eT01]] ∧
    ∀ e ∈ [eT01, eT12, eT20],
      ∃ tour ∈ [[eT20, eT12, eT12, eT20, eT01, eT01]], e ∈ tour :=
  ⟨wf_add_edge (wf_add_edge (wf_add_edge (wf_emptyBuckets _))), by decide, by decide,
    claim_C2 gTri false (fun _ => (1 : ℤ)) (fun _ => ((0 : ℤ), 0)) [0]
      [((0 : ℤ), 0)] [eT01, eT12, eT20] paramsC2one (fun _ => 0) (fun _ => false)
      [[eT20, eT12, eT12, eT20, eT01, eT01]]
      (wf_add_edge (wf_add_edge (wf_add_edge (wf_emptyBuckets _))))
      (by decide) (by decide)⟩

end Solve

/-! ## Dijkstra optimality and completeness: C3 -/

section DijkOpt

variable {E : Type} [EdgeLike E] [DecidableEq E]
variable {g : Graph E} {dir : Bool} {wt : E → Option ℤ} {S : List Nat}
variable {T : Finset Nat}

lemma wsum_nil : wsum wt ([] : List E) = 0 := rfl

lemma wsum_cons (e : E) (p : List E) :
    wsum wt (e :: p) = (wt e).getD 0 + wsum wt p := by
  simp [wsum]

/-- Traversable paths have nonnegative weight under nonnegative weights. -/
lemma wsum_nonneg (hw : ∀ e w, wt e = some w → 0 ≤ w) :
    ∀ (p : List E), allTraversable wt p = true → 0 ≤ wsum wt p := by
  intro p
  induction p with
  | nil => intro _; simp [wsum]
  | cons e p ih =>
    intro h
    simp only [allTraversable, List.all_cons, Bool.and_eq_true] at h
    have h1 : 0 ≤ (wt e).getD 0 := by
      cases hwe : wt e with
      | none => simp
      | some w => simpa using hw e w hwe
    have h2 : 0 ≤ wsum wt p := ih (by simpa [allTraversable] using h.2)
    rw [wsum_cons]
    linarith

/-- A traversal direction admitted by is_outgoing satisfies the relaxation
guard of graph.rs 228. -/
lemma outgoing_cond {e : E} {x : Nat} (h : is_outgoing dir e x = true) :
    (!dir || !directed e || decide (p1 e = x)) = true := by
  simp only [is_outgoing, Bool.or_eq_true, Bool.and_eq_true,
    decide_eq_true_eq] at h ⊢
  rcases h with h | ⟨_, h2⟩
  · exact Or.inr h.symm
  · exact Or.inl h2

lemma mem_pushFr {x v : Nat} {fr : List Nat} :
    x ∈ pushFr v fr ↔ x = v ∨ x ∈ fr := by
  unfold pushFr
  split
  · rename_i hv
    constructor
    · exact fun h => Or.inr h
    · rintro (h | h)
      · rw [h]; exact hv
      · exact h
  · simp [List.mem_cons]

lemma nodup_pushFr {v : Nat} {fr : List Nat} (h : fr.Nodup) :
    (pushFr v fr).Nodup := by
  unfold pushFr
  split
  · exact h
  · rename_i hv
    exact List.nodup_cons.2 ⟨hv, h⟩

/-- A nonempty frontier always pops something. -/
lemma popMin_isSome {dp : DP E} {fr : List Nat} (h : fr ≠ []) :
    ∃ u, popMin dp fr = some u := by
  have hgen : ∀ (l : List Nat) (a : Nat),
      ∃ r, l.foldl (fun best v =>
        match best with
        | none => some v
        | some b => if popsBefore dp v b then some v else some b) (some a) = some r := by
    intro l
    induction l with
    | nil => exact fun a => ⟨a, rfl⟩
    | cons x t ih =>
      intro a
      rw [List.foldl_cons]
      show ∃ r, t.foldl _ (if popsBefore dp x a then some x else some a) = some r
      by_cases hx : popsBefore dp x a = true
      · rw [if_pos hx]; exact ih x
      · rw [if_neg hx]; exact ih a
  cases fr with
  | nil => exact absurd rfl h
  | cons a t =>
    obtain ⟨r, hr⟩ := hgen t a
    exact ⟨r, hr⟩

/-- The popped node has minimal dp distance among the frontier and the
accumulator. -/
lemma popMin_min_aux {dp : DP E} :
    ∀ (fr : List Nat) (acc : Option Nat) (u : Nat),
      fr.foldl (fun best v =>
        match best with
        | none => some v
        | some b => if popsBefore dp v b then some v else some b) acc = some u →
      ∀ v, (v ∈ fr ∨ acc = some v) → ∀ du pu dv pv,
        dp u = some (du, pu) → dp v = some (dv, pv) → du ≤ dv := by
  intro fr
  induction fr with
  | nil =>
    intro acc u h v hv du pu dv pv hdu hdv
    rcases hv with hv | hv
    · exact absurd hv (List.not_mem_nil v)
    · have : v = u := Option.some.inj (hv.symm.trans h)
      rw [this, hdu] at hdv
      simp only [Option.some.injEq, Prod.mk.injEq] at hdv
      exact le_of_eq hdv.1
  | cons x t ih =>
    intro acc u h v hv du pu dv pv hdu hdv
    rw [List.foldl_cons] at h
    rcases hv with hv | hv
    · rcases List.mem_cons.1 hv with hvx | hvt
      · subst hvx
        cases acc with
        | none =>
          exact ih (some v) u h v (Or.inr rfl) du pu dv pv hdu hdv
        | some b =>
          by_cases hpb : popsBefore dp v b = true
          · rw [show (match some b with
                | none => some v
                | some b => if popsBefore dp v b then some v else some b) =
                some v from by simp [hpb]] at h
            exact ih (some v) u h v (Or.inr rfl) du pu dv pv hdu hdv
          · rw [show (match some b with
                | none => some v
                | some b => if popsBefore dp v b then some v else some b) =
                some b from by simp [hpb]] at h
            cases hdb : dp b with
            | none =>
              have : popsBefore dp v b = true := by
                unfold popsBefore
                rw [hdv, hdb]
              exact absurd this hpb
            | some dbp =>
              have hxb : dbp.1 ≤ dv := by
                unfold popsBefore at hpb
                rw [hdv, hdb] at hpb
                simp only [Bool.or_eq_true, Bool.and_eq_true,
                  decide_eq_true_eq] at hpb
                exact le_of_not_lt (fun hlt => hpb (Or.inl hlt))
              have hub : du ≤ dbp.1 :=
                ih (some b) u h b (Or.inr rfl) du pu dbp.1 dbp.2 hdu
                  (by rw [hdb])
              exact le_trans hub hxb
      · exact ih _ u h v (Or.inl hvt) du pu dv pv hdu hdv
    · cases acc with
      | none => cases hv
      | some b =>
        have hbv : b = v := Option.some.inj hv
        subst hbv
        by_cases hpb : popsBefore dp x b = true
        · rw [show (match some b with
              | none => some x
              | some b => if popsBefore dp x b then some x else some b) =
              some x from by simp [hpb]] at h
          cases hdx : dp x with
          | none =>
            have : popsBefore dp x b = false := by
              unfold popsBefore
              rw [hdx]
            rw [this] at hpb
            cases hpb
          | some dxp =>
            have hxv : dxp.1 ≤ dv := by
              unfold popsBefore at hpb
              rw [hdx, hdv] at hpb
              simp only [Bool.or_eq_true, Bool.and_eq_true,
                decide_eq_true_eq] at hpb
              rcases hpb with hlt | ⟨heq, _⟩
              · exact le_of_lt hlt
              · exact le_of_eq heq
            have hux : du ≤ dxp.1 :=
              ih (some x) u h x (Or.inr rfl) du pu dxp.1 dxp.2 hdu
                (by rw [hdx])
            exact le_trans hux hxv
        · rw [show (match some b with
              | none => some x
              | some b => if popsBefore dp x b then some x else some b) =
              some b from by simp [hpb]] at h
          exact ih (some b) u h b (Or.inr rfl) du pu dv pv hdu hdv

lemma pathNodes_append_last (n : Nat) (e : E) :
    ∀ (p : List E), pathNodes n (p ++ [e]) =
      pathNodes n p ++ [other e (pathEnd n p)] := by
  have hgen : ∀ (p : List E) (n : Nat), pathNodes n (p ++ [e]) =
      pathNodes n p ++ [other e (pathEnd n p)] := by
    intro p
    induction p with
    | nil => intro n; rfl
    | cons f p ih =>
      intro n
      show n :: pathNodes (other f n) (p ++ [e]) = _
      rw [ih (other f n)]
      rfl
  exact fun p => hgen p n

/-- Reconstruction ends at the node it started from. -/
lemma recon_end {dp : DP E} (hinv : LinkInv g dir wt S dp) :
    ∀ (f v : Nat) (rp : Nat × List E), recon dp v f = some rp →
      pathEnd rp.1 rp.2 = v := by
  intro f
  induction f with
  | zero => intro v rp h; cases h
  | succ f ih =>
    intro v rp h
    unfold recon at h
    split at h
    · rw [← Option.some.inj h]
      rfl
    · rename_i d e hv
      cases hr : recon dp (other e v) f with
      | none => rw [hr] at h; cases h
      | some rq =>
        rw [hr] at h
        simp only [Option.map_some', Option.some.injEq] at h
        rw [← h]
        show pathEnd rq.1 (rq.2 ++ [e]) = v
        rw [pathEnd_append, ih (other e v) rq hr]
        exact (hinv.link v d e hv).2.2.1
    · cases h

/-- Reconstruction success is monotone in the fuel. -/
lemma recon_fuel_mono {dp : DP E} :
    ∀ (n v : Nat) (rp : Nat × List E) (m : Nat), recon dp v n = some rp →
      n ≤ m → recon dp v m = some rp := by
  intro n
  induction n with
  | zero => intro v rp m h; cases h
  | succ n ih =>
    intro v rp m h hle
    cases m with
    | zero => exact absurd hle (by omega)
    | succ m =>
      have hm : n ≤ m := by omega
      unfold recon at h
      split at h
      · rename_i d hv
        unfold recon
        rw [hv]
        exact h
      · rename_i d e hv
        replace h : (recon dp (other e v) n).map
            (fun rp => (rp.1, rp.2 ++ [e])) = some rp := h
        cases hr : recon dp (other e v) n with
        | none => rw [hr] at h; cases h
        | some rq =>
          rw [hr] at h
          unfold recon
          rw [hv]
          show (recon dp (other e v) m).map (fun rp => (rp.1, rp.2 ++ [e]))
            = some rp
          rw [ih (other e v) rq m hr hm]
          exact h
      · cases h

/-- A dp update outside the reconstructed chain does not change the
reconstruction. -/
lemma recon_update_ne {dp : DP E} (hinv : LinkInv g dir wt S dp) {v0 : Nat}
    (y0 : ℤ × Option E) :
    ∀ (f x : Nat) (rp : Nat × List E), recon dp x f = some rp →
      v0 ∉ pathNodes rp.1 rp.2 →
      recon (dpUpdate dp v0 y0) x f = some rp := by
  intro f
  induction f with
  | zero => intro x rp h; cases h
  | succ f ih =>
    intro x rp h hnv
    have hxnodes : x ∈ pathNodes rp.1 rp.2 := by
      rw [← recon_end hinv (f + 1) x rp h]
      exact pathEnd_mem_pathNodes _ _
    have hxv : x ≠ v0 := fun hh => hnv (hh ▸ hxnodes)
    have hdp' : dpUpdate dp v0 y0 x = dp x := by
      simp [dpUpdate, hxv]
    unfold recon at h
    split at h
    · rename_i d hv
      unfold recon
      rw [hdp', hv]
      exact h
    · rename_i d e hv
      replace h : (recon dp (other e x) f).map
          (fun rp => (rp.1, rp.2 ++ [e])) = some rp := h
      cases hr : recon dp (other e x) f with
      | none => rw [hr] at h; cases h
      | some rq =>
        rw [hr] at h
        simp only [Option.map_some', Option.some.injEq] at h
        have hrqnodes : v0 ∉ pathNodes rq.1 rq.2 := by
          intro hmem
          apply hnv
          rw [← h]
          show v0 ∈ pathNodes rq.1 (rq.2 ++ [e])
          rw [pathNodes_append_last]
          exact List.mem_append_left _ hmem
        unfold recon
        rw [hdp', hv]
        show (recon (dpUpdate dp v0 y0) (other e x) f).map
          (fun rp => (rp.1, rp.2 ++ [e])) = some rp
        rw [ih (other e x) rq hr hrqnodes]
        simp only [Option.map_some']
        rw [h]
    · cases h

/-- Every node on a reconstructed chain has its own terminating
reconstruction, to the same root, with a path no longer than the full one. -/
lemma recon_sub {dp : DP E} (hinv : LinkInv g dir wt S dp) :
    ∀ (f z : Nat) (rp : Nat × List E), recon dp z f = some rp →
      ∀ y ∈ pathNodes rp.1 rp.2, ∃ f2 p2, f2 ≤ f ∧
        recon dp y f2 = some (rp.1, p2) ∧ p2.length ≤ rp.2.length := by
  intro f
  induction f with
  | zero => intro z rp h; cases h
  | succ f ih =>
    intro z rp h y hy
    unfold recon at h
    split at h
    · rename_i d hv
      have hrp : rp = (z, []) := (Option.some.inj h).symm
      subst hrp
      have hyz : y = z := by
        simpa [pathNodes] using hy
      refine ⟨1, [], by omega, ?_, Nat.zero_le _⟩
      rw [hyz]
      unfold recon
      rw [hv]
    · rename_i d e hv
      replace h : (recon dp (other e z) f).map
          (fun rp => (rp.1, rp.2 ++ [e])) = some rp := h
      cases hr : recon dp (other e z) f with
      | none => rw [hr] at h; cases h
      | some rq =>
        rw [hr] at h
        simp only [Option.map_some', Option.some.injEq] at h
        rw [← h] at hy
        have hy2 : y ∈ pathNodes rq.1 (rq.2 ++ [e]) := hy
        rw [pathNodes_append_last] at hy2
        rcases List.mem_append.1 hy2 with hyq | hyl
        · obtain ⟨f2, p2, hf2, hrec2, hlen2⟩ := ih (other e z) rq hr y hyq
          refine ⟨f2, p2, by omega, ?_, ?_⟩
          · rw [← h]
            exact hrec2
          · rw [← h]
            simp only [List.length_append, List.length_cons, List.length_nil]
            omega
        · have hyz : y = z := by
            have hpe : pathEnd rq.1 rq.2 = other e z := recon_end hinv f _ rq hr
            have : y = other e (other e z) := by
              rw [← hpe]
              simpa using hyl
            rw [this]
            exact (hinv.link z d e hv).2.2.1
          refine ⟨f + 1, rp.2, le_refl _, ?_, le_refl _⟩
          rw [hyz, ← h]
          show recon dp z (f + 1) = some (rq.1, rq.2 ++ [e])
          unfold recon
          rw [hv]
          show (recon dp (other e z) f).map (fun rp => (rp.1, rp.2 ++ [e]))
            = some (rq.1, rq.2 ++ [e])
          rw [hr]
          rfl
    · cases h

/-- A successful reconstruction also succeeds with fuel one more than its
path length. -/
lemma recon_min_fuel {dp : DP E} :
    ∀ (f x : Nat) (rp : Nat × List E), recon dp x f = some rp →
      recon dp x (rp.2.length + 1) = some rp := by
  intro f
  induction f with
  | zero => intro x rp h; cases h
  | succ f ih =>
    intro x rp h
    unfold recon at h
    split at h
    · rename_i d hv
      rw [← Option.some.inj h]
      unfold recon
      rw [hv]
    · rename_i d e hv
      replace h : (recon dp (other e x) f).map
          (fun rp => (rp.1, rp.2 ++ [e])) = some rp := h
      cases hr : recon dp (other e x) f with
      | none => rw [hr] at h; cases h
      | some rq =>
        rw [hr] at h
        simp only [Option.map_some', Option.some.injEq] at h
        rw [← h]
        have hlen : (rq.1, rq.2 ++ [e]).2.length + 1 = (rq.2.length + 1) + 1 := by
          simp
        rw [hlen]
        unfold recon
        rw [hv]
        show (recon dp (other e x) (rq.2.length + 1)).map
          (fun rp => (rp.1, rp.2 ++ [e])) = some (rq.1, rq.2 ++ [e])
        rw [ih (other e x) rq hr]
        rfl
    · cases h

/-- Reconstructed chains visit pairwise distinct nodes. -/
lemma recon_nodup {dp : DP E} (hinv : LinkInv g dir wt S dp) :
    ∀ (f x : Nat) (rp : Nat × List E), recon dp x f = some rp →
      (pathNodes rp.1 rp.2).Nodup := by
  intro f
  induction f with
  | zero => intro x rp h; cases h
  | succ f ih =>
    intro x rp h
    unfold recon at h
    split at h
    · rw [← Option.some.inj h]
      simp [pathNodes]
    · rename_i d e hv
      replace h : (recon dp (other e x) f).map
          (fun rp => (rp.1, rp.2 ++ [e])) = some rp := h
      cases hr : recon dp (other e x) f with
      | none => rw [hr] at h; cases h
      | some rq =>
        rw [hr] at h
        simp only [Option.map_some', Option.some.injEq] at h
        rw [← h]
        show (pathNodes rq.1 (rq.2 ++ [e])).Nodup
        rw [pathNodes_append_last]
        have hxe : other e (pathEnd rq.1 rq.2) = x := by
          rw [recon_end hinv f _ rq hr]
          exact (hinv.link x d e hv).2.2.1
        rw [hxe]
        refine List.nodup_append.2 ⟨ih (other e x) rq hr, List.nodup_singleton x, ?_⟩
        intro a ha hax
        have hax2 : a = x := by simpa using hax
        rw [hax2] at ha
        obtain ⟨f2, p2, hf2, hrec2, hlen2⟩ := recon_sub hinv f (other e x) rq hr x ha
        have hfull : recon dp x (f + 1) = some (rq.1, rq.2 ++ [e]) := by
          unfold recon
          rw [hv]
          show (recon dp (other e x) f).map (fun rp => (rp.1, rp.2 ++ [e]))
            = some (rq.1, rq.2 ++ [e])
          rw [hr]
          rfl
        have hboth1 : recon dp x (f + 1 + f2) = some (rq.1, rq.2 ++ [e]) :=
          recon_fuel_mono (f + 1) x _ _ hfull (by omega)
        have hboth2 : recon dp x (f + 1 + f2) = some (rq.1, p2) :=
          recon_fuel_mono f2 x _ _ hrec2 (by omega)
        have heqp : (rq.2 ++ [e]) = p2 :=
          congrArg Prod.snd (Option.some.inj (hboth1.symm.trans hboth2))
        have : rq.2.length + 1 ≤ rq.2.length := by
          have := congrArg List.length heqp
          simp only [List.length_append, List.length_cons, List.length_nil] at this
          omega
        omega
    · cases h

/-- The frontier cut: a traversable walk out of a settled node either crosses
the frontier at cost within the walk weight, or stays settled and witnesses a
dp entry at its endpoint within the walk weight. -/
lemma walk_cut {dp : DP E} {fr : List Nat} {P : Finset Nat}
    (hw : ∀ e w, wt e = some w → 0 ≤ w)
    (hsettled : ∀ u0 ∈ P, ∃ d0 p0, dp u0 = some (d0, p0) ∧
      ∀ e ∈ get_edges g u0, (!dir || !directed e || decide (p1 e = u0)) = true →
        ∀ w, wt e = some w → ∃ dv pv, dp (other e u0) = some (dv, pv) ∧ dv ≤ d0 + w)
    (hcomplete : ∀ v x, dp v = some x → v ∈ P ∨ v ∈ fr) :
    ∀ (p : List E) (x z : Nat), walkB g dir x p z = true →
      allTraversable wt p = true → x ∈ P →
      ∀ dx px, dp x = some (dx, px) →
      (∃ y ∈ fr, ∃ dy py, dp y = some (dy, py) ∧ dy ≤ dx + wsum wt p) ∨
      (z ∈ P ∧ ∃ dz pz, dp z = some (dz, pz) ∧ dz ≤ dx + wsum wt p) := by
  intro p
  induction p with
  | nil =>
    intro x z hwalk _ hx dx px hdx
    have hxz : x = z := by
      simpa [walkB] using hwalk
    rw [← hxz]
    exact Or.inr ⟨hx, dx, px, hdx, by simp [wsum]⟩
  | cons e p ih =>
    intro x z hwalk htrav hx dx px hdx
    simp only [walkB, Bool.and_eq_true, decide_eq_true_eq] at hwalk
    obtain ⟨⟨hein, hout⟩, hwalk2⟩ := hwalk
    simp only [allTraversable, List.all_cons, Bool.and_eq_true] at htrav
    obtain ⟨hws, htrav2⟩ := htrav
    obtain ⟨w, hwe⟩ := Option.isSome_iff_exists.1 hws
    have htrav2' : allTraversable wt p = true := htrav2
    have hw0 : 0 ≤ w := hw e w hwe
    have hwp0 : 0 ≤ wsum wt p := wsum_nonneg hw p htrav2'
    have hwsum : wsum wt (e :: p) = w + wsum wt p := by
      rw [wsum_cons, hwe]
      rfl
    obtain ⟨d0, p0, hdp0, hrel⟩ := hsettled x hx
    have hd0 : d0 = dx := by
      rw [hdx] at hdp0
      simpa using (congrArg (fun o => (Option.map Prod.fst o).getD 0) hdp0).symm
    obtain ⟨dv, pv, hdv, hle⟩ := hrel e hein (outgoing_cond hout) w hwe
    rw [hd0] at hle
    rcases hcomplete (other e x) (dv, pv) hdv with hP | hfr
    · rcases ih (other e x) z hwalk2 htrav2' hP dv pv hdv with
        ⟨y, hy, dy, py, hdy, hley⟩ | ⟨hz, dz, pz, hdz, hlez⟩
      · refine Or.inl ⟨y, hy, dy, py, hdy, ?_⟩
        rw [hwsum]
        linarith
      · refine Or.inr ⟨hz, dz, pz, hdz, ?_⟩
        rw [hwsum]
        linarith
    · refine Or.inl ⟨other e x, hfr, dv, pv, hdv, ?_⟩
      rw [hwsum]
      linarith

/-- One-step unfolding of recon at a link entry. -/
lemma recon_succ_link {dp : DP E} {v : Nat} {d : ℤ} {e : E}
    (h : dp v = some (d, some e)) (n : Nat) :
    recon dp v (n + 1) =
      (recon dp (other e v) n).map (fun rp => (rp.1, rp.2 ++ [e])) := by
  conv_lhs => unfold recon
  rw [h]

/-- One-step unfolding of recon at a root entry. -/
lemma recon_succ_root {dp : DP E} {v : Nat} {d : ℤ}
    (h : dp v = some (d, none)) (n : Nat) :
    recon dp v (n + 1) = some (v, []) := by
  unfold recon
  rw [h]

/-- The relaxation frontier only grows. -/
lemma relaxOne_fr_sub (u : Nat) (du : ℤ) (st : DP E × List Nat) (e : E) :
    ∀ v ∈ st.2, v ∈ (relaxOne dir wt u du st e).2 := by
  intro v hv
  unfold relaxOne
  split
  · cases hwe : wt e with
    | none => exact hv
    | some w =>
      simp only
      split
      · split
        · exact mem_pushFr.2 (Or.inr hv)
        · exact hv
      · exact mem_pushFr.2 (Or.inr hv)
  · exact hv

/-- An actual dp update during the relaxation of the popped node u preserves
the mid-relaxation invariant.  The update target is other e u at distance
du + w; the hypotheses summarise what holds in both the fresh-entry and the
strict-improvement branches of graph.rs 232-235. -/
lemma relaxUpd_mid {u : Nat} {du w : ℤ} {P : Finset Nat} {dp : DP E}
    {fr : List Nat} {e : E} (hwf : WF g) (hw0 : 0 ≤ w)
    (he : e ∈ get_edges g u)
    (hmid : DijkMid g dir wt S P u du dp fr)
    (hlink2 : LinkInv g dir wt S (dpUpdate dp (other e u) (du + w, some e)))
    (hvQ : other e u ∉ insert u P)
    (hvnotS : other e u ∉ S)
    (hmono : ∀ d2 p2, dp (other e u) = some (d2, p2) → du + w ≤ d2) :
    DijkMid g dir wt S P u du (dpUpdate dp (other e u) (du + w, some e))
      (pushFr (other e u) fr) := by
  obtain ⟨pu, hu⟩ := hmid.uentry
  have hdu0 : 0 ≤ du := hmid.nonnegd u du pu hu
  have hdpv : dpUpdate dp (other e u) (du + w, some e) (other e u) =
      some (du + w, some e) := by
    simp [dpUpdate]
  have hdpne : ∀ x, x ≠ other e u →
      dpUpdate dp (other e u) (du + w, some e) x = dp x := by
    intro x hx
    simp [dpUpdate, hx]
  have huv : u ≠ other e u :=
    fun hh => hvQ (hh ▸ Finset.mem_insert_self u P)
  constructor
  · exact hlink2
  · intro x d pe hx
    by_cases hxv : x = other e u
    · rw [hxv, hdpv] at hx
      simp only [Option.some.injEq, Prod.mk.injEq] at hx
      rw [← hx.1]
      linarith
    · rw [hdpne x hxv] at hx
      exact hmid.nonnegd x d pe hx
  · intro s hs
    obtain ⟨pe, hse⟩ := hmid.src s hs
    have hsv : s ≠ other e u := fun hh => hvnotS (hh ▸ hs)
    exact ⟨pe, by rw [hdpne s hsv]; exact hse⟩
  · intro x d hx
    by_cases hxv : x = other e u
    · left
      have hend := hwf.endpoints u e he
      rw [hxv]
      unfold other
      split
      · exact hend.2
      · exact hend.1
    · rw [hdpne x hxv] at hx
      exact hmid.dom x d hx
  · intro x hxfr
    by_cases hxv : x = other e u
    · exact ⟨(du + w, some e), by rw [hxv]; exact hdpv⟩
    · rcases mem_pushFr.1 hxfr with hh | hh
      · exact absurd hh hxv
      · obtain ⟨y, hy⟩ := hmid.frdom x hh
        exact ⟨y, by rw [hdpne x hxv]; exact hy⟩
  · intro x y hxy
    by_cases hxv : x = other e u
    · exact Or.inr (mem_pushFr.2 (Or.inl hxv))
    · rw [hdpne x hxv] at hxy
      rcases hmid.complete x y hxy with h1 | h2
      · exact Or.inl h1
      · exact Or.inr (mem_pushFr.2 (Or.inr h2))
  · intro q hq hqfr
    rcases mem_pushFr.1 hqfr with hh | hh
    · exact hvQ (hh ▸ hq)
    · exact hmid.pdisj q hq hh
  · intro u0 hu0
    obtain ⟨d0, p0, hdp0, hrel0⟩ := hmid.settledP u0 hu0
    have hu0v : u0 ≠ other e u :=
      fun hh => hvQ (hh ▸ Finset.mem_insert_of_mem hu0)
    refine ⟨d0, p0, by rw [hdpne u0 hu0v]; exact hdp0, ?_⟩
    intro e2 he2 hc2 w2 hw2
    obtain ⟨dv2, pv2, hdv2, hle2⟩ := hrel0 e2 he2 hc2 w2 hw2
    by_cases htv : other e2 u0 = other e u
    · have hmle : du + w ≤ dv2 := hmono dv2 pv2 (htv ▸ hdv2)
      exact ⟨du + w, some e, by rw [htv]; exact hdpv, by linarith⟩
    · exact ⟨dv2, pv2, by rw [hdpne _ htv]; exact hdv2, hle2⟩
  · exact ⟨pu, by rw [hdpne u huv]; exact hu⟩
  · intro u0 hu0 x hxfr d0 p0 dx px hd0 hdx
    have hu0v : u0 ≠ other e u := fun hh => hvQ (hh ▸ hu0)
    rw [hdpne u0 hu0v] at hd0
    have hd0du : d0 ≤ du := hmid.duP u0 hu0 d0 p0 hd0
    by_cases hxv : x = other e u
    · rw [hxv, hdpv] at hdx
      simp only [Option.some.injEq, Prod.mk.injEq] at hdx
      rw [← hdx.1]
      linarith
    · rw [hdpne x hxv] at hdx
      rcases mem_pushFr.1 hxfr with hh | hh
      · exact absurd hh hxv
      · exact hmid.sfr u0 hu0 x hh d0 p0 dx px hd0 hdx
  · intro u0 hu0 d0 p0 hd0
    have hu0v : u0 ≠ other e u := fun hh => hvQ (hh ▸ hu0)
    rw [hdpne u0 hu0v] at hd0
    exact hmid.duP u0 hu0 d0 p0 hd0
  · intro x dx pex hx
    by_cases hxv : x = other e u
    · obtain ⟨rpu, hrecu, hchainu⟩ := hmid.reconok u du pu hu
      have hchainQ : ∀ y ∈ pathNodes rpu.1 rpu.2, y ∈ insert u P := by
        intro y hy
        rcases hchainu y hy with hyu | hyQ
        · rw [hyu]; exact Finset.mem_insert_self u P
        · exact hyQ
      have hnodupu : (pathNodes rpu.1 rpu.2).Nodup :=
        recon_nodup hmid.linkInv _ u rpu hrecu
      have hlenle : rpu.2.length + 1 ≤ (insert u P).card := by
        have h1 : (pathNodes rpu.1 rpu.2).length = rpu.2.length + 1 :=
          pathNodes_length _ _
        have h2 : (pathNodes rpu.1 rpu.2).toFinset.card =
            (pathNodes rpu.1 rpu.2).length :=
          List.toFinset_card_of_nodup hnodupu
        have h3 : (pathNodes rpu.1 rpu.2).toFinset ⊆ insert u P :=
          fun y hy => hchainQ y (List.mem_toFinset.1 hy)
        have h4 := Finset.card_le_card h3
        omega
      have hfuelu : recon dp u (insert u P).card = some rpu :=
        recon_fuel_mono _ u rpu _ (recon_min_fuel _ u rpu hrecu) hlenle
      have havoidu : other e u ∉ pathNodes rpu.1 rpu.2 :=
        fun hmem => hvQ (hchainQ _ hmem)
      have hupd : recon (dpUpdate dp (other e u) (du + w, some e)) u
          (insert u P).card = some rpu :=
        recon_update_ne hmid.linkInv _ _ u rpu hfuelu havoidu
      have hoo : other e (other e u) = u := other_other hwf he
      have hrecv : recon (dpUpdate dp (other e u) (du + w, some e)) (other e u)
          ((insert u P).card + 1) = some (rpu.1, rpu.2 ++ [e]) := by
        rw [recon_succ_link hdpv (insert u P).card, hoo, hupd]
        rfl
      refine ⟨(rpu.1, rpu.2 ++ [e]), by rw [hxv]; exact hrecv, ?_⟩
      intro y hy
      replace hy : y ∈ pathNodes rpu.1 (rpu.2 ++ [e]) := hy
      rw [pathNodes_append_last] at hy
      rcases List.mem_append.1 hy with hyq | hyl
      · exact Or.inr (hchainQ y hyq)
      · have hpe : pathEnd rpu.1 rpu.2 = u := recon_end hmid.linkInv _ u rpu hrecu
        have hyv : y = other e u := by
          simpa [hpe] using hyl
        exact Or.inl (hyv.trans hxv.symm)
    · rw [hdpne x hxv] at hx
      obtain ⟨rp, hrec, hchain⟩ := hmid.reconok x dx pex hx
      have havoid : other e u ∉ pathNodes rp.1 rp.2 := by
        intro hmem
        rcases hchain _ hmem with h1 | h2
        · exact hxv h1.symm
        · exact hvQ h2
      exact ⟨rp, recon_update_ne hmid.linkInv _ _ x rp hrec havoid, hchain⟩
  · exact nodup_pushFr hmid.frnodup

/-- One relaxation step preserves the mid-relaxation invariant and establishes
the relaxed bound for its edge. -/
lemma relaxOne_pres {u : Nat} {du : ℤ} {P : Finset Nat} {dp : DP E}
    {fr : List Nat} {e : E} (hwf : WF g)
    (hw : ∀ e w, wt e = some w → 0 ≤ w)
    (he : e ∈ get_edges g u)
    (hmid : DijkMid g dir wt S P u du dp fr) :
    DijkMid g dir wt S P u du (relaxOne dir wt u du (dp, fr) e).1
      (relaxOne dir wt u du (dp, fr) e).2 ∧
    ((!dir || !directed e || decide (p1 e = u)) = true → ∀ w, wt e = some w →
      ∃ dv pv, (relaxOne dir wt u du (dp, fr) e).1 (other e u) = some (dv, pv) ∧
        dv ≤ du + w) := by
  by_cases hcond : (!dir || !directed e || decide (p1 e = u)) = true
  case neg =>
    have hre : relaxOne dir wt u du (dp, fr) e = (dp, fr) := by
      unfold relaxOne
      rw [if_neg hcond]
    rw [hre]
    exact ⟨hmid, fun hc => absurd hc hcond⟩
  case pos =>
  obtain ⟨pu, hu⟩ := hmid.uentry
  cases hwe : wt e with
  | none =>
    have hre : relaxOne dir wt u du (dp, fr) e = (dp, fr) := by
      unfold relaxOne
      rw [if_pos hcond, hwe]
    rw [hre]
    refine ⟨hmid, fun _ w2 hw2 => ?_⟩
    cases hw2
  | some w =>
    have hw0 : 0 ≤ w := hw e w hwe
    cases hdv : dp (other e u) with
    | some vdp =>
      obtain ⟨vd, pv⟩ := vdp
      by_cases himp : du + w < vd
      · have hre : relaxOne dir wt u du (dp, fr) e =
            (dpUpdate dp (other e u) (du + w, some e), pushFr (other e u) fr) := by
          unfold relaxOne
          rw [if_pos hcond, hwe]
          show (match dp (other e u) with
            | some (vd, _) =>
              if vd > du + w then
                (dpUpdate dp (other e u) (du + w, some e), pushFr (other e u) fr)
              else (dp, fr)
            | none =>
              (dpUpdate dp (other e u) (du + w, some e),
                pushFr (other e u) fr)) = _
          rw [hdv]
          show (if vd > du + w then
              (dpUpdate dp (other e u) (du + w, some e), pushFr (other e u) fr)
            else (dp, fr)) = _
          rw [if_pos himp]
        have hvQ : other e u ∉ insert u P := by
          intro hvq
          have := hmid.duP (other e u) hvq vd pv hdv
          linarith
        have hvnotS : other e u ∉ S := by
          intro hvs
          obtain ⟨pe, hse⟩ := hmid.src _ hvs
          rw [hse] at hdv
          simp only [Option.some.injEq, Prod.mk.injEq] at hdv
          have hdu0 : 0 ≤ du := hmid.nonnegd u du pu hu
          have hvd0 : vd = 0 := hdv.1.symm
          linarith
        have hmono : ∀ d2 p2, dp (other e u) = some (d2, p2) → du + w ≤ d2 := by
          intro d2 p2 hd2
          rw [hdv] at hd2
          simp only [Option.some.injEq, Prod.mk.injEq] at hd2
          rw [← hd2.1]
          exact le_of_lt himp
        have hlink2 : LinkInv g dir wt S
            (dpUpdate dp (other e u) (du + w, some e)) := by
          have h0 := @relaxOne_inv E _ _ g dir wt S u du (dp, fr) e hwf
            hmid.linkInv he ⟨du, pu, hu, le_refl du⟩
          rw [hre] at h0
          exact h0
        rw [hre]
        refine ⟨relaxUpd_mid hwf hw0 he hmid hlink2 hvQ hvnotS hmono, ?_⟩
        intro _ w2 hw2
        have hww : w = w2 := Option.some.inj hw2
        refine ⟨du + w, some e, by simp [dpUpdate], by rw [← hww]⟩
      · have hre : relaxOne dir wt u du (dp, fr) e = (dp, fr) := by
          unfold relaxOne
          rw [if_pos hcond, hwe]
          show (match dp (other e u) with
            | some (vd, _) =>
              if vd > du + w then
                (dpUpdate dp (other e u) (du + w, some e), pushFr (other e u) fr)
              else (dp, fr)
            | none =>
              (dpUpdate dp (other e u) (du + w, some e),
                pushFr (other e u) fr)) = _
          rw [hdv]
          show (if vd > du + w then
              (dpUpdate dp (other e u) (du + w, some e), pushFr (other e u) fr)
            else (dp, fr)) = _
          rw [if_neg himp]
        rw [hre]
        refine ⟨hmid, ?_⟩
        intro _ w2 hw2
        have hww : w = w2 := Option.some.inj hw2
        refine ⟨vd, pv, hdv, ?_⟩
        rw [← hww]
        exact le_of_not_lt himp
    | none =>
      have hre : relaxOne dir wt u du (dp, fr) e =
          (dpUpdate dp (other e u) (du + w, some e), pushFr (other e u) fr) := by
        unfold relaxOne
        rw [if_pos hcond, hwe]
        show (match dp (other e u) with
          | some (vd, _) =>
            if vd > du + w then
              (dpUpdate dp (other e u) (du + w, some e), pushFr (other e u) fr)
            else (dp, fr)
          | none =>
            (dpUpdate dp (other e u) (du + w, some e),
              pushFr (other e u) fr)) = _
        rw [hdv]
      have hvQ : other e u ∉ insert u P := by
        intro hvq
        rcases Finset.mem_insert.1 hvq with h1 | h2
        · rw [h1, hu] at hdv
          cases hdv
        · obtain ⟨d0, p0, hd0, _⟩ := hmid.settledP _ h2
          rw [hd0] at hdv
          cases hdv
      have hvnotS : other e u ∉ S := by
        intro hvs
        obtain ⟨pe, hse⟩ := hmid.src _ hvs
        rw [hse] at hdv
        cases hdv
      have hmono : ∀ d2 p2, dp (other e u) = some (d2, p2) → du + w ≤ d2 := by
        intro d2 p2 hd2
        rw [hdv] at hd2
        cases hd2
      have hlink2 : LinkInv g dir wt S
          (dpUpdate dp (other e u) (du + w, some e)) := by
        have h0 := @relaxOne_inv E _ _ g dir wt S u du (dp, fr) e hwf
          hmid.linkInv he ⟨du, pu, hu, le_refl du⟩
        rw [hre] at h0
        exact h0
      rw [hre]
      refine ⟨relaxUpd_mid hwf hw0 he hmid hlink2 hvQ hvnotS hmono, ?_⟩
      intro _ w2 hw2
      have hww : w = w2 := Option.some.inj hw2
      refine ⟨du + w, some e, by simp [dpUpdate], by rw [← hww]⟩

/-- Relaxation only lowers dp entries (list version). -/
lemma relaxAll_le (u : Nat) (du : ℤ) :
    ∀ (es : List E) (st : DP E × List Nat) (v : Nat) (d : ℤ) (pr : Option E),
      st.1 v = some (d, pr) →
      ∃ d2 pr2, (relaxAll dir wt u du es st).1 v = some (d2, pr2) ∧ d2 ≤ d := by
  intro es
  induction es with
  | nil => exact fun st v d pr h => ⟨d, pr, h, le_refl d⟩
  | cons e es ih =>
    intro st v d pr h
    obtain ⟨d1, pr1, h1, hle1⟩ := relaxOne_le u du st e v d pr h
    obtain ⟨d2, pr2, h2, hle2⟩ := ih (relaxOne dir wt u du st e) v d1 pr1 h1
    refine ⟨d2, pr2, ?_, le_trans hle2 hle1⟩
    show (relaxAll dir wt u du es (relaxOne dir wt u du st e)).1 v = some (d2, pr2)
    exact h2

/-- Relaxing a list of edges of u preserves the mid-relaxation invariant and
establishes the relaxed bound for each listed edge. -/
lemma relaxAll_pres {u : Nat} {du : ℤ} {P : Finset Nat} (hwf : WF g)
    (hw : ∀ e w, wt e = some w → 0 ≤ w) :
    ∀ (es : List E) (dp : DP E) (fr : List Nat),
      (∀ e ∈ es, e ∈ get_edges g u) →
      DijkMid g dir wt S P u du dp fr →
      DijkMid g dir wt S P u du (relaxAll dir wt u du es (dp, fr)).1
        (relaxAll dir wt u du es (dp, fr)).2 ∧
      ∀ e ∈ es, (!dir || !directed e || decide (p1 e = u)) = true →
        ∀ w, wt e = some w →
          ∃ dv pv, (relaxAll dir wt u du es (dp, fr)).1 (other e u) =
            some (dv, pv) ∧ dv ≤ du + w := by
  intro es
  induction es with
  | nil =>
    exact fun dp fr _ hmid => ⟨hmid, fun e he => absurd he (List.not_mem_nil e)⟩
  | cons e es ih =>
    intro dp fr hes hmid
    obtain ⟨hmid1, hpost1⟩ :=
      relaxOne_pres hwf hw (hes e (List.mem_cons_self e es)) hmid
    obtain ⟨hmid2, hpost2⟩ := ih (relaxOne dir wt u du (dp, fr) e).1
      (relaxOne dir wt u du (dp, fr) e).2
      (fun e2 he2 => hes e2 (List.mem_cons_of_mem e he2)) hmid1
    have heq : relaxAll dir wt u du (e :: es) (dp, fr) =
        relaxAll dir wt u du es ((relaxOne dir wt u du (dp, fr) e).1,
          (relaxOne dir wt u du (dp, fr) e).2) := by
      unfold relaxAll
      rw [List.foldl_cons]
    rw [heq]
    refine ⟨hmid2, ?_⟩
    intro e2 he2 hc2 w2 hw2
    rcases List.mem_cons.1 he2 with h1 | h2
    · subst h1
      obtain ⟨dv, pv, hdv, hle⟩ := hpost1 hc2 w2 hw2
      obtain ⟨dv2, pv2, hdv2, hle2⟩ := relaxAll_le u du es
        ((relaxOne dir wt u du (dp, fr) e2).1,
          (relaxOne dir wt u du (dp, fr) e2).2) (other e2 u) dv pv hdv
      exact ⟨dv2, pv2, hdv2, le_trans hle2 hle⟩
    · exact hpost2 e2 h2 hc2 w2 hw2

/-- One full main-loop iteration from an invariant state: the popped node has
an entry, and after relaxing all its edges from the queue-erased state the
invariant holds with the node settled. -/
lemma dijk_step {dp : DP E} {fr : List Nat} {P : Finset Nat} {u : Nat}
    (hwf : WF g) (hw : ∀ e w, wt e = some w → 0 ≤ w)
    (hinv : DijkInv g dir wt S T dp fr P)
    (hpop : popMin dp fr = some u) (huT : u ∉ T) :
    ∃ du pu, dp u = some (du, pu) ∧ u ∉ P ∧
      DijkInv g dir wt S T
        (relaxAll dir wt u du (get_edges g u) (dp, fr.erase u)).1
        (relaxAll dir wt u du (get_edges g u) (dp, fr.erase u)).2
        (insert u P) := by
  have hufr : u ∈ fr := popMin_mem' hpop
  obtain ⟨⟨du, pu⟩, hx⟩ := hinv.frdom u hufr
  have hmid : DijkMid g dir wt S P u du dp (fr.erase u) := by
    constructor
    · exact hinv.linkInv
    · exact hinv.nonnegd
    · exact hinv.src
    · exact hinv.dom
    · exact fun v hv => hinv.frdom v (List.erase_subset _ _ hv)
    · intro v y hy
      rcases hinv.complete v y hy with h1 | h2
      · exact Or.inl (Finset.mem_insert_of_mem h1)
      · by_cases hvu : v = u
        · exact Or.inl (hvu ▸ Finset.mem_insert_self u P)
        · exact Or.inr ((List.Nodup.mem_erase_iff hinv.frnodup).2 ⟨hvu, h2⟩)
    · intro v hv
      rcases Finset.mem_insert.1 hv with h1 | h2
      · rw [h1]
        exact hinv.frnodup.not_mem_erase
      · intro hmem
        exact hinv.pdisj v h2 (List.erase_subset _ _ hmem)
    · exact hinv.settled
    · exact ⟨pu, hx⟩
    · intro u0 hu0 v hvfr d0 p0 dv pv hd0 hdv
      have hvfr2 : v ∈ fr := List.erase_subset _ _ hvfr
      rcases Finset.mem_insert.1 hu0 with h1 | h2
      · rw [h1] at hd0
        have hmin := popMin_min_aux fr none u hpop v (Or.inl hvfr2) du pu dv pv hx hdv
        have hdd : d0 = du := by
          rw [hx] at hd0
          simpa using (congrArg (fun o => (Option.map Prod.fst o).getD 0) hd0).symm
        rw [hdd]
        exact hmin
      · exact hinv.sfr u0 h2 v hvfr2 d0 p0 dv pv hd0 hdv
    · intro u0 hu0 d0 p0 hd0
      rcases Finset.mem_insert.1 hu0 with h1 | h2
      · rw [h1, hx] at hd0
        simp only [Option.some.injEq, Prod.mk.injEq] at hd0
        exact le_of_eq hd0.1.symm
      · exact hinv.sfr u0 h2 u hufr d0 p0 du pu hd0 hx
    · intro v d pe hv
      obtain ⟨rp, hrec, hchain⟩ := hinv.reconok v d pe hv
      refine ⟨rp, recon_fuel_mono _ v rp _ hrec ?_, fun y hy => ?_⟩
      · have := Finset.card_le_card (Finset.subset_insert u P)
        omega
      · rcases hchain y hy with h1 | h2
        · exact Or.inl h1
        · exact Or.inr (Finset.mem_insert_of_mem h2)
    · exact hinv.frnodup.erase u
  obtain ⟨hmid2, hpost⟩ := relaxAll_pres hwf hw (get_edges g u) dp (fr.erase u)
    (fun e2 he2 => he2) hmid
  have hunotP : u ∉ P := fun hP => hinv.pdisj u hP hufr
  refine ⟨du, pu, hx, hunotP, ?_⟩
  constructor
  · exact hmid2.linkInv
  · exact hmid2.nonnegd
  · exact hmid2.src
  · exact hmid2.dom
  · exact hmid2.frdom
  · exact hmid2.complete
  · exact hmid2.pdisj
  · intro u0 hu0
    rcases Finset.mem_insert.1 hu0 with h1 | h2
    · subst h1
      obtain ⟨pu2, hu2⟩ := hmid2.uentry
      exact ⟨du, pu2, hu2, fun e2 he2 hc2 w2 hw2 => hpost e2 he2 hc2 w2 hw2⟩
    · exact hmid2.settledP u0 h2
  · exact hmid2.sfr
  · intro u0 hu0
    rcases Finset.mem_insert.1 hu0 with h1 | h2
    · rw [h1]
      exact huT
    · exact hinv.pnotT u0 h2
  · exact hmid2.reconok
  · exact hmid2.frnodup

/-- The Dijkstra main loop, from any invariant state with sufficient fuel:
a found result is no heavier than any traversable walk from a source into the
target region, an unreachable result excludes all such walks, and the loop
never runs out of fuel. -/
lemma dijk_loop_main (hwf : WF g) (hw : ∀ e w, wt e = some w → 0 ≤ w)
    {rfuel : Nat} (hrfuel : (g.nodes ∪ S.toFinset).card < rfuel) :
    ∀ (fuel : Nat) (dp : DP E) (fr : List Nat) (P : Finset Nat),
      DijkInv g dir wt S T dp fr P →
      (g.nodes ∪ S.toFinset).card < fuel + P.card →
      (∀ root u2 p, dijkstra_loop g dir wt T rfuel dp fr fuel = .found root u2 p →
        ∀ s q t2, s ∈ S → t2 ∈ T → walkB g dir s q t2 = true →
          allTraversable wt q = true → wsum wt p ≤ wsum wt q) ∧
      (dijkstra_loop g dir wt T rfuel dp fr fuel = .unreachable →
        ∀ s q t2, s ∈ S → t2 ∈ T → walkB g dir s q t2 = true →
          allTraversable wt q = true → False) ∧
      dijkstra_loop g dir wt T rfuel dp fr fuel ≠ .fuelOut := by
  intro fuel
  induction fuel with
  | zero =>
    intro dp fr P hinv hfuel
    exfalso
    have hPsub : P ⊆ g.nodes ∪ S.toFinset := by
      intro v hv
      obtain ⟨d0, p0, hd0, _⟩ := hinv.settled v hv
      rcases hinv.dom v _ hd0 with h1 | h2
      · exact Finset.mem_union_left _ h1
      · exact Finset.mem_union_right _ (List.mem_toFinset.2 h2)
    have := Finset.card_le_card hPsub
    omega
  | succ fuel ih =>
    intro dp fr P hinv hfuel
    have hPsub : P ⊆ g.nodes ∪ S.toFinset := by
      intro v hv
      obtain ⟨d0, p0, hd0, _⟩ := hinv.settled v hv
      rcases hinv.dom v _ hd0 with h1 | h2
      · exact Finset.mem_union_left _ h1
      · exact Finset.mem_union_right _ (List.mem_toFinset.2 h2)
    have hPcard := Finset.card_le_card hPsub
    cases hpop : popMin dp fr with
    | none =>
      have hres : dijkstra_loop g dir wt T rfuel dp fr (fuel + 1) =
          .unreachable := by
        unfold dijkstra_loop
        rw [hpop]
      have hfrnil : fr = [] := by
        by_contra hne
        obtain ⟨u2, hu2⟩ := @popMin_isSome E _ _ dp fr hne
        rw [hpop] at hu2
        cases hu2
      refine ⟨?_, ?_, ?_⟩
      · intro root u2 p hf
        rw [hres] at hf
        cases hf
      · intro _ s q t2 hs ht2 hwalk htrav
        obtain ⟨pe, hse⟩ := hinv.src s hs
        have hsP : s ∈ P := by
          rcases hinv.complete s _ hse with h1 | h2
          · exact h1
          · rw [hfrnil] at h2
            cases h2
        rcases walk_cut hw hinv.settled hinv.complete q s t2 hwalk htrav hsP
            0 pe hse with ⟨y, hy, _⟩ | ⟨ht2P, _⟩
        · rw [hfrnil] at hy
          cases hy
        · exact hinv.pnotT t2 ht2P ht2
      · rw [hres]
        exact fun hh => DijkRes.noConfusion hh
    | some u =>
      by_cases huT : u ∈ T
      · have hufr : u ∈ fr := popMin_mem' hpop
        obtain ⟨⟨du, pu⟩, hu⟩ := hinv.frdom u hufr
        obtain ⟨rp, hrec, hchain⟩ := hinv.reconok u du pu hu
        have hrecf : recon dp u rfuel = some rp :=
          recon_fuel_mono _ u rp _ hrec (by omega)
        have hres : dijkstra_loop g dir wt T rfuel dp fr (fuel + 1) =
            .found rp.1 u rp.2 := by
          unfold dijkstra_loop
          rw [hpop]
          show (if u ∈ T then
              (match recon dp u rfuel with
                | some rp => DijkRes.found rp.1 u rp.2
                | none => DijkRes.fuelOut)
            else
              (match dp u with
                | some du =>
                  dijkstra_loop g dir wt T rfuel
                    (relaxAll dir wt u du.1 (get_edges g u) (dp, fr.erase u)).1
                    (relaxAll dir wt u du.1 (get_edges g u) (dp, fr.erase u)).2
                    fuel
                | none => DijkRes.fuelOut)) = _
          rw [if_pos huT]
          rw [hrecf]
        have hcut : ∀ s q t2, s ∈ S → t2 ∈ T → walkB g dir s q t2 = true →
            allTraversable wt q = true → du ≤ wsum wt q := by
          intro s q t2 hs ht2 hwalk htrav
          obtain ⟨pe, hse⟩ := hinv.src s hs
          have hq0 : 0 ≤ wsum wt q := wsum_nonneg hw q htrav
          rcases hinv.complete s _ hse with hsP | hsfr
          · rcases walk_cut hw hinv.settled hinv.complete q s t2 hwalk htrav
                hsP 0 pe hse with ⟨y, hy, dy, py, hdy, hley⟩ | ⟨ht2P, _⟩
            · have hduy : du ≤ dy :=
                popMin_min_aux fr none u hpop y (Or.inl hy) du pu dy py hu hdy
              linarith
            · exact absurd ht2 (hinv.pnotT t2 ht2P)
          · have hdus : du ≤ 0 :=
              popMin_min_aux fr none u hpop s (Or.inl hsfr) du pu 0 pe hu hse
            linarith
        refine ⟨?_, ?_, ?_⟩
        · intro root u2 p hf
          rw [hres] at hf
          injection hf with h1 h2 h3
          intro s q t2 hs ht2 hwalk htrav
          obtain ⟨_, _, _, d2, pr2, hd2, hwsum⟩ :=
            recon_sound hinv.linkInv rfuel u rp.1 rp.2 hrecf
          have hd2du : d2 = du := by
            rw [hu] at hd2
            simpa using (congrArg (fun o => (Option.map Prod.fst o).getD 0) hd2).symm
          rw [← h3]
          have := hcut s q t2 hs ht2 hwalk htrav
          linarith
        · intro hunr
          rw [hres] at hunr
          cases hunr
        · rw [hres]
          exact fun hh => DijkRes.noConfusion hh
      · obtain ⟨du, pu, hu, hunotP, hinv2⟩ := dijk_step hwf hw hinv hpop huT
        have hres : dijkstra_loop g dir wt T rfuel dp fr (fuel + 1) =
            dijkstra_loop g dir wt T rfuel
              (relaxAll dir wt u du (get_edges g u) (dp, fr.erase u)).1
              (relaxAll dir wt u du (get_edges g u) (dp, fr.erase u)).2 fuel := by
          conv_lhs => unfold dijkstra_loop
          rw [hpop]
          show (if u ∈ T then
              (match recon dp u rfuel with
                | some rp => DijkRes.found rp.1 u rp.2
                | none => DijkRes.fuelOut)
            else
              (match dp u with
                | some du =>
                  dijkstra_loop g dir wt T rfuel
                    (relaxAll dir wt u du.1 (get_edges g u) (dp, fr.erase u)).1
                    (relaxAll dir wt u du.1 (get_edges g u) (dp, fr.erase u)).2
                    fuel
                | none => DijkRes.fuelOut)) = _
          rw [if_neg huT, hu]
        rw [hres]
        refine ih _ _ (insert u P) hinv2 ?_
        rw [Finset.card_insert_of_not_mem hunotP]
        omega

/-- The full Dijkstra invariant holds in the initial state of a single-source
run: dp maps the source to (0, none), the frontier is the source alone, and no
node is settled. -/
lemma dijkInit_inv (n1 : Nat) :
    DijkInv g dir wt [n1] T (dpInit [n1]) [n1] ∅ := by
  have hval : ∀ v : Nat, v ∈ ([n1] : List Nat) →
      (dpInit [n1] : DP E) v = some (0, none) := by
    intro v hv
    unfold dpInit
    rw [if_pos hv]
  have hnone : ∀ v : Nat, v ∉ ([n1] : List Nat) → (dpInit [n1] : DP E) v = none := by
    intro v hv
    unfold dpInit
    rw [if_neg hv]
  constructor
  · exact linkInv_dpInit
  · intro v d pe hv
    by_cases hvS : v ∈ ([n1] : List Nat)
    · rw [hval v hvS] at hv
      simp only [Option.some.injEq, Prod.mk.injEq] at hv
      exact le_of_eq hv.1
    · rw [hnone v hvS] at hv
      cases hv
  · intro s hs
    exact ⟨none, hval s hs⟩
  · intro v x hv
    by_cases hvS : v ∈ ([n1] : List Nat)
    · exact Or.inr hvS
    · rw [hnone v hvS] at hv
      cases hv
  · intro v hv
    exact ⟨(0, none), hval v hv⟩
  · intro v x hv
    by_cases hvS : v ∈ ([n1] : List Nat)
    · exact Or.inr hvS
    · rw [hnone v hvS] at hv
      cases hv
  · intro v hv
    cases Finset.not_mem_empty v hv
  · intro u0 hu0
    cases Finset.not_mem_empty u0 hu0
  · intro u0 hu0
    cases Finset.not_mem_empty u0 hu0
  · intro u0 hu0
    cases Finset.not_mem_empty u0 hu0
  · intro v d pe hv
    by_cases hvS : v ∈ ([n1] : List Nat)
    · refine ⟨(v, []), ?_, ?_⟩
      · exact recon_succ_root (hval v hvS) (Finset.card (∅ : Finset Nat))
      · intro y hy
        left
        simpa [pathNodes] using hy
    · rw [hnone v hvS] at hv
      cases hv
  · exact List.nodup_singleton n1

end DijkOpt

/-- C3: for every graph, nodes n1 and n2, and weight function returning only
nonnegative weights (none meaning not traversable), pathfind returns some path
only if that path is a walk from n1 to n2 over traversable edges respecting
direction whose total weight is minimal among all such walks, and returns none
exactly when no such walk exists. -/
theorem claim_C3 {E : Type} [EdgeLike E] [DecidableEq E] (g : Graph E)
    (dir : Bool) (wt : E → Option ℤ) (n1 n2 : Nat) (hwf : WF g)
    (hw : ∀ e w, wt e = some w → 0 ≤ w) :
    (∀ p, pathfind g dir wt n1 n2 = some p →
      walkB g dir n1 p n2 = true ∧ allTraversable wt p = true ∧
      ∀ q, walkB g dir n1 q n2 = true → allTraversable wt q = true →
        wsum wt p ≤ wsum wt q) ∧
    (pathfind g dir wt n1 n2 = none ↔
      ¬∃ q, walkB g dir n1 q n2 = true ∧ allTraversable wt q = true) := by
  have hfuel : dijkFuel g [n1] = g.nodes.card + 2 := rfl
  have hcard : (g.nodes ∪ ([n1] : List Nat).toFinset).card < dijkFuel g [n1] := by
    rw [hfuel]
    have h1 : (g.nodes ∪ ([n1] : List Nat).toFinset).card ≤
        g.nodes.card + ([n1] : List Nat).toFinset.card := Finset.card_union_le _ _
    have h2 : ([n1] : List Nat).toFinset.card ≤ 1 := by simp
    omega
  obtain ⟨hfound, hunre, hfout⟩ :=
    @dijk_loop_main E _ _ g dir wt [n1] {n2} hwf hw (dijkFuel g [n1]) hcard
      (dijkFuel g [n1]) (dpInit [n1]) [n1] ∅ (dijkInit_inv n1) (by simpa using hcard)
  constructor
  · intro p hp
    obtain ⟨hwalk, htrav⟩ := pathfind_sound hwf hp
    refine ⟨hwalk, htrav, ?_⟩
    intro q hq htq
    unfold pathfind at hp
    cases hres : dijkstra_loop g dir wt {n2} (dijkFuel g [n1]) (dpInit [n1]) [n1]
        (dijkFuel g [n1]) with
    | found r u p2 =>
      rw [hres] at hp
      simp only [Option.some.injEq] at hp
      subst hp
      exact hfound r u p2 hres n1 q n2 (List.mem_singleton_self n1)
        (Finset.mem_singleton_self n2) hq htq
    | unreachable =>
      rw [hres] at hp
      cases hp
    | fuelOut =>
      rw [hres] at hp
      cases hp
  · constructor
    · intro hnone hex
      obtain ⟨q, hq, htq⟩ := hex
      unfold pathfind at hnone
      cases hres : dijkstra_loop g dir wt {n2} (dijkFuel g [n1]) (dpInit [n1]) [n1]
          (dijkFuel g [n1]) with
      | found r u p2 =>
        rw [hres] at hnone
        cases hnone
      | unreachable =>
        exact hunre hres n1 q n2 (List.mem_singleton_self n1)
          (Finset.mem_singleton_self n2) hq htq
      | fuelOut => exact hfout hres
    · intro hno
      cases hp : pathfind g dir wt n1 n2 with
      | none => rfl
      | some p =>
        obtain ⟨hwalk, htrav⟩ := pathfind_sound hwf hp
        exact absurd ⟨p, hwalk, htrav⟩ hno

/-- Witness for C3 on the triangle graph with unit weights, from node 0 to
node 2. -/
theorem claim_C3_witness :
    WF gTri ∧ (∀ e w, (fun _ : TEdge => some (1 : ℤ)) e = some w → 0 ≤ w) ∧
    ((∀ p, pathfind gTri false (fun _ => some (1 : ℤ)) 0 2 = some p →
        walkB gTri false 0 p 2 = true ∧
        allTraversable (fun _ => some (1 : ℤ)) p = true ∧
        ∀ q, walkB gTri false 0 q 2 = true →
          allTraversable (fun _ => some (1 : ℤ)) q = true →
          wsum (fun _ => some (1 : ℤ)) p ≤ wsum (fun _ => some (1 : ℤ)) q) ∧
      (pathfind gTri false (fun _ => some (1 : ℤ)) 0 2 = none ↔
        ¬∃ q, walkB gTri false 0 q 2 = true ∧
          allTraversable (fun _ => some (1 : ℤ)) q = true)) :=
  ⟨wf_add_edge (wf_add_edge (wf_add_edge (wf_emptyBuckets _))),
   fun _ w h => by
     simp only [Option.some.injEq] at h
     omega,
   claim_C3 gTri false (fun _ => some (1 : ℤ)) 0 2
     (wf_add_edge (wf_add_edge (wf_add_edge (wf_emptyBuckets _))))
     (fun _ w h => by
       simp only [Option.some.injEq] at h
       omega)⟩

end SNOMOR
